import Mathlib

/-!
# ICPC scoreboard: ledger, comparator, ranking engine, freeze/scroll

A shallow embedding of `src/main.cpp` (`Submission`, `ProblemStatus`, `Team`,
`ICPCSystem`) and theorems about it.

Modelling conventions.

* `int` is `Int`.  `penaltyTime` adds up times read from the input and can leave
  the range of a 32-bit `int` on a short input, so `updateStats` reduces it with
  `wrapInt`, the two's complement value the compiled program stores.  The
  counters that move by one per command or per list element (`solvedCount`,
  `wrongAttempts`, `frozenSubmissions`, `nextSubmissionId`, `ranking`) are not
  reduced: they stay below `2^31` on every input a run can read.
* `char` is `Char`.  The loop `for (char p = 'A'; p < 'A' + problemCount; p++)`
  is the list `letters problemCount`; the loop returns only for
  `problemCount ≤ 62` (for a larger count the signed `char` counter never
  reaches the bound).  The theorems on `updateStats` and `startCompetition` called
  with an arbitrary count carry that bound; every state of a run has at most 26
  problems (`'A'..'Z'`).
* `std::map<K, V>` is a finite partial function `K → Option V`.  `m[k]` on a
  missing key default-constructs the value and inserts it; the places that
  write through `m[k]` are modelled with `Map.set` on the default-filled value.
  Read-only uses inside `compareTeams`, `printScoreboard` and the selection
  loop of `scroll` read the default-constructed value for a missing key.
* `std::sort` is an insertion sort driven by the same comparator
  (`sortWith`); for a comparator that is a strict total order on the sorted
  elements every correct sort returns the same sequence.
* Lines written to `cout` are values of `Message`, one constructor per line.
-/

namespace ICPC

/-! ## Data model -/

/-- The record `struct Submission`. -/
structure Submission where
  problem : Char
  status : String
  time : Int
  submissionId : Int
deriving DecidableEq, Repr

/-- The record `struct ProblemStatus`, with its default member initialisers. -/
structure ProblemStatus where
  solved : Bool := false
  solveTime : Int := 0
  wrongAttempts : Int := 0
  frozenSubmissions : Int := 0
  frozenWrongAttempts : Int := 0
  submissions : List Submission := []
deriving DecidableEq, Repr

/-- Writing `m[k] = v` on a `std::map`. -/
def Map.set {κ ν : Type} [DecidableEq κ] (m : κ → Option ν) (k : κ) (v : ν) : κ → Option ν :=
  fun k' => if k' = k then some v else m k'

/-- The record `struct Team`. -/
structure Team where
  name : String
  problems : Char → Option ProblemStatus := fun _ => none
  solvedCount : Int := 0
  penaltyTime : Int := 0
  ranking : Int := 0

/-- A value-initialised `Team`, what `teams[name]` creates for a missing key. -/
def Team.empty : Team := { name := "" }

/-- The problem letters visited by `for (char p = 'A'; p < 'A' + problemCount; p++)`,
for `problemCount ≤ 62`: the counter is a signed `char`, at most 127, so for a
larger `problemCount` the loop condition never fails and the loop does not return. -/
def letters (problemCount : Int) : List Char :=
  (List.range problemCount.toNat).map (fun i => Char.ofNat (65 + i))

/-- The value of `problems[p]`. -/
def Team.problem (t : Team) (p : Char) : ProblemStatus :=
  (t.problems p).getD {}

/-- The team after `problems[p] = ps`. -/
def Team.setProblem (t : Team) (p : Char) (ps : ProblemStatus) : Team :=
  { t with problems := Map.set t.problems p ps }

/-- The value a 32-bit two's complement `int` holds after an arithmetic result `x`:
`x` itself when `-2^31 ≤ x < 2^31`, and `x` reduced modulo `2^32` into that range
otherwise. -/
def wrapInt (x : Int) : Int :=
  (x + 2147483648) % 4294967296 - 2147483648

/-- The method `Team::updateStats`. The field `penaltyTime` is an `int` that
accumulates times read from the input, so the result of
`penaltyTime += solveTime + 20 * wrongAttempts` is reduced to 32 bits; reducing the
final value is the same as reducing the product and each of the two sums. -/
def Team.updateStats (t : Team) (problemCount : Int) : Team :=
  (letters problemCount).foldl
    (fun t p =>
      let ps := t.problem p
      let t := { t with problems := Map.set t.problems p ps }
      if ps.solved then
        { t with solvedCount := t.solvedCount + 1
                 penaltyTime := wrapInt (t.penaltyTime + (ps.solveTime + 20 * ps.wrongAttempts)) }
      else t)
    { t with solvedCount := 0, penaltyTime := 0 }

/-- The state of `class ICPCSystem`. -/
structure ICPCSystem where
  teams : String → Option Team := fun _ => none
  teamNames : List String := []
  started : Bool := false
  frozen : Bool := false
  durationTime : Int := 0
  problemCount : Int := 0
  freezeTime : Int := -1
  nextSubmissionId : Int := 0

/-- The freshly constructed system. -/
def ICPCSystem.init : ICPCSystem := {}

/-- The value of `teams[name]`. -/
def ICPCSystem.team (s : ICPCSystem) (name : String) : Team :=
  (s.teams name).getD Team.empty

/-! ## Sorting -/

/-- Insert `a` in front of the first element it precedes. -/
def insertWith {α : Type} (lt : α → α → Bool) (a : α) : List α → List α
  | [] => [a]
  | b :: l => if lt a b then a :: b :: l else b :: insertWith lt a l

/-- The call `std::sort(first, last, lt)`. -/
def sortWith {α : Type} (lt : α → α → Bool) (l : List α) : List α :=
  l.foldr (insertWith lt) []

/-- The call `sort(v.rbegin(), v.rend())`: ascending order on the reversed view. -/
def sortDescending (v : List Int) : List Int :=
  (sortWith (fun a b => decide (a < b)) v.reverse).reverse

/-! ## Comparator and ranking engine -/

/-- The comparison `a < b` of two `std::string`s: lexicographic on the characters. -/
def stringLess (a b : String) : Bool :=
  decide (a.toList < b.toList)

/-- The solve times pushed by the loop of `compareTeams`, in letter order. -/
def solveTimes (t : Team) (problemCount : Int) : List Int :=
  (letters problemCount).filterMap
    (fun p => if (t.problem p).solved then some (t.problem p).solveTime else none)

/-- The loop `for (i < minSize) if (timesA[i] != timesB[i]) return timesA[i] < timesB[i]`:
the verdict at the first differing index, if there is one. -/
def firstDifference : List Int → List Int → Option Bool
  | a :: as, b :: bs => if a ≠ b then some (decide (a < b)) else firstDifference as bs
  | _, _ => none

/-- The method `ICPCSystem::compareTeams`. -/
def compareTeams (s : ICPCSystem) (a b : String) : Bool :=
  let ta := s.team a
  let tb := s.team b
  if ta.solvedCount ≠ tb.solvedCount then decide (ta.solvedCount > tb.solvedCount)
  else if ta.penaltyTime ≠ tb.penaltyTime then decide (ta.penaltyTime < tb.penaltyTime)
  else
    match firstDifference (sortDescending (solveTimes ta s.problemCount))
        (sortDescending (solveTimes tb s.problemCount)) with
    | some r => r
    | none => stringLess a b

/-- The loop `for (i) teams[teamNames[i]].ranking = i + 1`, started at index `i`. -/
def assignRankings (i : Nat) : List String → (String → Option Team) → (String → Option Team)
  | [], tm => tm
  | n :: ns, tm =>
    assignRankings (i + 1) ns (Map.set tm n { (tm n).getD Team.empty with ranking := (i : Int) + 1 })

/-- The first loop of `updateRankings`: `updateStats` on every team of the map. -/
def refreshStats (s : ICPCSystem) : ICPCSystem :=
  { s with teams := fun n => (s.teams n).map (fun t => t.updateStats s.problemCount) }

/-- The method `ICPCSystem::updateRankings`. -/
def updateRankings (s : ICPCSystem) : ICPCSystem :=
  let s1 := refreshStats s
  let names := sortWith (compareTeams s1) s1.teamNames
  { s1 with teamNames := names, teams := assignRankings 0 names s1.teams }

/-! ## Output lines -/

/-- The lines the system prints. -/
inductive Message where
  /-- Line `[Error]Add failed: competition has started.` -/
  | addFailedStarted
  /-- Line `[Error]Add failed: duplicated team name.` -/
  | addFailedDuplicate
  /-- Line `[Info]Add successfully.` -/
  | addOk
  /-- Line `[Error]Start failed: competition has started.` -/
  | startFailed
  /-- Line `[Info]Competition starts.` -/
  | startOk
  /-- Line `[Info]Flush scoreboard.` -/
  | flushOk
  /-- Line `[Error]Freeze failed: scoreboard has been frozen.` -/
  | freezeFailed
  /-- Line `[Info]Freeze scoreboard.` -/
  | freezeOk
  /-- Line `[Error]Scroll failed: scoreboard has not been frozen.` -/
  | scrollFailed
  /-- Line `[Info]Scroll scoreboard.` -/
  | scrollOk
  /-- One scoreboard row: name, ranking, solved count, penalty time, problem cells. -/
  | row (name : String) (ranking solvedCount penaltyTime : Int) (cells : List String)
  /-- A rank change: moved team, replaced team, solved count, penalty time. -/
  | rankChange (team replaced : String) (solvedCount penaltyTime : Int)
  /-- Line `[Error]Query ranking failed: cannot find the team.` -/
  | queryRankingFailed
  /-- Line `[Info]Complete query ranking.` -/
  | queryRankingOk
  /-- Line `[Warning]Scoreboard is frozen. ...` -/
  | frozenWarning
  /-- Line `name NOW AT RANKING r`. -/
  | nowAtRanking (name : String) (ranking : Int)
  /-- Line `[Error]Query submission failed: cannot find the team.` -/
  | querySubmissionFailed
  /-- Line `[Info]Complete query submission.` -/
  | querySubmissionOk
  /-- Line `Cannot find any submission.` -/
  | cannotFind
  /-- Line `team problem status time`. -/
  | lastSubmission (team : String) (problem : Char) (status : String) (time : Int)
deriving DecidableEq, Repr

/-- The lines that start with `[Error]`. -/
def Message.isError : Message → Bool
  | .addFailedStarted | .addFailedDuplicate | .startFailed | .freezeFailed
  | .scrollFailed | .queryRankingFailed | .querySubmissionFailed => true
  | _ => false

/-- The method `ICPCSystem::getProblemDisplay`. -/
def getProblemDisplay (ps : ProblemStatus) (isFrozen : Bool) : String :=
  if isFrozen then
    (if ps.wrongAttempts > 0 then "-" else "") ++ toString ps.wrongAttempts ++ "/" ++
      toString ps.frozenSubmissions
  else if ps.solved then
    if ps.wrongAttempts = 0 then "+" else "+" ++ toString ps.wrongAttempts
  else
    if ps.wrongAttempts = 0 then "." else "-" ++ toString ps.wrongAttempts

/-- The test `!ps.solved && ps.frozenSubmissions > 0`. -/
def ProblemStatus.pending (ps : ProblemStatus) : Bool :=
  !ps.solved && decide (ps.frozenSubmissions > 0)

/-- The method `ICPCSystem::printScoreboard`. -/
def printScoreboard (s : ICPCSystem) : List Message :=
  s.teamNames.map (fun name =>
    let t := s.team name
    Message.row name t.ranking t.solvedCount t.penaltyTime
      ((letters s.problemCount).map (fun p =>
        getProblemDisplay (t.problem p) (s.frozen && (t.problem p).pending))))

/-! ## Operations -/

/-- The method `ICPCSystem::addTeam`. -/
def addTeam (s : ICPCSystem) (name : String) : ICPCSystem × List Message :=
  if s.started then (s, [.addFailedStarted])
  else if (s.teams name).isSome then (s, [.addFailedDuplicate])
  else
    ({ s with teams := Map.set s.teams name { name := name }
              teamNames := s.teamNames ++ [name] }, [.addOk])

/-- The method `ICPCSystem::startCompetition`. -/
def startCompetition (s : ICPCSystem) (duration problems : Int) : ICPCSystem × List Message :=
  if s.started then (s, [.startFailed])
  else
    let teams1 : String → Option Team := fun n =>
      (s.teams n).map (fun t =>
        { t with problems := (letters problems).foldl (fun m p => Map.set m p {}) t.problems })
    let names := sortWith stringLess s.teamNames
    ({ s with started := true, durationTime := duration, problemCount := problems
              teamNames := names, teams := assignRankings 0 names teams1 }, [.startOk])

/-- The outcome applied to an unsolved problem: `Accepted` latches the solve,
any other status counts a wrong attempt; a solved problem is left alone. -/
def ProblemStatus.apply (ps : ProblemStatus) (status : String) (time : Int) : ProblemStatus :=
  if !ps.solved then
    if status = "Accepted" then { ps with solved := true, solveTime := time }
    else { ps with wrongAttempts := ps.wrongAttempts + 1 }
  else ps

/-- The body of `submit` on the problem status `ps`: the submission is appended;
while frozen an unsolved problem counts one more frozen submission, otherwise the
outcome is applied. -/
def ProblemStatus.record (ps : ProblemStatus) (frozen : Bool) (sub : Submission) :
    ProblemStatus :=
  let ps := { ps with submissions := ps.submissions ++ [sub] }
  if frozen then
    if !ps.solved then { ps with frozenSubmissions := ps.frozenSubmissions + 1 } else ps
  else ps.apply sub.status sub.time

/-- The method `ICPCSystem::submit`. -/
def submit (s : ICPCSystem) (problem : Char) (teamName status : String) (time : Int) :
    ICPCSystem :=
  let team := s.team teamName
  let ps := (team.problem problem).record s.frozen ⟨problem, status, time, s.nextSubmissionId⟩
  { s with
    teams := Map.set s.teams teamName (team.setProblem problem ps)
    nextSubmissionId := s.nextSubmissionId + 1 }

/-- The method `ICPCSystem::flush`. -/
def flush (s : ICPCSystem) : ICPCSystem × List Message :=
  (updateRankings s, [.flushOk])

/-- The method `ICPCSystem::freeze`. -/
def freeze (s : ICPCSystem) : ICPCSystem × List Message :=
  if s.frozen then (s, [.freezeFailed])
  else ({ s with frozen := true }, [.freezeOk])

/-- The inner loop of the selection: does the team have a pending problem. -/
def hasFrozen (t : Team) (problemCount : Int) : Bool :=
  (letters problemCount).any (fun p => (t.problem p).pending)

/-- The selection loop of `scroll`: `(hasAnyFrozen, lowestTeam, lowestRanking)`. -/
def findLowest (s : ICPCSystem) : Bool × String × Int :=
  s.teamNames.foldl
    (fun acc name =>
      let t := s.team name
      if hasFrozen t s.problemCount then
        if t.ranking > acc.2.2 then (true, name, t.ranking) else (true, acc.2.1, acc.2.2)
      else acc)
    (false, "", -1)

/-- The search for `smallestProblem`, which starts at `'Z' + 1`. -/
def smallestProblem (t : Team) (problemCount : Int) : Char :=
  ((letters problemCount).find? (fun p => (t.problem p).pending)).getD (Char.ofNat 91)

/-- The replay of the frozen tail of a problem followed by `frozenSubmissions = 0`.
The start index is never negative in a well-formed state (`frozenSubmissions` is at
most the number of stored submissions). -/
def unfreeze (ps : ProblemStatus) : ProblemStatus :=
  let totalSubs : Int := ps.submissions.length
  let startIdx := totalSubs - ps.frozenSubmissions
  let ps1 := (ps.submissions.drop startIdx.toNat).foldl
    (fun acc sub => acc.apply sub.status sub.time) ps
  { ps1 with frozenSubmissions := 0 }

/-- The local `map<int, string> rankToTeam` built from the roster. -/
def rankToTeam (s : ICPCSystem) : Int → Option String :=
  s.teamNames.foldl (fun m name => Map.set m (s.team name).ranking name) (fun _ => none)

/-- The state after the reveal of one problem and before the recompute. -/
def reveal (s : ICPCSystem) (lowestTeam : String) : ICPCSystem :=
  let team := s.team lowestTeam
  let p := smallestProblem team s.problemCount
  { s with teams := Map.set s.teams lowestTeam (team.setProblem p (unfreeze (team.problem p))) }

/-- One pass through the body of `while (true)` in `scroll`: `none` is the `break`,
otherwise the next state and the lines printed by the pass. -/
def scrollIteration (s : ICPCSystem) : Option (ICPCSystem × List Message) :=
  let sel := findLowest s
  if !sel.1 then none
  else
    let lowestTeam := sel.2.1
    let oldRanking := (s.team lowestTeam).ranking
    let s1 := reveal s lowestTeam
    let r2t := rankToTeam s1
    let s2 := updateRankings s1
    let team := s2.team lowestTeam
    let newRanking := team.ranking
    if newRanking < oldRanking then
      some (s2, [.rankChange lowestTeam ((r2t newRanking).getD "") team.solvedCount
        team.penaltyTime])
    else some (s2, [])

/-- The loop `while (true)` of `scroll`, run for at most `fuel` evaluations of its
head: the final state, the lines printed and the number of reveals performed.
The result is `none` when the fuel does not reach the `break`. -/
def scrollLoop : Nat → ICPCSystem → Option (ICPCSystem × List Message × Nat)
  | 0, _ => none
  | fuel + 1, s =>
    match scrollIteration s with
    | none => some (s, [], 0)
    | some (s', out) =>
      (scrollLoop fuel s').map (fun r => (r.1, out ++ r.2.1, r.2.2 + 1))

/-- The method `ICPCSystem::scroll`, its loop bounded by `fuel`. -/
def scroll (fuel : Nat) (s : ICPCSystem) : Option (ICPCSystem × List Message) :=
  if !s.frozen then some (s, [.scrollFailed])
  else
    let s1 := updateRankings s
    (scrollLoop fuel s1).map (fun r =>
      ({ r.1 with frozen := false },
        [Message.scrollOk] ++ printScoreboard s1 ++ r.2.1 ++ printScoreboard r.1))

/-- The method `ICPCSystem::queryRanking`. -/
def queryRanking (s : ICPCSystem) (name : String) : ICPCSystem × List Message :=
  match s.teams name with
  | none => (s, [.queryRankingFailed])
  | some t =>
    (s, [Message.queryRankingOk] ++ (if s.frozen then [Message.frozenWarning] else []) ++
      [Message.nowAtRanking name t.ranking])

/-- The first character `problemName[0]` (the terminator for an empty string). -/
def firstChar (problemName : String) : Char :=
  problemName.toList.headD (Char.ofNat 0)

/-- The update of `lastSub` by one submission in `querySubmission`. -/
def pickLater (statusName : String) (lastSub : Option Submission) (sub : Submission) :
    Option Submission :=
  if statusName = "ALL" ∨ sub.status = statusName then
    match lastSub with
    | none => some sub
    | some l => if sub.submissionId > l.submissionId then some sub else lastSub
  else lastSub

/-- The scan of `querySubmission`: the value of `lastSub` after the loops. -/
def findLastSubmission (s : ICPCSystem) (team : Team) (problemName statusName : String) :
    Option Submission :=
  (letters s.problemCount).foldl
    (fun lastSub p =>
      if problemName ≠ "ALL" ∧ p ≠ firstChar problemName then lastSub
      else
        match team.problems p with
        | none => lastSub
        | some ps => ps.submissions.foldl (pickLater statusName) lastSub)
    none

/-- The method `ICPCSystem::querySubmission`. -/
def querySubmission (s : ICPCSystem) (teamName problemName statusName : String) :
    ICPCSystem × List Message :=
  match s.teams teamName with
  | none => (s, [.querySubmissionFailed])
  | some team =>
    (s, [Message.querySubmissionOk,
      match findLastSubmission s team problemName statusName with
      | none => Message.cannotFind
      | some sub => Message.lastSubmission teamName sub.problem sub.status sub.time])

/-! ## Operation sequences -/

/-- The commands dispatched by `main`. -/
inductive Op where
  | addTeam (name : String)
  | startCompetition (duration problems : Int)
  | submit (problem : Char) (teamName status : String) (time : Int)
  | flush
  | freeze
  | scroll
  | queryRanking (name : String)
  | querySubmission (teamName problemName statusName : String)
deriving DecidableEq, Repr

/-- Valid inputs: at most 26 problems, and a submission names a registered team and
a problem letter within the configured count of a started contest. -/
def Op.valid (s : ICPCSystem) : Op → Prop
  | .startCompetition _ problems => problems ≤ 26
  | .submit problem teamName _ _ =>
    s.started = true ∧ (s.teams teamName).isSome = true ∧ problem ∈ letters s.problemCount
  | _ => True

/-- One command applied to the system; `fuel` bounds the loop of `scroll`. -/
def step (fuel : Nat) (s : ICPCSystem) : Op → Option (ICPCSystem × List Message)
  | .addTeam name => some (addTeam s name)
  | .startCompetition duration problems => some (startCompetition s duration problems)
  | .submit problem teamName status time => some (submit s problem teamName status time, [])
  | .flush => some (flush s)
  | .freeze => some (freeze s)
  | .scroll => scroll fuel s
  | .queryRanking name => some (queryRanking s name)
  | .querySubmission teamName problemName statusName =>
    some (querySubmission s teamName problemName statusName)

/-- The states reachable from the initial one through commands with valid inputs. -/
inductive Reachable : ICPCSystem → Prop where
  | init : Reachable ICPCSystem.init
  | step {s s' : ICPCSystem} {op : Op} {fuel : Nat} {out : List Message} :
    Reachable s → op.valid s → step fuel s op = some (s', out) → Reachable s'

/-- The run of a list of commands, each with the same loop bound. -/
def run (fuel : Nat) : ICPCSystem → List Op → Option ICPCSystem
  | s, [] => some s
  | s, op :: ops =>
    match step fuel s op with
    | none => none
    | some r => run fuel r.1 ops

/-! ## Derived quantities used in the statements -/

/-- The number of solved problems among the configured letters. -/
def countSolved (t : Team) (problemCount : Int) : Int :=
  ((letters problemCount).countP (fun p => (t.problem p).solved) : Nat)

/-- The sum of `solveTime + 20 * wrongAttempts` over the solved configured letters. -/
def sumPenalty (t : Team) (problemCount : Int) : Int :=
  (((letters problemCount).filter (fun p => (t.problem p).solved)).map
    (fun p => (t.problem p).solveTime + 20 * (t.problem p).wrongAttempts)).sum

/-- The penalty that `updateStats` stores: the sum `sumPenalty` as a 32-bit `int`. -/
def storedPenalty (t : Team) (problemCount : Int) : Int :=
  wrapInt (sumPenalty t problemCount)

/-- Every cached `solvedCount` and `penaltyTime` is what `updateStats` computes. -/
def StatsCurrent (s : ICPCSystem) : Prop :=
  ∀ n t, s.teams n = some t →
    t.solvedCount = (t.updateStats s.problemCount).solvedCount ∧
    t.penaltyTime = (t.updateStats s.problemCount).penaltyTime

/-- The relation `compareTeams` is a strict total order on the roster. -/
def StrictTotalOnRoster (s : ICPCSystem) : Prop :=
  (∀ a ∈ s.teamNames, compareTeams s a a = false) ∧
  (∀ a ∈ s.teamNames, ∀ b ∈ s.teamNames,
    ¬ (compareTeams s a b = true ∧ compareTeams s b a = true)) ∧
  (∀ a ∈ s.teamNames, ∀ b ∈ s.teamNames, ∀ c ∈ s.teamNames,
    compareTeams s a b = true → compareTeams s b c = true → compareTeams s a c = true) ∧
  (∀ a ∈ s.teamNames, ∀ b ∈ s.teamNames, a ≠ b →
    (compareTeams s a b = true ∧ compareTeams s b a = false) ∨
    (compareTeams s b a = true ∧ compareTeams s a b = false))

/-- The pending frozen submissions of one team over the configured letters. -/
def teamPending (t : Team) (problemCount : Int) : Nat :=
  ((letters problemCount).map (fun p => (t.problem p).frozenSubmissions.toNat)).sum

/-- The pending frozen submissions over the whole roster. -/
def totalPending (s : ICPCSystem) : Nat :=
  (s.teamNames.map (fun n => teamPending (s.team n) s.problemCount)).sum

/-- The structural invariant of the reachable states. -/
structure WellFormed (s : ICPCSystem) : Prop where
  nodup : s.teamNames.Nodup
  roster : ∀ n, n ∈ s.teamNames ↔ (s.teams n).isSome = true
  keys : ∀ n t, s.teams n = some t →
    ∀ p, (t.problems p).isSome = true ↔ p ∈ letters s.problemCount
  count : s.problemCount ≤ 26
  notStarted : s.started = false → s.problemCount = 0
  rankNonneg : ∀ n t, s.teams n = some t → 0 ≤ t.ranking
  pending : ∀ n t p ps, s.teams n = some t → t.problems p = some ps →
    0 ≤ ps.frozenSubmissions ∧ (ps.solved = true → ps.frozenSubmissions = 0) ∧
    (s.frozen = false → ps.frozenSubmissions = 0) ∧
    ps.frozenSubmissions ≤ ps.submissions.length
  ledger : ∀ n t p ps, s.teams n = some t → t.problems p = some ps →
    ∀ sub ∈ ps.submissions, sub.problem = p ∧ sub.submissionId < s.nextSubmissionId
  distinct : ∀ n t p ps q qs, s.teams n = some t → t.problems p = some ps →
    t.problems q = some qs → ∀ x ∈ ps.submissions, ∀ y ∈ qs.submissions,
    x.submissionId = y.submissionId → x = y

/-- The ranks are the roster positions: the team at index `i` has ranking `i + 1`. -/
def Ranked (s : ICPCSystem) : Prop :=
  ∀ i (h : i < s.teamNames.length), (s.team (s.teamNames.get ⟨i, h⟩)).ranking = (i : Int) + 1

/-- A sample team: problem `A` solved at 20 after one wrong attempt, problem `B`
solved at 50 at the first attempt, problem `C` unsolved after three wrong attempts. -/
def sampleTeam : Team :=
  { name := "T"
    problems :=
      Map.set (Map.set (Map.set (fun _ => none)
        'A' { solved := true, solveTime := 20, wrongAttempts := 1 })
        'B' { solved := true, solveTime := 50 })
        'C' { wrongAttempts := 3 } }

/-- A contest of one team and one problem: a rejected attempt, then an accepted one
at time `2147483647`, the largest `int`. -/
def overflowContest : ICPCSystem :=
  submit (submit (startCompetition (addTeam ICPCSystem.init "T").1 2147483647 1).1
    'A' "T" "Wrong_Answer" 1) 'A' "T" "Accepted" 2147483647

/-- The ranking key of a team: solved count (descending), penalty time, the
descending solve times, the name, compared in dictionary order. -/
def rankKey (s : ICPCSystem) (a : String) : Lex (ℤᵒᵈ × Lex (ℤ × Lex (List ℤ × List Char))) :=
  toLex (OrderDual.toDual (s.team a).solvedCount,
    toLex ((s.team a).penaltyTime,
      toLex (sortDescending (solveTimes (s.team a) s.problemCount), a.toList)))

/-- The cached solved count of every team, registered or not, is its number of
solved problems. -/
def CountsCurrent (s : ICPCSystem) : Prop :=
  ∀ a, (s.team a).solvedCount = countSolved (s.team a) s.problemCount

/-- The states at the head of the loop of `scroll` called in state `s₀`: the
state after the initial recompute, and the state after every pass. -/
inductive LoopState (s₀ : ICPCSystem) : ICPCSystem → Prop where
  | entry : LoopState s₀ (updateRankings s₀)
  | pass {s s' : ICPCSystem} {out : List Message} :
    LoopState s₀ s → scrollIteration s = some (s', out) → LoopState s₀ s'

/-- No stored problem status has a frozen submission left. -/
def NoPending (s : ICPCSystem) : Prop :=
  ∀ n t p ps, s.teams n = some t → t.problems p = some ps → ps.frozenSubmissions = 0

/-- The contest of the end-to-end scenario before its `flush`: teams `A` and `B`,
two problems, `A` solves problem `A` at 15 after one wrong attempt, `B` solves it
at 5. -/
def contestBeforeFlush : ICPCSystem :=
  submit (submit (submit
    (startCompetition (addTeam (addTeam ICPCSystem.init "A").1 "B").1 120 2).1
    'A' "A" "Wrong_Answer" 10) 'A' "A" "Accepted" 15) 'A' "B" "Accepted" 5

/-- A contest with stale statistics: teams `x`, `y`, `z`, one problem, `x` solves
it at 7 and `z` at 5, and no recompute has run since. -/
def staleContest : ICPCSystem :=
  submit (submit
    (startCompetition (addTeam (addTeam (addTeam ICPCSystem.init "x").1 "y").1 "z").1 60 1).1
    'A' "x" "Accepted" 7) 'A' "z" "Accepted" 5

/-- The end-to-end contest frozen, with one pending `Accepted` of team `A` on
problem `B`. -/
def frozenContest : ICPCSystem :=
  submit (freeze contestBeforeFlush).1 'B' "A" "Accepted" 30

/-- The submission is stored in some submission list of the team. -/
def Stored (t : Team) (sub : Submission) : Prop :=
  ∃ p ps, t.problems p = some ps ∧ sub ∈ ps.submissions

/-- The submission passes the status filter. -/
def statusMatches (statusName : String) (sub : Submission) : Prop :=
  statusName = "ALL" ∨ sub.status = statusName

/-- The submission passes the problem filter and the status filter. -/
def Matches (problemName statusName : String) (sub : Submission) : Prop :=
  (problemName = "ALL" ∨ sub.problem = firstChar problemName) ∧ statusMatches statusName sub

/-- The value `r` of `lastSub` after a scan of the submissions `C` that started from
`acc`: it is empty exactly when it was empty and no scanned submission passes the
status filter; otherwise it is the start value or a scanned submission passing the
filter, with a sequence number at least that of the start value and of every
scanned submission passing the filter. -/
def Latest (statusName : String) (C : Submission → Prop) (acc r : Option Submission) : Prop :=
  (r = none ↔ acc = none ∧ ∀ x, C x → ¬ statusMatches statusName x) ∧
  ∀ v, r = some v →
    (acc = some v ∨ (C v ∧ statusMatches statusName v)) ∧
    (∀ a, acc = some a → a.submissionId ≤ v.submissionId) ∧
    ∀ x, C x → statusMatches statusName x → x.submissionId ≤ v.submissionId

/-- A command succeeded: it printed no error line. -/
def succeeded (out : List Message) : Bool :=
  !(out.any Message.isError)

/-- The successful `freeze` and `scroll` commands of a run of commands, in order
(`none` when a `scroll` runs out of fuel). -/
def freezeScrollTrace (fuel : Nat) : ICPCSystem → List Op → Option (List Op)
  | _, [] => some []
  | s, op :: ops =>
    match step fuel s op with
    | none => none
    | some r =>
      (freezeScrollTrace fuel r.1 ops).map (fun tr =>
        if (op = Op.freeze ∨ op = Op.scroll) ∧ succeeded r.2 = true then op :: tr else tr)

/-- The trace alternates between `freeze` and `scroll`; `frozen` tells which one is
due: a `freeze` when it is `false`, a `scroll` when it is `true`. -/
def alternating : Bool → List Op → Bool
  | _, [] => true
  | frozen, Op.freeze :: tr => !frozen && alternating true tr
  | frozen, Op.scroll :: tr => frozen && alternating false tr
  | _, _ :: _ => false

/-- Every stored problem status satisfies `P`. -/
def StatusInv (P : ProblemStatus → Prop) (s : ICPCSystem) : Prop :=
  ∀ n t p ps, s.teams n = some t → t.problems p = some ps → P ps

/-- The solve state of a problem status: `solved`, `solveTime`, `wrongAttempts`. -/
def ProblemStatus.core (ps : ProblemStatus) : Bool × Int × Int :=
  (ps.solved, ps.solveTime, ps.wrongAttempts)

/-- The replay of a list of submissions, in order, from a fresh status, each one
applied under the first-write-wins rule of real-time processing. -/
def replay (subs : List Submission) : ProblemStatus :=
  subs.foldl (fun acc sub => acc.apply sub.status sub.time) {}

/-- The submissions of a status that are not pending: the first
`|submissions| - frozenSubmissions` entries. -/
def ProblemStatus.applied (ps : ProblemStatus) : List Submission :=
  ps.submissions.take ((ps.submissions.length : Int) - ps.frozenSubmissions).toNat

/-- The solve state of the status is the replay of its applied submissions. -/
def Replayed (ps : ProblemStatus) : Prop :=
  ps.core = (replay ps.applied).core

/-- The submission is `Accepted`. -/
def Submission.accepted (sub : Submission) : Bool :=
  decide (sub.status = "Accepted")

/-- The cached statistics of every team, registered or not, are the values computed
from its problem statuses. -/
def AllCurrent (s : ICPCSystem) : Prop :=
  ∀ a, (s.team a).solvedCount = countSolved (s.team a) s.problemCount ∧
    (s.team a).penaltyTime = storedPenalty (s.team a) s.problemCount

/-- The submission of a list of `(problem, team, status, time)` in order. -/
def submitAll (s : ICPCSystem) (L : List (Char × String × String × Int)) : ICPCSystem :=
  L.foldl (fun s x => submit s x.1 x.2.1 x.2.2.1 x.2.2.2) s

/-- Two states hold the same ledger: the same roster up to order, the same
configuration and submission counter, the same registered teams with the same names
and problem letters, and the same submission list under every letter. -/
structure Agree (a b : ICPCSystem) : Prop where
  roster : a.teamNames.Perm b.teamNames
  problemCount : a.problemCount = b.problemCount
  started : a.started = b.started
  durationTime : a.durationTime = b.durationTime
  freezeTime : a.freezeTime = b.freezeTime
  nextSubmissionId : a.nextSubmissionId = b.nextSubmissionId
  stored : ∀ n, (a.teams n).isSome = (b.teams n).isSome
  name : ∀ n, (a.team n).name = (b.team n).name
  keys : ∀ n p, ((a.team n).problems p).isSome = ((b.team n).problems p).isSome
  ledger : ∀ n p, ((a.team n).problem p).submissions = ((b.team n).problem p).submissions ∧
    ((a.team n).problem p).frozenWrongAttempts = ((b.team n).problem p).frozenWrongAttempts

/-! ## Maps -/

@[simp] theorem Map.set_same {κ ν : Type} [DecidableEq κ] (m : κ → Option ν) (k : κ) (v : ν) :
    Map.set m k v k = some v := by
  simp [Map.set]

theorem Map.set_other {κ ν : Type} [DecidableEq κ] (m : κ → Option ν) {k k' : κ} (v : ν)
    (h : k' ≠ k) : Map.set m k v k' = m k' := by
  simp [Map.set, h]

theorem Map.set_apply {κ ν : Type} [DecidableEq κ] (m : κ → Option ν) (k k' : κ) (v : ν) :
    Map.set m k v k' = if k' = k then some v else m k' := rfl

/-! ## Sorting -/

theorem insertWith_perm {α : Type} (lt : α → α → Bool) (a : α) (l : List α) :
    (insertWith lt a l).Perm (a :: l) := by
  induction l with
  | nil => simp [insertWith]
  | cons b l ih =>
    simp only [insertWith]
    split
    · exact List.Perm.refl _
    · exact (List.Perm.cons b ih).trans (List.Perm.swap a b l)

theorem sortWith_perm {α : Type} (lt : α → α → Bool) (l : List α) :
    (sortWith lt l).Perm l := by
  induction l with
  | nil => simp [sortWith]
  | cons a l ih =>
    have h : sortWith lt (a :: l) = insertWith lt a (sortWith lt l) := rfl
    rw [h]
    exact (insertWith_perm lt a _).trans (List.Perm.cons a ih)

theorem sortWith_length {α : Type} (lt : α → α → Bool) (l : List α) :
    (sortWith lt l).length = l.length :=
  (sortWith_perm lt l).length_eq

theorem mem_sortWith {α : Type} (lt : α → α → Bool) (l : List α) (a : α) :
    a ∈ sortWith lt l ↔ a ∈ l :=
  (sortWith_perm lt l).mem_iff

theorem insertWith_pairwise {α : Type} (lt : α → α → Bool)
    (trans : ∀ a b c, lt a b = true → lt b c = true → lt a c = true)
    (total : ∀ a b, a ≠ b → lt a b = true ∨ lt b a = true)
    (a : α) (l : List α) (ha : a ∉ l) (hl : l.Pairwise (fun x y => lt x y = true)) :
    (insertWith lt a l).Pairwise (fun x y => lt x y = true) := by
  induction l with
  | nil => simp [insertWith]
  | cons b l ih =>
    simp only [insertWith]
    have hb := List.pairwise_cons.mp hl
    split
    · rename_i hab
      refine List.pairwise_cons.mpr ⟨?_, hl⟩
      intro c hc
      rcases List.mem_cons.mp hc with rfl | hc
      · exact hab
      · exact trans _ _ _ hab (hb.1 c hc)
    · rename_i hab
      have hne : a ≠ b := fun h => ha (h ▸ List.mem_cons_self _ _)
      have hba : lt b a = true := by
        rcases total a b hne with h | h
        · exact absurd h hab
        · exact h
      refine List.pairwise_cons.mpr ⟨?_, ih (fun h => ha (List.mem_cons_of_mem _ h)) hb.2⟩
      intro c hc
      rcases List.mem_cons.mp ((insertWith_perm lt a l).mem_iff.mp hc) with rfl | hc
      · exact hba
      · exact hb.1 c hc

theorem sortWith_pairwise {α : Type} (lt : α → α → Bool)
    (trans : ∀ a b c, lt a b = true → lt b c = true → lt a c = true)
    (total : ∀ a b, a ≠ b → lt a b = true ∨ lt b a = true)
    (l : List α) (hl : l.Nodup) :
    (sortWith lt l).Pairwise (fun x y => lt x y = true) := by
  induction l with
  | nil => simp [sortWith]
  | cons a l ih =>
    have h : sortWith lt (a :: l) = insertWith lt a (sortWith lt l) := rfl
    rw [h]
    have hn := List.nodup_cons.mp hl
    exact insertWith_pairwise lt trans total a _
      (fun hm => hn.1 ((mem_sortWith lt l a).mp hm)) (ih hn.2)

/-- A duplicate-free list that is already ordered is left unchanged. -/
theorem sortWith_of_pairwise {α : Type} (lt : α → α → Bool) (l : List α)
    (hl : l.Pairwise (fun x y => lt x y = true)) : sortWith lt l = l := by
  induction l with
  | nil => rfl
  | cons a l ih =>
    have h : sortWith lt (a :: l) = insertWith lt a (sortWith lt l) := rfl
    have hp := List.pairwise_cons.mp hl
    rw [h, ih hp.2]
    cases l with
    | nil => rfl
    | cons b l => simp [insertWith, hp.1 b (List.mem_cons_self _ _)]

/-! ## `updateStats` -/

/-- The body of the loop of `updateStats`. -/
theorem statsStep_problem (t : Team) (p q : Char) :
    (Map.set t.problems p (t.problem p) q).getD {} = t.problem q := by
  by_cases h : q = p
  · subst h; simp
  · simp [Map.set_other _ _ h, Team.problem]

theorem wrapInt_of_range {x : Int} (h₁ : -2147483648 ≤ x) (h₂ : x < 2147483648) :
    wrapInt x = x := by
  unfold wrapInt
  omega

theorem wrapInt_range (x : Int) : -2147483648 ≤ wrapInt x ∧ wrapInt x < 2147483648 := by
  unfold wrapInt
  omega

@[simp] theorem wrapInt_wrapInt (x : Int) : wrapInt (wrapInt x) = wrapInt x := by
  unfold wrapInt
  omega

theorem wrapInt_add_left (x y : Int) : wrapInt (wrapInt x + y) = wrapInt (x + y) := by
  unfold wrapInt
  omega

@[simp] theorem wrapInt_zero : wrapInt 0 = 0 := by decide

theorem updateStats_fold (l : List Char) (t : Team) (hw : wrapInt t.penaltyTime = t.penaltyTime) :
    l.foldl
      (fun t p =>
        let ps := t.problem p
        let t := { t with problems := Map.set t.problems p ps }
        if ps.solved then
          { t with solvedCount := t.solvedCount + 1
                   penaltyTime := wrapInt (t.penaltyTime + (ps.solveTime + 20 * ps.wrongAttempts)) }
        else t) t =
    { name := t.name
      problems := fun q => if q ∈ l then some (t.problem q) else t.problems q
      solvedCount := t.solvedCount + ((l.countP (fun p => (t.problem p).solved) : Nat) : Int)
      penaltyTime := wrapInt (t.penaltyTime + ((l.filter (fun p => (t.problem p).solved)).map
        (fun p => (t.problem p).solveTime + 20 * (t.problem p).wrongAttempts)).sum)
      ranking := t.ranking } := by
  induction l generalizing t with
  | nil => simp [hw]
  | cons p l ih =>
    rw [List.foldl_cons]
    have hp : ∀ (t' : Team), t'.problems = Map.set t.problems p (t.problem p) →
        ∀ q, t'.problem q = t.problem q := by
      intro t' ht' q
      simp only [Team.problem, ht']
      exact statsStep_problem t p q
    by_cases hs : (t.problem p).solved = true
    · simp only [hs, if_true]
      rw [ih _ (wrapInt_wrapInt _)]
      have hq := hp { t with problems := Map.set t.problems p (t.problem p),
                             solvedCount := t.solvedCount + 1,
                             penaltyTime := wrapInt (t.penaltyTime +
                               ((t.problem p).solveTime + 20 * (t.problem p).wrongAttempts)) } rfl
      simp only [hq, List.countP_cons, hs, if_true, List.filter_cons, List.map_cons,
        List.sum_cons, Nat.cast_add, Nat.cast_one, Team.mk.injEq, true_and, and_true]
      refine ⟨?_, by ring, ?_⟩
      · funext q
        by_cases h : q = p
        · subst h; simp
        · simp [h, Map.set_other _ _ h]
      · rw [wrapInt_add_left]
        congr 1
        ring
    · simp only [hs, Bool.false_eq_true, if_false]
      rw [ih { t with problems := Map.set t.problems p (t.problem p) } hw]
      have hq := hp { t with problems := Map.set t.problems p (t.problem p) } rfl
      simp only [hq, List.countP_cons, hs, List.filter_cons, Team.mk.injEq, true_and,
        Bool.false_eq_true, if_false, add_zero, and_true]
      funext q
      by_cases h : q = p
      · subst h; simp
      · simp [h, Map.set_other _ _ h]

theorem updateStats_eq (t : Team) (pc : Int) :
    t.updateStats pc =
    { name := t.name
      problems := fun q => if q ∈ letters pc then some (t.problem q) else t.problems q
      solvedCount := countSolved t pc
      penaltyTime := storedPenalty t pc
      ranking := t.ranking } := by
  unfold Team.updateStats
  rw [updateStats_fold _ _ wrapInt_zero]
  simp [countSolved, storedPenalty, sumPenalty, Team.problem]

@[simp] theorem updateStats_problem (t : Team) (pc : Int) (q : Char) :
    (t.updateStats pc).problem q = t.problem q := by
  rw [updateStats_eq]
  by_cases h : q ∈ letters pc <;> simp [Team.problem, h]

@[simp] theorem updateStats_solvedCount (t : Team) (pc : Int) :
    (t.updateStats pc).solvedCount = countSolved t pc := by
  rw [updateStats_eq]

@[simp] theorem updateStats_penaltyTime (t : Team) (pc : Int) :
    (t.updateStats pc).penaltyTime = storedPenalty t pc := by
  rw [updateStats_eq]

@[simp] theorem updateStats_ranking (t : Team) (pc : Int) :
    (t.updateStats pc).ranking = t.ranking := by
  rw [updateStats_eq]

@[simp] theorem updateStats_name (t : Team) (pc : Int) :
    (t.updateStats pc).name = t.name := by
  rw [updateStats_eq]

theorem updateStats_problems (t : Team) (pc : Int) (q : Char) :
    (t.updateStats pc).problems q =
      if q ∈ letters pc then some (t.problem q) else t.problems q := by
  rw [updateStats_eq]

/-- A team whose configured letters are all present keeps its problem map. -/
theorem updateStats_problems_of_keys (t : Team) (pc : Int)
    (h : ∀ p, p ∈ letters pc → (t.problems p).isSome = true) :
    (t.updateStats pc).problems = t.problems := by
  funext q
  rw [updateStats_problems]
  split
  · rename_i hq
    have := h q hq
    cases hx : t.problems q with
    | none => simp [hx] at this
    | some ps => simp [Team.problem, hx]
  · rfl

theorem countSolved_congr (t t' : Team) (pc : Int)
    (h : ∀ p ∈ letters pc, (t.problem p).solved = (t'.problem p).solved) :
    countSolved t pc = countSolved t' pc := by
  unfold countSolved
  congr 1
  exact List.countP_congr (fun p hp => by simp [h p hp])

theorem sumPenalty_congr (t t' : Team) (pc : Int)
    (h : ∀ p ∈ letters pc, (t.problem p).solved = (t'.problem p).solved)
    (h' : ∀ p ∈ letters pc, (t.problem p).solved = true →
      (t.problem p).solveTime = (t'.problem p).solveTime ∧
      (t.problem p).wrongAttempts = (t'.problem p).wrongAttempts) :
    sumPenalty t pc = sumPenalty t' pc := by
  unfold sumPenalty
  have hf : (letters pc).filter (fun p => (t.problem p).solved) =
      (letters pc).filter (fun p => (t'.problem p).solved) :=
    List.filter_congr (fun p hp => h p hp)
  rw [← hf]
  congr 1
  apply List.map_congr_left
  intro p hp
  have hm := List.mem_filter.mp hp
  have := h' p hm.1 (by simpa using hm.2)
  rw [this.1, this.2]

theorem storedPenalty_congr (t t' : Team) (pc : Int)
    (h : ∀ p ∈ letters pc, (t.problem p).solved = (t'.problem p).solved)
    (h' : ∀ p ∈ letters pc, (t.problem p).solved = true →
      (t.problem p).solveTime = (t'.problem p).solveTime ∧
      (t.problem p).wrongAttempts = (t'.problem p).wrongAttempts) :
    storedPenalty t pc = storedPenalty t' pc := by
  unfold storedPenalty
  rw [sumPenalty_congr t t' pc h h']

theorem solveTimes_congr (t t' : Team) (pc : Int)
    (h : ∀ p ∈ letters pc, (t.problem p).solved = (t'.problem p).solved)
    (h' : ∀ p ∈ letters pc, (t.problem p).solved = true →
      (t.problem p).solveTime = (t'.problem p).solveTime) :
    solveTimes t pc = solveTimes t' pc := by
  unfold solveTimes
  apply List.filterMap_congr
  intro p hp
  by_cases hs : (t.problem p).solved = true
  · rw [if_pos hs, if_pos ((h p hp) ▸ hs), h' p hp hs]
  · rw [if_neg hs, if_neg (fun hc => hs ((h p hp).symm ▸ hc))]

theorem solveTimes_length (t : Team) (pc : Int) :
    ((solveTimes t pc).length : Int) = countSolved t pc := by
  unfold solveTimes countSolved
  congr 1
  induction letters pc with
  | nil => rfl
  | cons p l ih =>
    by_cases hs : (t.problem p).solved = true
    · simp [List.filterMap_cons, hs, ih]
    · simp [List.filterMap_cons, hs, ih]

theorem setProblem_problem (t : Team) (p q : Char) (ps : ProblemStatus) :
    (t.setProblem p ps).problem q = if q = p then ps else t.problem q := by
  by_cases h : q = p
  · subst h; simp [Team.problem, Team.setProblem]
  · simp [Team.problem, Team.setProblem, Map.set_other _ _ h, h]

set_option maxRecDepth 100000 in
theorem letter_toNat : ∀ i < 62, (Char.ofNat (65 + i)).toNat = 65 + i := by
  decide

/-- For `problemCount ≤ 62` the loop counter `p` stays between `'A'` and 126, inside
the range of `char`. -/
theorem letters_char_range (pc : Int) (h : pc ≤ 62) :
    ∀ p ∈ letters pc, 65 ≤ p.toNat ∧ p.toNat ≤ 126 := by
  intro p hp
  unfold letters at hp
  obtain ⟨i, hi, rfl⟩ := List.mem_map.mp hp
  rw [List.mem_range] at hi
  rw [letter_toNat i (by omega)]
  omega

/-- C3, the claim as stated fails: in `overflowContest` problem `A` of team `T` is
solved at `2147483647` after one wrong attempt, the sum of `solveTime + 20 *
wrongAttempts` over the solved problems is `2147483667`, and `updateStats` stores
`-2147483629`; so `penaltyTime` is not that sum for every team. -/
theorem updateStats_penalty_leaves_int_range :
    ((overflowContest.team "T").problem 'A').solved = true ∧
    ((overflowContest.team "T").problem 'A').solveTime = 2147483647 ∧
    ((overflowContest.team "T").problem 'A').wrongAttempts = 1 ∧
    (((letters 1).filter (fun p => ((overflowContest.team "T").problem p).solved)).map
      (fun p => ((overflowContest.team "T").problem p).solveTime +
        20 * ((overflowContest.team "T").problem p).wrongAttempts)).sum = 2147483667 ∧
    ((overflowContest.team "T").updateStats 1).penaltyTime = -2147483629 ∧
    ((flush overflowContest).1.team "T").penaltyTime = -2147483629 ∧
    ¬ ∀ (t : Team) (problemCount : Int),
      (t.updateStats problemCount).penaltyTime =
        (((letters problemCount).filter (fun p => (t.problem p).solved)).map
          (fun p => (t.problem p).solveTime + 20 * (t.problem p).wrongAttempts)).sum := by
  refine ⟨by decide, by decide, by decide, by decide, by decide, by decide, ?_⟩
  intro h
  have h1 := h (overflowContest.team "T") 1
  revert h1
  decide

/-- C3, amended: for `problemCount ≤ 62`, where the loop counter stays inside the
range of `char` and the letter loop returns,
`updateStats` sets `solvedCount` to the number of solved problems among the
configured letters and `penaltyTime` to the 32-bit value of the sum of
`solveTime + 20 * wrongAttempts` over exactly those, which is the sum itself
whenever the sum is in the range of `int`; the wrong-attempt count of an unsolved
problem does not enter either value; solves at 20 and 50 with 1 and 0 wrong
attempts give penalty 90. -/
theorem updateStats_solved_and_penalty (t : Team) (problemCount : Int)
    (hpc : problemCount ≤ 62) :
    (∀ p ∈ letters problemCount, 65 ≤ p.toNat ∧ p.toNat ≤ 126) ∧
    (t.updateStats problemCount).solvedCount =
        (((letters problemCount).countP (fun p => (t.problem p).solved) : Nat) : Int) ∧
    (t.updateStats problemCount).penaltyTime =
        wrapInt (((letters problemCount).filter (fun p => (t.problem p).solved)).map
          (fun p => (t.problem p).solveTime + 20 * (t.problem p).wrongAttempts)).sum ∧
    (-2147483648 ≤ (((letters problemCount).filter (fun p => (t.problem p).solved)).map
          (fun p => (t.problem p).solveTime + 20 * (t.problem p).wrongAttempts)).sum →
      (((letters problemCount).filter (fun p => (t.problem p).solved)).map
          (fun p => (t.problem p).solveTime + 20 * (t.problem p).wrongAttempts)).sum <
        2147483648 →
      (t.updateStats problemCount).penaltyTime =
        (((letters problemCount).filter (fun p => (t.problem p).solved)).map
          (fun p => (t.problem p).solveTime + 20 * (t.problem p).wrongAttempts)).sum) ∧
    (∀ p w, (t.problem p).solved = false →
      ((t.setProblem p { t.problem p with wrongAttempts := w }).updateStats
          problemCount).solvedCount = (t.updateStats problemCount).solvedCount ∧
      ((t.setProblem p { t.problem p with wrongAttempts := w }).updateStats
          problemCount).penaltyTime = (t.updateStats problemCount).penaltyTime) ∧
    (sampleTeam.updateStats 3).solvedCount = 2 ∧
    (sampleTeam.updateStats 3).penaltyTime = 90 ∧
    (sampleTeam.updateStats 2).penaltyTime = 90 := by
  have hpen : (t.updateStats problemCount).penaltyTime =
      wrapInt (((letters problemCount).filter (fun p => (t.problem p).solved)).map
        (fun p => (t.problem p).solveTime + 20 * (t.problem p).wrongAttempts)).sum := by
    rw [updateStats_penaltyTime]
    rfl
  refine ⟨letters_char_range problemCount hpc, by simp [countSolved], hpen, ?_, ?_,
    by decide, by decide, by decide⟩
  · intro h₁ h₂
    rw [hpen, wrapInt_of_range h₁ h₂]
  intro p w hp
  have hsolved : ∀ q, ((t.setProblem p { t.problem p with wrongAttempts := w }).problem q).solved =
      (t.problem q).solved := by
    intro q
    rw [setProblem_problem]
    split
    · rename_i h; subst h; rfl
    · rfl
  simp only [updateStats_solvedCount, updateStats_penaltyTime]
  refine ⟨countSolved_congr _ _ _ (fun q _ => hsolved q), storedPenalty_congr _ _ _
    (fun q _ => hsolved q) ?_⟩
  intro q _ hq
  rw [hsolved] at hq
  have hne : q ≠ p := by
    intro h
    rw [h, hp] at hq
    exact Bool.false_ne_true hq
  rw [setProblem_problem, if_neg hne]
  exact ⟨rfl, rfl⟩

/-- The sample team has three configured problems, its penalty sum 90 is in the range
of `int`, and the wrong attempts of its unsolved problem `C` do not count. -/
theorem updateStats_solved_and_penalty_witness :
    (3 : Int) ≤ 62 ∧
    (sampleTeam.updateStats 3).penaltyTime =
      (((letters 3).filter (fun p => (sampleTeam.problem p).solved)).map
        (fun p => (sampleTeam.problem p).solveTime +
          20 * (sampleTeam.problem p).wrongAttempts)).sum ∧
    (sampleTeam.problem 'C').solved = false ∧
    ((sampleTeam.setProblem 'C' { sampleTeam.problem 'C' with wrongAttempts := 7 }).updateStats
      3).penaltyTime = 90 :=
  ⟨by decide,
    (updateStats_solved_and_penalty sampleTeam 3 (by decide)).2.2.2.1 (by decide) (by decide),
    by decide, by
    rw [((updateStats_solved_and_penalty sampleTeam 3 (by decide)).2.2.2.2.1 'C' 7
      (by decide)).2]
    decide⟩

/-! ## The comparator -/

theorem firstDifference_of_length_eq (l₁ l₂ : List Int) (h : l₁.length = l₂.length) :
    firstDifference l₁ l₂ = if l₁ = l₂ then none else some (decide (l₁ < l₂)) := by
  induction l₁ generalizing l₂ with
  | nil =>
    cases l₂ with
    | nil => simp [firstDifference]
    | cons b l₂ => simp at h
  | cons a l₁ ih =>
    cases l₂ with
    | nil => simp at h
    | cons b l₂ =>
      simp only [List.length_cons, Nat.add_right_cancel_iff] at h
      by_cases hab : a = b
      · subst hab
        simp only [firstDifference, ne_eq, not_true_eq_false, if_false, ih l₂ h,
          List.cons.injEq, true_and]
        have : (a :: l₁ < a :: l₂) ↔ (l₁ < l₂) := List.Lex.cons_iff
        simp only [this]
      · have hne : a :: l₁ ≠ b :: l₂ := fun hc => hab (List.cons.inj hc).1
        simp only [firstDifference, ne_eq, hab, not_false_eq_true, if_true, hne, if_false,
          Option.some.injEq, decide_eq_decide]
        constructor
        · intro hlt
          exact List.Lex.rel hlt
        · intro hlt
          cases hlt with
          | cons h' => exact absurd rfl hab
          | rel h' => exact h'

theorem sortDescending_length (l : List Int) : (sortDescending l).length = l.length := by
  simp [sortDescending, sortWith_length]

theorem team_of_none {s : ICPCSystem} {a : String} (h : s.teams a = none) :
    s.team a = Team.empty := by
  simp [ICPCSystem.team, h]

theorem team_of_some {s : ICPCSystem} {a : String} {t : Team} (h : s.teams a = some t) :
    s.team a = t := by
  simp [ICPCSystem.team, h]

theorem empty_problem (p : Char) : Team.empty.problem p = {} := rfl

theorem countSolved_empty (pc : Int) : countSolved Team.empty pc = 0 := by
  simp [countSolved, empty_problem]

theorem CountsCurrent.of_statsCurrent {s : ICPCSystem} (h : StatsCurrent s) :
    CountsCurrent s := by
  intro a
  cases ha : s.teams a with
  | none => rw [team_of_none ha, countSolved_empty]; rfl
  | some t => rw [team_of_some ha, (h a t ha).1, updateStats_solvedCount]

/-- For two teams with current solved counts `compareTeams` is the dictionary order
of the keys. -/
theorem compareTeams_iff_key {s : ICPCSystem} {a b : String}
    (hca : (s.team a).solvedCount = countSolved (s.team a) s.problemCount)
    (hcb : (s.team b).solvedCount = countSolved (s.team b) s.problemCount) :
    compareTeams s a b = true ↔ rankKey s a < rankKey s b := by
  unfold compareTeams rankKey
  simp only [Prod.Lex.lt_iff, OrderDual.toDual_lt_toDual, EmbeddingLike.apply_eq_iff_eq]
  by_cases h1 : (s.team a).solvedCount = (s.team b).solvedCount
  · have hlen : (sortDescending (solveTimes (s.team a) s.problemCount)).length =
        (sortDescending (solveTimes (s.team b) s.problemCount)).length := by
      rw [sortDescending_length, sortDescending_length]
      have ha := solveTimes_length (s.team a) s.problemCount
      have hb := solveTimes_length (s.team b) s.problemCount
      rw [← hca] at ha
      rw [← hcb] at hb
      omega
    simp only [h1, ne_eq, not_true_eq_false, if_false, lt_self_iff_false, true_and, false_or]
    by_cases h2 : (s.team a).penaltyTime = (s.team b).penaltyTime
    · simp only [h2, not_true_eq_false, if_false, lt_self_iff_false, true_and, false_or]
      rw [firstDifference_of_length_eq _ _ hlen]
      by_cases h3 : sortDescending (solveTimes (s.team a) s.problemCount) =
          sortDescending (solveTimes (s.team b) s.problemCount)
      · simp [h3, stringLess]
      · simp [h3]
    · simp only [h2, not_false_eq_true, if_true, decide_eq_true_eq, false_and, or_false]
  · simp only [ne_eq, h1, not_false_eq_true, if_true, gt_iff_lt, decide_eq_true_eq, false_and,
      or_false]

theorem rankKey_injective (s : ICPCSystem) {a b : String} (h : rankKey s a = rankKey s b) :
    a = b := by
  unfold rankKey at h
  simp only [EmbeddingLike.apply_eq_iff_eq, Prod.mk.injEq] at h
  exact String.toList_inj.mp h.2.2.2

theorem firstDifference_self (l : List Int) : firstDifference l l = none := by
  induction l with
  | nil => rfl
  | cons x l ih => simp [firstDifference, ih]

theorem firstDifference_swap (l₁ l₂ : List Int) :
    firstDifference l₂ l₁ = (firstDifference l₁ l₂).map (fun r => !r) := by
  induction l₁ generalizing l₂ with
  | nil => cases l₂ <;> simp [firstDifference]
  | cons a l₁ ih =>
    cases l₂ with
    | nil => simp [firstDifference]
    | cons b l₂ =>
      by_cases hab : a = b
      · subst hab
        simp [firstDifference, ih]
      · have hba : ¬ b = a := fun h => hab h.symm
        simp only [firstDifference, ne_eq, hab, hba, not_false_eq_true, if_true, Option.map_some',
          Option.some.injEq]
        rw [← decide_not]
        apply decide_eq_decide.mpr
        omega

theorem compareTeams_irrefl (s : ICPCSystem) (a : String) : compareTeams s a a = false := by
  unfold compareTeams
  simp only [ne_eq, not_true_eq_false, if_false]
  rw [firstDifference_self]
  simp [stringLess]

/-- In every state, of two distinct names exactly one precedes the other. -/
theorem compareTeams_swap (s : ICPCSystem) {a b : String} (hne : a ≠ b) :
    compareTeams s b a = !compareTeams s a b := by
  unfold compareTeams
  by_cases h1 : (s.team a).solvedCount = (s.team b).solvedCount
  · by_cases h2 : (s.team a).penaltyTime = (s.team b).penaltyTime
    · simp only [h1, h2, ne_eq, not_true_eq_false, if_false]
      rw [firstDifference_swap (sortDescending (solveTimes (s.team a) s.problemCount))]
      cases firstDifference (sortDescending (solveTimes (s.team a) s.problemCount))
          (sortDescending (solveTimes (s.team b) s.problemCount)) with
      | some r => simp
      | none =>
        simp only [Option.map_none', stringLess]
        rw [← decide_not]
        apply decide_eq_decide.mpr
        have hl : a.toList ≠ b.toList := fun h => hne (String.toList_inj.mp h)
        constructor
        · intro h; exact lt_asymm h
        · intro h
          rcases lt_trichotomy a.toList b.toList with h' | h' | h'
          · exact absurd h' h
          · exact absurd h' hl
          · exact h'
    · have h2' : ¬ (s.team b).penaltyTime = (s.team a).penaltyTime := fun h => h2 h.symm
      simp only [h1, h2, h2', ne_eq, not_true_eq_false, if_false, not_false_eq_true, if_true]
      rw [← decide_not]
      apply decide_eq_decide.mpr
      omega
  · have h1' : ¬ (s.team b).solvedCount = (s.team a).solvedCount := fun h => h1 h.symm
    simp only [h1, h1', ne_eq, not_false_eq_true, if_true]
    rw [← decide_not]
    apply decide_eq_decide.mpr
    omega

theorem compareTeams_asymm (s : ICPCSystem) (a b : String)
    (hab : compareTeams s a b = true) : compareTeams s b a = false := by
  by_cases hne : a = b
  · subst hne; exact compareTeams_irrefl s a
  · rw [compareTeams_swap s hne, hab]; rfl

theorem compareTeams_total (s : ICPCSystem) (a b : String)
    (hne : a ≠ b) : compareTeams s a b = true ∨ compareTeams s b a = true := by
  rw [compareTeams_swap s hne]
  cases compareTeams s a b <;> simp

theorem compareTeams_trans {s : ICPCSystem} {a b c : String}
    (hca : (s.team a).solvedCount = countSolved (s.team a) s.problemCount)
    (hcb : (s.team b).solvedCount = countSolved (s.team b) s.problemCount)
    (hcc : (s.team c).solvedCount = countSolved (s.team c) s.problemCount)
    (hab : compareTeams s a b = true) (hbc : compareTeams s b c = true) :
    compareTeams s a c = true := by
  rw [compareTeams_iff_key hca hcb] at hab
  rw [compareTeams_iff_key hcb hcc] at hbc
  rw [compareTeams_iff_key hca hcc]
  exact lt_trans hab hbc

theorem strictTotalOnRoster_of_counts {s : ICPCSystem}
    (h : ∀ a ∈ s.teamNames, (s.team a).solvedCount = countSolved (s.team a) s.problemCount) :
    StrictTotalOnRoster s := by
  refine ⟨fun a _ => compareTeams_irrefl s a, ?_, ?_, ?_⟩
  · intro a _ b _ hc
    have := compareTeams_asymm s a b hc.1
    rw [hc.2] at this
    exact Bool.noConfusion this
  · intro a ha b hb c hc hab hbc
    exact compareTeams_trans (h a ha) (h b hb) (h c hc) hab hbc
  · intro a _ b _ hne
    rcases compareTeams_total s a b hne with h1 | h1
    · exact Or.inl ⟨h1, compareTeams_asymm s a b h1⟩
    · exact Or.inr ⟨h1, compareTeams_asymm s b a h1⟩

/-! ## `updateRankings` -/

theorem assignRankings_not_mem (i : Nat) (names : List String) (tm : String → Option Team)
    (n : String) (h : n ∉ names) : assignRankings i names tm n = tm n := by
  induction names generalizing i tm with
  | nil => rfl
  | cons m ns ih =>
    simp only [assignRankings]
    rw [ih _ _ (fun hc => h (List.mem_cons_of_mem _ hc))]
    exact Map.set_other _ _ (fun hc => h (hc ▸ List.mem_cons_self _ _))

theorem assignRankings_mem (i : Nat) (names : List String) (tm : String → Option Team)
    (n : String) (h : n ∈ names) :
    ∃ r : Int, (i : Int) + 1 ≤ r ∧ r ≤ i + names.length ∧
      assignRankings i names tm n = some { (tm n).getD Team.empty with ranking := r } := by
  induction names generalizing i tm with
  | nil => simp at h
  | cons m ns ih =>
    simp only [assignRankings]
    by_cases hn : n ∈ ns
    · obtain ⟨r, h1, h2, h3⟩ := ih (i + 1)
        (Map.set tm m { (tm m).getD Team.empty with ranking := (i : Int) + 1 }) hn
      refine ⟨r, by push_cast at h1; omega, by push_cast at h2 ⊢; simp only [List.length_cons]; push_cast; omega, ?_⟩
      rw [h3]
      by_cases hm : n = m
      · subst hm; simp
      · rw [Map.set_other _ _ hm]
    · have hm : n = m := by
        rcases List.mem_cons.mp h with h' | h'
        · exact h'
        · exact absurd h' hn
      subst hm
      refine ⟨(i : Int) + 1, le_refl _, by simp only [List.length_cons]; push_cast; omega, ?_⟩
      rw [assignRankings_not_mem _ _ _ _ hn]
      simp

theorem assignRankings_get (i : Nat) (names : List String) (tm : String → Option Team)
    (hnd : names.Nodup) (j : Nat) (hj : j < names.length) :
    assignRankings i names tm (names.get ⟨j, hj⟩) =
      some { (tm (names.get ⟨j, hj⟩)).getD Team.empty with ranking := (i : Int) + j + 1 } := by
  induction names generalizing i tm j with
  | nil => simp at hj
  | cons m ns ih =>
    have hn := List.nodup_cons.mp hnd
    simp only [assignRankings]
    cases j with
    | zero =>
      simp only [List.get_eq_getElem, List.getElem_cons_zero]
      rw [assignRankings_not_mem _ _ _ _ hn.1]
      simp
    | succ j =>
      simp only [List.get_eq_getElem, List.getElem_cons_succ]
      have hj' : j < ns.length := by simpa using hj
      have := ih (i + 1) (Map.set tm m { (tm m).getD Team.empty with ranking := (i : Int) + 1 })
        hn.2 j hj'
      simp only [List.get_eq_getElem] at this
      rw [this]
      have hne : ns[j] ≠ m := fun hc => hn.1 (hc ▸ List.getElem_mem _)
      rw [Map.set_other _ _ hne]
      congr 2
      push_cast
      ring

/-- The ranking loop changes nothing but the `ranking` field of the value read by
`teams[name]`. -/
theorem assignRankings_team (i : Nat) (names : List String) (tm : String → Option Team)
    (n : String) :
    ∃ r : Int, (assignRankings i names tm n).getD Team.empty =
      { (tm n).getD Team.empty with ranking := r } := by
  by_cases h : n ∈ names
  · obtain ⟨r, -, -, h3⟩ := assignRankings_mem i names tm n h
    exact ⟨r, by rw [h3]; rfl⟩
  · exact ⟨((tm n).getD Team.empty).ranking, by rw [assignRankings_not_mem _ _ _ _ h]⟩

theorem assignRankings_isSome (i : Nat) (names : List String) (tm : String → Option Team)
    (n : String) :
    (assignRankings i names tm n).isSome = true ↔ n ∈ names ∨ (tm n).isSome = true := by
  by_cases h : n ∈ names
  · obtain ⟨r, -, -, h3⟩ := assignRankings_mem i names tm n h
    simp [h3, h]
  · rw [assignRankings_not_mem _ _ _ _ h]
    simp [h]

@[simp] theorem refreshStats_problemCount (s : ICPCSystem) :
    (refreshStats s).problemCount = s.problemCount := rfl

@[simp] theorem refreshStats_teamNames (s : ICPCSystem) :
    (refreshStats s).teamNames = s.teamNames := rfl

theorem sumPenalty_empty (pc : Int) : sumPenalty Team.empty pc = 0 := by
  simp [sumPenalty, empty_problem]

theorem storedPenalty_empty (pc : Int) : storedPenalty Team.empty pc = 0 := by
  simp [storedPenalty, sumPenalty_empty]

theorem refreshStats_team (s : ICPCSystem) (a : String) :
    ((refreshStats s).team a).solvedCount = countSolved (s.team a) s.problemCount ∧
    ((refreshStats s).team a).penaltyTime = storedPenalty (s.team a) s.problemCount ∧
    ((refreshStats s).team a).ranking = (s.team a).ranking ∧
    ((refreshStats s).team a).name = (s.team a).name ∧
    ∀ p, ((refreshStats s).team a).problem p = (s.team a).problem p := by
  cases ha : s.teams a with
  | none =>
    have h1 : (refreshStats s).teams a = none := by simp [refreshStats, ha]
    rw [team_of_none ha, team_of_none h1, countSolved_empty, storedPenalty_empty]
    exact ⟨rfl, rfl, rfl, rfl, fun _ => rfl⟩
  | some t =>
    have h1 : (refreshStats s).teams a = some (t.updateStats s.problemCount) := by
      simp [refreshStats, ha]
    rw [team_of_some ha, team_of_some h1]
    simp

theorem countsCurrent_refreshStats (s : ICPCSystem) : CountsCurrent (refreshStats s) := by
  intro a
  rw [(refreshStats_team s a).1]
  exact countSolved_congr _ _ _ (fun p _ => by rw [(refreshStats_team s a).2.2.2.2 p])

@[simp] theorem updateRankings_problemCount (s : ICPCSystem) :
    (updateRankings s).problemCount = s.problemCount := rfl

@[simp] theorem updateRankings_frozen (s : ICPCSystem) :
    (updateRankings s).frozen = s.frozen := rfl

@[simp] theorem updateRankings_started (s : ICPCSystem) :
    (updateRankings s).started = s.started := rfl

@[simp] theorem updateRankings_nextSubmissionId (s : ICPCSystem) :
    (updateRankings s).nextSubmissionId = s.nextSubmissionId := rfl

theorem updateRankings_teamNames (s : ICPCSystem) :
    (updateRankings s).teamNames = sortWith (compareTeams (refreshStats s)) s.teamNames := rfl

theorem updateRankings_teams (s : ICPCSystem) :
    (updateRankings s).teams =
      assignRankings 0 (updateRankings s).teamNames (refreshStats s).teams := rfl

theorem updateRankings_perm (s : ICPCSystem) :
    (updateRankings s).teamNames.Perm s.teamNames :=
  sortWith_perm _ _

/-- The recompute leaves every field of `teams[a]` but `ranking` as the refresh of
the statistics left it. -/
theorem updateRankings_team (s : ICPCSystem) (a : String) :
    ∃ r : Int, (updateRankings s).team a = { (refreshStats s).team a with ranking := r } := by
  obtain ⟨r, hr⟩ := assignRankings_team 0 (updateRankings s).teamNames (refreshStats s).teams a
  exact ⟨r, hr⟩

theorem updateRankings_team_fields (s : ICPCSystem) (a : String) :
    ((updateRankings s).team a).solvedCount = countSolved (s.team a) s.problemCount ∧
    ((updateRankings s).team a).penaltyTime = storedPenalty (s.team a) s.problemCount ∧
    ((updateRankings s).team a).name = (s.team a).name ∧
    ∀ p, ((updateRankings s).team a).problem p = (s.team a).problem p := by
  obtain ⟨r, hr⟩ := updateRankings_team s a
  have h := refreshStats_team s a
  rw [hr]
  exact ⟨h.1, h.2.1, h.2.2.2.1, fun p => h.2.2.2.2 p⟩

/-- The comparator reads only the solved count, the penalty time and the problem
statuses of the two teams. -/
theorem compareTeams_congr (s s' : ICPCSystem) (hpc : s.problemCount = s'.problemCount)
    (h : ∀ a, (s.team a).solvedCount = (s'.team a).solvedCount ∧
      (s.team a).penaltyTime = (s'.team a).penaltyTime ∧
      ∀ p ∈ letters s.problemCount,
        ((s.team a).problem p).solved = ((s'.team a).problem p).solved ∧
        (((s.team a).problem p).solved = true →
          ((s.team a).problem p).solveTime = ((s'.team a).problem p).solveTime)) :
    compareTeams s = compareTeams s' := by
  funext a b
  unfold compareTeams
  have hta : solveTimes (s.team a) s.problemCount = solveTimes (s'.team a) s'.problemCount := by
    rw [← hpc]
    exact solveTimes_congr _ _ _ (fun p hp => ((h a).2.2 p hp).1) (fun p hp => ((h a).2.2 p hp).2)
  have htb : solveTimes (s.team b) s.problemCount = solveTimes (s'.team b) s'.problemCount := by
    rw [← hpc]
    exact solveTimes_congr _ _ _ (fun p hp => ((h b).2.2 p hp).1) (fun p hp => ((h b).2.2 p hp).2)
  simp only [(h a).1, (h b).1, (h a).2.1, (h b).2.1, hta, htb]

theorem compareTeams_updateRankings (s : ICPCSystem) :
    compareTeams (updateRankings s) = compareTeams (refreshStats s) := by
  refine compareTeams_congr (updateRankings s) (refreshStats s) rfl ?_
  intro a
  have h1 := updateRankings_team_fields s a
  have h2 := refreshStats_team s a
  refine ⟨by rw [h1.1, h2.1], by rw [h1.2.1, h2.2.1], fun p _ => ?_⟩
  rw [h1.2.2.2 p, h2.2.2.2.2 p]
  exact ⟨rfl, fun _ => rfl⟩

theorem countsCurrent_updateRankings (s : ICPCSystem) : CountsCurrent (updateRankings s) := by
  intro a
  have h1 := updateRankings_team_fields s a
  rw [h1.1]
  exact countSolved_congr _ _ _ (fun p _ => by rw [h1.2.2.2 p])

/-- After the recompute the roster is ordered by the comparator. -/
theorem updateRankings_pairwise (s : ICPCSystem) (hnd : s.teamNames.Nodup) :
    (updateRankings s).teamNames.Pairwise
      (fun a b => compareTeams (updateRankings s) a b = true) := by
  rw [compareTeams_updateRankings, updateRankings_teamNames]
  have hc := countsCurrent_refreshStats s
  exact sortWith_pairwise _
    (fun a b c hab hbc => compareTeams_trans (hc a) (hc b) (hc c) hab hbc)
    (fun a b hne => compareTeams_total _ a b hne) _ hnd

theorem updateRankings_nodup (s : ICPCSystem) (hnd : s.teamNames.Nodup) :
    (updateRankings s).teamNames.Nodup :=
  (updateRankings_perm s).nodup_iff.mpr hnd

/-- After the recompute the team at index `i` of the roster has ranking `i + 1`. -/
theorem updateRankings_ranked (s : ICPCSystem) (hnd : s.teamNames.Nodup) :
    Ranked (updateRankings s) := by
  intro i hi
  have := assignRankings_get 0 (updateRankings s).teamNames (refreshStats s).teams
    (updateRankings_nodup s hnd) i hi
  rw [ICPCSystem.team, updateRankings_teams, this]
  simp

/-! ## The structural invariant -/

theorem wellFormed_init : WellFormed ICPCSystem.init where
  nodup := List.nodup_nil
  roster := fun n => by simp [ICPCSystem.init]
  keys := fun n t h => by simp [ICPCSystem.init] at h
  count := by simp [ICPCSystem.init]
  notStarted := fun _ => rfl
  rankNonneg := fun n t h => by simp [ICPCSystem.init] at h
  pending := fun n t p ps h => by simp [ICPCSystem.init] at h
  ledger := fun n t p ps h => by simp [ICPCSystem.init] at h
  distinct := fun n t p ps q qs h => by simp [ICPCSystem.init] at h

/-- A state whose teams keep their problem maps is well formed again. -/
theorem WellFormed.of_same_problems {s s' : ICPCSystem} (h : WellFormed s)
    (hnames : s'.teamNames.Perm s.teamNames)
    (hnone : ∀ n, s.teams n = none → s'.teams n = none)
    (hsome : ∀ n t, s.teams n = some t →
      ∃ t', s'.teams n = some t' ∧ t'.problems = t.problems ∧ 0 ≤ t'.ranking)
    (hpc : s'.problemCount = s.problemCount) (hst : s'.started = s.started)
    (hfr : s'.frozen = false → s.frozen = false)
    (hid : s'.nextSubmissionId = s.nextSubmissionId) : WellFormed s' := by
  have back : ∀ n t', s'.teams n = some t' →
      ∃ t, s.teams n = some t ∧ t'.problems = t.problems ∧ 0 ≤ t'.ranking := by
    intro n t' ht'
    cases hn : s.teams n with
    | none => rw [hnone n hn] at ht'; exact Option.noConfusion ht'
    | some t =>
      obtain ⟨t'', h1, h2, h3⟩ := hsome n t hn
      rw [h1] at ht'
      cases ht'
      exact ⟨t, rfl, h2, h3⟩
  refine ⟨hnames.nodup_iff.mpr h.nodup, ?_, ?_, hpc ▸ h.count, ?_, ?_, ?_, ?_, ?_⟩
  · intro n
    rw [hnames.mem_iff, h.roster]
    cases hn : s.teams n with
    | none => simp [hnone n hn]
    | some t =>
      obtain ⟨t', h1, -, -⟩ := hsome n t hn
      simp [h1]
  · intro n t' ht' p
    obtain ⟨t, h1, h2, -⟩ := back n t' ht'
    rw [h2, hpc]
    exact h.keys n t h1 p
  · intro hs
    rw [hpc]
    exact h.notStarted (hst ▸ hs)
  · intro n t' ht'
    exact (back n t' ht').choose_spec.2.2
  · intro n t' p ps ht' hp
    obtain ⟨t, h1, h2, -⟩ := back n t' ht'
    rw [h2] at hp
    have := h.pending n t p ps h1 hp
    exact ⟨this.1, this.2.1, fun hf => this.2.2.1 (hfr hf), this.2.2.2⟩
  · intro n t' p ps ht' hp
    obtain ⟨t, h1, h2, -⟩ := back n t' ht'
    rw [h2] at hp
    rw [hid]
    exact h.ledger n t p ps h1 hp
  · intro n t' p ps q qs ht' hp hq
    obtain ⟨t, h1, h2, -⟩ := back n t' ht'
    rw [h2] at hp hq
    exact h.distinct n t p ps q qs h1 hp hq

/-- A state in which one stored problem status of one team is replaced is well
formed again when the new status respects the ledger conditions. -/
theorem WellFormed.update_problem {s s' : ICPCSystem} (h : WellFormed s)
    {n : String} {t : Team} {p : Char} {ps ps' : ProblemStatus}
    (hn : s.teams n = some t) (hp : t.problems p = some ps)
    (hteams : s'.teams = Map.set s.teams n (t.setProblem p ps'))
    (hnames : s'.teamNames = s.teamNames)
    (hpc : s'.problemCount = s.problemCount) (hst : s'.started = s.started)
    (hfr : s'.frozen = s.frozen)
    (hid : s.nextSubmissionId ≤ s'.nextSubmissionId)
    (hpend : 0 ≤ ps'.frozenSubmissions ∧ (ps'.solved = true → ps'.frozenSubmissions = 0) ∧
      (s.frozen = false → ps'.frozenSubmissions = 0) ∧
      ps'.frozenSubmissions ≤ ps'.submissions.length)
    (hled : ∀ sub ∈ ps'.submissions, sub.problem = p ∧ sub.submissionId < s'.nextSubmissionId)
    (hnew : ∃ new : Submission, s.nextSubmissionId ≤ new.submissionId ∧
      ∀ x ∈ ps'.submissions, x ∈ ps.submissions ∨ x = new) : WellFormed s' := by
  have hprob : ∀ q, (t.setProblem p ps').problems q = if q = p then some ps' else t.problems q :=
    fun q => rfl
  have hteam : ∀ m, s'.teams m = if m = n then some (t.setProblem p ps') else s.teams m := by
    intro m; rw [hteams]; rfl
  refine ⟨hnames ▸ h.nodup, ?_, ?_, hpc ▸ h.count, ?_, ?_, ?_, ?_, ?_⟩
  · intro m
    rw [hnames, h.roster, hteam]
    by_cases hm : m = n
    · subst hm; simp [hn]
    · simp [hm]
  · intro m t' ht' q
    rw [hteam] at ht'
    rw [hpc]
    by_cases hm : m = n
    · subst hm
      simp only [if_true, Option.some.injEq] at ht'
      subst ht'
      rw [hprob]
      by_cases hq : q = p
      · subst hq
        simp only [if_true, Option.isSome_some, true_iff]
        exact (h.keys m t hn q).mp (by simp [hp])
      · simp only [if_neg hq]
        exact h.keys m t hn q
    · simp only [if_neg hm] at ht'
      exact h.keys m t' ht' q
  · intro hs
    rw [hpc]
    exact h.notStarted (hst ▸ hs)
  · intro m t' ht'
    rw [hteam] at ht'
    by_cases hm : m = n
    · subst hm
      simp only [if_true, Option.some.injEq] at ht'
      subst ht'
      exact h.rankNonneg m t hn
    · simp only [if_neg hm] at ht'
      exact h.rankNonneg m t' ht'
  · intro m t' q qs ht' hq
    rw [hteam] at ht'
    rw [hfr]
    by_cases hm : m = n
    · subst hm
      simp only [if_true, Option.some.injEq] at ht'
      subst ht'
      rw [hprob] at hq
      by_cases hqp : q = p
      · subst hqp
        simp only [if_true, Option.some.injEq] at hq
        subst hq
        exact hpend
      · simp only [if_neg hqp] at hq
        exact h.pending m t q qs hn hq
    · simp only [if_neg hm] at ht'
      exact h.pending m t' q qs ht' hq
  · intro m t' q qs ht' hq sub hsub
    rw [hteam] at ht'
    by_cases hm : m = n
    · subst hm
      simp only [if_true, Option.some.injEq] at ht'
      subst ht'
      rw [hprob] at hq
      by_cases hqp : q = p
      · subst hqp
        simp only [if_true, Option.some.injEq] at hq
        subst hq
        exact hled sub hsub
      · simp only [if_neg hqp] at hq
        have := h.ledger m t q qs hn hq sub hsub
        exact ⟨this.1, by omega⟩
    · simp only [if_neg hm] at ht'
      have := h.ledger m t' q qs ht' hq sub hsub
      exact ⟨this.1, by omega⟩
  · intro m t' q qs r rs ht' hq hr x hx y hy hxy
    rw [hteam] at ht'
    by_cases hm : m = n
    · subst hm
      simp only [if_true, Option.some.injEq] at ht'
      subst ht'
      rw [hprob] at hq hr
      obtain ⟨new, hnew1, hnew2⟩ := hnew
      -- every stored submission is an old one of some list, or the new one
      have old_or_new : ∀ (q : Char) (qs : ProblemStatus),
          (if q = p then some ps' else t.problems q) = some qs → ∀ x ∈ qs.submissions,
          (∃ q' qs', t.problems q' = some qs' ∧ x ∈ qs'.submissions) ∨ x = new := by
        intro q qs hq x hx
        by_cases hqp : q = p
        · subst hqp
          simp only [if_true, Option.some.injEq] at hq
          subst hq
          rcases hnew2 x hx with h1 | h1
          · exact Or.inl ⟨q, ps, hp, h1⟩
          · exact Or.inr h1
        · simp only [if_neg hqp] at hq
          exact Or.inl ⟨q, qs, hq, hx⟩
      rcases old_or_new q qs hq x hx with ⟨q1, qs1, h1, h1'⟩ | h1
      · rcases old_or_new r rs hr y hy with ⟨q2, qs2, h2, h2'⟩ | h2
        · exact h.distinct m t q1 qs1 q2 qs2 hn h1 h2 x h1' y h2' hxy
        · have := (h.ledger m t q1 qs1 hn h1 x h1').2
          rw [h2] at hxy
          omega
      · rcases old_or_new r rs hr y hy with ⟨q2, qs2, h2, h2'⟩ | h2
        · have := (h.ledger m t q2 qs2 hn h2 y h2').2
          rw [h1] at hxy
          omega
        · rw [h1, h2]
    · simp only [if_neg hm] at ht'
      exact h.distinct m t' q qs r rs ht' hq hr x hx y hy hxy

theorem problem_of_some {t : Team} {p : Char} {ps : ProblemStatus} (h : t.problems p = some ps) :
    t.problem p = ps := by
  simp [Team.problem, h]

/-- In a well-formed state the recompute rewrites the statistics and the ranking of
every registered team and nothing else. -/
theorem updateRankings_teams_of_wellFormed {s : ICPCSystem} (h : WellFormed s) (n : String) :
    (s.teams n = none → (updateRankings s).teams n = none) ∧
    ∀ t, s.teams n = some t → ∃ r : Int, 1 ≤ r ∧ r ≤ s.teamNames.length ∧
      (updateRankings s).teams n =
        some { t with solvedCount := countSolved t s.problemCount
                      penaltyTime := storedPenalty t s.problemCount
                      ranking := r } := by
  constructor
  · intro hn
    have hmem : n ∉ (updateRankings s).teamNames := by
      rw [(updateRankings_perm s).mem_iff, h.roster, hn]
      simp
    rw [updateRankings_teams, assignRankings_not_mem _ _ _ _ hmem]
    simp [refreshStats, hn]
  · intro t hn
    have hmem : n ∈ (updateRankings s).teamNames := by
      rw [(updateRankings_perm s).mem_iff, h.roster, hn]
      rfl
    obtain ⟨r, h1, h2, h3⟩ := assignRankings_mem 0 (updateRankings s).teamNames
      (refreshStats s).teams n hmem
    refine ⟨r, by simpa using h1, ?_, ?_⟩
    · rw [(updateRankings_perm s).length_eq] at h2
      simpa using h2
    · rw [updateRankings_teams, h3]
      have : (refreshStats s).teams n = some (t.updateStats s.problemCount) := by
        simp [refreshStats, hn]
      rw [this]
      simp only [Option.getD_some, Option.some.injEq]
      have hk := updateStats_problems_of_keys t s.problemCount
        (fun p hp => (h.keys n t hn p).mpr hp)
      rw [updateStats_eq] at hk ⊢
      simp only at hk
      simp only [hk]

theorem wellFormed_updateRankings {s : ICPCSystem} (h : WellFormed s) :
    WellFormed (updateRankings s) := by
  refine h.of_same_problems (updateRankings_perm s)
    (fun n hn => (updateRankings_teams_of_wellFormed h n).1 hn) ?_ rfl rfl (fun hf => hf) rfl
  intro n t hn
  obtain ⟨r, h1, -, h3⟩ := (updateRankings_teams_of_wellFormed h n).2 t hn
  exact ⟨_, h3, rfl, by simp only; omega⟩

theorem wellFormed_freeze {s : ICPCSystem} (h : WellFormed s) : WellFormed (freeze s).1 := by
  unfold freeze
  split
  · exact h
  · refine h.of_same_problems (List.Perm.refl _) (fun n hn => hn) ?_ rfl rfl ?_ rfl
    · intro n t hn
      exact ⟨t, hn, rfl, h.rankNonneg n t hn⟩
    · intro hf
      simp at hf

theorem wellFormed_addTeam {s : ICPCSystem} (h : WellFormed s) (name : String) :
    WellFormed (addTeam s name).1 := by
  unfold addTeam
  split
  · exact h
  · rename_i hst
    split
    · exact h
    · rename_i hdup
      have hnone : s.teams name = none := by
        cases hx : s.teams name with
        | none => rfl
        | some t => simp [hx] at hdup
      have hpc : s.problemCount = 0 := h.notStarted (by simpa using hst)
      have hteam : ∀ m t, Map.set s.teams name ({ name := name } : Team) m = some t →
          (m = name ∧ t = { name := name }) ∨ (m ≠ name ∧ s.teams m = some t) := by
        intro m t hm
        by_cases hmn : m = name
        · subst hmn
          simp only [Map.set_same, Option.some.injEq] at hm
          exact Or.inl ⟨rfl, hm.symm⟩
        · rw [Map.set_other _ _ hmn] at hm
          exact Or.inr ⟨hmn, hm⟩
      refine ⟨?_, ?_, ?_, h.count, h.notStarted, ?_, ?_, ?_, ?_⟩
      · simp only
        rw [List.nodup_append]
        refine ⟨h.nodup, List.nodup_singleton _, ?_⟩
        intro a ha hb
        rw [List.mem_singleton] at hb
        subst hb
        have := (h.roster a).mp ha
        simp [hnone] at this
      · intro m
        simp only [List.mem_append, List.mem_singleton, Map.set_apply]
        by_cases hmn : m = name
        · simp [hmn]
        · simp [hmn, h.roster m]
      · intro m t hm p
        rcases hteam m t hm with ⟨-, rfl⟩ | ⟨-, h2⟩
        · simp [hpc, letters]
        · exact h.keys m t h2 p
      · intro m t hm
        rcases hteam m t hm with ⟨-, rfl⟩ | ⟨-, h2⟩
        · exact le_refl _
        · exact h.rankNonneg m t h2
      · intro m t p ps hm hp
        rcases hteam m t hm with ⟨-, rfl⟩ | ⟨-, h2⟩
        · simp at hp
        · exact h.pending m t p ps h2 hp
      · intro m t p ps hm hp
        rcases hteam m t hm with ⟨-, rfl⟩ | ⟨-, h2⟩
        · simp at hp
        · exact h.ledger m t p ps h2 hp
      · intro m t p ps q qs hm hp
        rcases hteam m t hm with ⟨-, rfl⟩ | ⟨-, h2⟩
        · simp at hp
        · exact h.distinct m t p ps q qs h2 hp

theorem foldl_set_default (l : List Char) (m : Char → Option ProblemStatus) (q : Char) :
    l.foldl (fun m p => Map.set m p ({} : ProblemStatus)) m q =
      if q ∈ l then some {} else m q := by
  induction l generalizing m with
  | nil => simp
  | cons p l ih =>
    rw [List.foldl_cons, ih]
    by_cases hq : q ∈ l
    · simp [hq]
    · by_cases hqp : q = p
      · subst hqp; simp [hq]
      · simp [hq, hqp, Map.set_other _ _ hqp]

theorem wellFormed_startCompetition {s : ICPCSystem} (h : WellFormed s) (duration problems : Int)
    (hv : problems ≤ 26) : WellFormed (startCompetition s duration problems).1 := by
  unfold startCompetition
  split
  · exact h
  · rename_i hst
    have hpc : s.problemCount = 0 := h.notStarted (by simpa using hst)
    -- the team stored under `m` after the start
    have hteam : ∀ m t', assignRankings 0 (sortWith stringLess s.teamNames)
        (fun n => (s.teams n).map (fun t =>
          { t with problems := (letters problems).foldl (fun m p => Map.set m p {}) t.problems }))
        m = some t' →
        ∃ t, s.teams m = some t ∧ 0 ≤ t'.ranking ∧
          t'.problems = (letters problems).foldl (fun m p => Map.set m p {}) t.problems := by
      intro m t' hm
      by_cases hmem : m ∈ sortWith stringLess s.teamNames
      · obtain ⟨r, h1, -, h3⟩ := assignRankings_mem 0 _
          (fun n => (s.teams n).map (fun t =>
            { t with problems := (letters problems).foldl (fun m p => Map.set m p {}) t.problems }))
          m hmem
        rw [h3] at hm
        have hin := (h.roster m).mp ((mem_sortWith _ _ _).mp hmem)
        cases hx : s.teams m with
        | none => simp [hx] at hin
        | some t =>
          simp only [hx, Option.map_some', Option.getD_some, Option.some.injEq] at hm
          subst hm
          exact ⟨t, rfl, by simp only; push_cast at h1; omega, rfl⟩
      · rw [assignRankings_not_mem _ _ _ _ hmem] at hm
        have hout : s.teams m = none := by
          cases hx : s.teams m with
          | none => rfl
          | some t =>
            exact absurd ((mem_sortWith _ _ _).mpr ((h.roster m).mpr (by simp [hx]))) hmem
        simp [hout] at hm
    have hprob : ∀ m t' p ps, assignRankings 0 (sortWith stringLess s.teamNames)
        (fun n => (s.teams n).map (fun t =>
          { t with problems := (letters problems).foldl (fun m p => Map.set m p {}) t.problems }))
        m = some t' → t'.problems p = some ps → ps = {} := by
      intro m t' p ps hm hp
      obtain ⟨t, h1, -, h3⟩ := hteam m t' hm
      rw [h3, foldl_set_default] at hp
      split at hp
      · exact (Option.some.inj hp).symm
      · have := (h.keys m t h1 p).mp (by simp [hp])
        simp [hpc, letters] at this
    refine ⟨?_, ?_, ?_, hv, ?_, ?_, ?_, ?_, ?_⟩
    · exact (sortWith_perm _ _).nodup_iff.mpr h.nodup
    · intro m
      simp only
      rw [assignRankings_isSome, mem_sortWith, h.roster]
      cases s.teams m <;> simp
    · intro m t' hm p
      obtain ⟨t, h1, -, h3⟩ := hteam m t' hm
      rw [h3, foldl_set_default]
      by_cases hp : p ∈ letters problems
      · simp [hp]
      · simp only [if_neg hp]
        have hk := h.keys m t h1 p
        rw [hpc] at hk
        have h0 : ¬ (t.problems p).isSome = true := by
          intro hc
          have := hk.mp hc
          simp [letters] at this
        exact ⟨fun hc => absurd hc h0, fun hc => absurd hc hp⟩
    · intro hc
      simp at hc
    · intro m t' hm
      exact (hteam m t' hm).choose_spec.2.1
    · intro m t' p ps hm hp
      rw [hprob m t' p ps hm hp]
      simp
    · intro m t' p ps hm hp
      rw [hprob m t' p ps hm hp]
      simp
    · intro m t' p ps q qs hm hp
      rw [hprob m t' p ps hm hp]
      simp

theorem record_submissions (ps : ProblemStatus) (frozen : Bool) (sub : Submission) :
    (ps.record frozen sub).submissions = ps.submissions ++ [sub] := by
  unfold ProblemStatus.record ProblemStatus.apply
  simp only
  split
  · split <;> rfl
  · split
    · split <;> rfl
    · rfl

theorem apply_submissions (ps : ProblemStatus) (status : String) (time : Int) :
    (ps.apply status time).submissions = ps.submissions := by
  unfold ProblemStatus.apply
  split
  · split <;> rfl
  · rfl

theorem apply_frozenSubmissions (ps : ProblemStatus) (status : String) (time : Int) :
    (ps.apply status time).frozenSubmissions = ps.frozenSubmissions := by
  unfold ProblemStatus.apply
  split
  · split <;> rfl
  · rfl

theorem record_frozenSubmissions (ps : ProblemStatus) (frozen : Bool) (sub : Submission) :
    (ps.record frozen sub).frozenSubmissions =
      if (frozen && !ps.solved) = true then ps.frozenSubmissions + 1
      else ps.frozenSubmissions := by
  cases frozen <;> cases hs : ps.solved <;>
    simp [ProblemStatus.record, ProblemStatus.apply, hs]
  all_goals (split <;> rfl)

theorem record_solved_of_frozen (ps : ProblemStatus) (sub : Submission) :
    (ps.record true sub).solved = ps.solved := by
  cases hs : ps.solved <;> simp [ProblemStatus.record, hs]

theorem submit_teams_of_some {s : ICPCSystem} {teamName : String} {t : Team}
    (hn : s.teams teamName = some t) (problem : Char) (status : String) (time : Int) :
    (submit s problem teamName status time).teams =
      Map.set s.teams teamName (t.setProblem problem
        ((t.problem problem).record s.frozen
          ⟨problem, status, time, s.nextSubmissionId⟩)) := by
  simp only [submit, team_of_some hn]

theorem wellFormed_submit {s : ICPCSystem} (h : WellFormed s) (problem : Char)
    (teamName status : String) (time : Int)
    (hv : (Op.submit problem teamName status time).valid s) :
    WellFormed (submit s problem teamName status time) := by
  obtain ⟨-, hteam, hletter⟩ := hv
  cases hn : s.teams teamName with
  | none => simp [hn] at hteam
  | some t =>
    have hkey := (h.keys teamName t hn problem).mpr hletter
    cases hp : t.problems problem with
    | none => simp [hp] at hkey
    | some ps =>
      have hinv := h.pending teamName t problem ps hn hp
      refine h.update_problem hn hp (submit_teams_of_some hn problem status time) rfl rfl rfl rfl
        (by simp only [submit]; omega) ?_ ?_ ?_
      · rw [problem_of_some hp, record_frozenSubmissions, record_submissions]
        have hlen : ((ps.submissions ++ [(⟨problem, status, time, s.nextSubmissionId⟩ :
            Submission)]).length : Int) = ps.submissions.length + 1 := by simp
        rw [hlen]
        cases hf : s.frozen with
        | true =>
          rw [record_solved_of_frozen]
          cases hs : ps.solved with
          | true =>
            have h0 := hinv.2.1 hs
            simp only [Bool.not_true, Bool.and_false, Bool.false_eq_true, if_false, h0]
            exact ⟨le_refl _, fun _ => trivial, fun _ => trivial, by omega⟩
          | false =>
            simp only [Bool.not_false, Bool.and_self, if_true]
            exact ⟨by omega, fun hc => Bool.noConfusion hc, fun hc => Bool.noConfusion hc,
              by have := hinv.2.2.2; omega⟩
        | false =>
          have h0 := hinv.2.2.1 hf
          simp only [Bool.false_and, Bool.false_eq_true, if_false, h0]
          exact ⟨le_refl _, fun _ => trivial, fun _ => trivial, by omega⟩
      · intro sub hsub
        rw [problem_of_some hp, record_submissions, List.mem_append, List.mem_singleton] at hsub
        simp only [submit]
        rcases hsub with h1 | h1
        · have := h.ledger teamName t problem ps hn hp sub h1
          exact ⟨this.1, by omega⟩
        · subst h1
          exact ⟨rfl, by simp only; omega⟩
      · refine ⟨⟨problem, status, time, s.nextSubmissionId⟩, le_refl _, ?_⟩
        intro x hx
        rw [problem_of_some hp, record_submissions, List.mem_append, List.mem_singleton] at hx
        exact hx

/-! ## The selection and the reveal of `scroll` -/

theorem findLowest_fold (s : ICPCSystem) (l : List String) (acc : Bool × String × Int) :
    ((l.foldl
        (fun acc name =>
          let t := s.team name
          if hasFrozen t s.problemCount then
            if t.ranking > acc.2.2 then (true, name, t.ranking) else (true, acc.2.1, acc.2.2)
          else acc) acc).1 = true ↔
      acc.1 = true ∨ ∃ n ∈ l, hasFrozen (s.team n) s.problemCount = true) ∧
    acc.2.2 ≤ (l.foldl
        (fun acc name =>
          let t := s.team name
          if hasFrozen t s.problemCount then
            if t.ranking > acc.2.2 then (true, name, t.ranking) else (true, acc.2.1, acc.2.2)
          else acc) acc).2.2 ∧
    (∀ n ∈ l, hasFrozen (s.team n) s.problemCount = true →
      (s.team n).ranking ≤ (l.foldl
        (fun acc name =>
          let t := s.team name
          if hasFrozen t s.problemCount then
            if t.ranking > acc.2.2 then (true, name, t.ranking) else (true, acc.2.1, acc.2.2)
          else acc) acc).2.2) ∧
    ((l.foldl
        (fun acc name =>
          let t := s.team name
          if hasFrozen t s.problemCount then
            if t.ranking > acc.2.2 then (true, name, t.ranking) else (true, acc.2.1, acc.2.2)
          else acc) acc).2 = acc.2 ∨
      ∃ n ∈ l, hasFrozen (s.team n) s.problemCount = true ∧
        (l.foldl
        (fun acc name =>
          let t := s.team name
          if hasFrozen t s.problemCount then
            if t.ranking > acc.2.2 then (true, name, t.ranking) else (true, acc.2.1, acc.2.2)
          else acc) acc).2 = (n, (s.team n).ranking)) := by
  induction l generalizing acc with
  | nil => simp
  | cons m l ih =>
    rw [List.foldl_cons]
    by_cases hf : hasFrozen (s.team m) s.problemCount = true
    · by_cases hr : (s.team m).ranking > acc.2.2
      · simp only [hf, hr, if_true]
        obtain ⟨h1, h2, h3, h4⟩ := ih (true, m, (s.team m).ranking)
        refine ⟨?_, ?_, ?_, ?_⟩
        · rw [h1]
          simp only [true_or, true_iff]
          exact Or.inr ⟨m, List.mem_cons_self _ _, hf⟩
        · simp only at h2; omega
        · intro n hn hfn
          rcases List.mem_cons.mp hn with rfl | hn
          · exact h2
          · exact h3 n hn hfn
        · right
          rcases h4 with h4 | ⟨n, hn, hfn, h4⟩
          · exact ⟨m, List.mem_cons_self _ _, hf, h4⟩
          · exact ⟨n, List.mem_cons_of_mem _ hn, hfn, h4⟩
      · simp only [hf, hr, if_true, if_false]
        obtain ⟨h1, h2, h3, h4⟩ := ih (true, acc.2.1, acc.2.2)
        refine ⟨?_, h2, ?_, ?_⟩
        · rw [h1]
          simp only [true_or, true_iff]
          exact Or.inr ⟨m, List.mem_cons_self _ _, hf⟩
        · intro n hn hfn
          rcases List.mem_cons.mp hn with rfl | hn
          · simp only at h2; omega
          · exact h3 n hn hfn
        · rcases h4 with h4 | ⟨n, hn, hfn, h4⟩
          · exact Or.inl h4
          · exact Or.inr ⟨n, List.mem_cons_of_mem _ hn, hfn, h4⟩
    · simp only [hf, Bool.false_eq_true, if_false]
      obtain ⟨h1, h2, h3, h4⟩ := ih acc
      refine ⟨?_, h2, ?_, ?_⟩
      · rw [h1]
        constructor
        · rintro (h | ⟨n, hn, hfn⟩)
          · exact Or.inl h
          · exact Or.inr ⟨n, List.mem_cons_of_mem _ hn, hfn⟩
        · rintro (h | ⟨n, hn, hfn⟩)
          · exact Or.inl h
          · rcases List.mem_cons.mp hn with rfl | hn
            · exact absurd hfn hf
            · exact Or.inr ⟨n, hn, hfn⟩
      · intro n hn hfn
        rcases List.mem_cons.mp hn with rfl | hn
        · exact absurd hfn hf
        · exact h3 n hn hfn
      · rcases h4 with h4 | ⟨n, hn, hfn, h4⟩
        · exact Or.inl h4
        · exact Or.inr ⟨n, List.mem_cons_of_mem _ hn, hfn, h4⟩

/-- The selection finds a team exactly when some roster team has a pending problem. -/
theorem findLowest_true_iff (s : ICPCSystem) :
    (findLowest s).1 = true ↔
      ∃ n ∈ s.teamNames, hasFrozen (s.team n) s.problemCount = true := by
  have := (findLowest_fold s s.teamNames (false, "", -1)).1
  simpa [findLowest] using this

/-- The selected team is a roster team with a pending problem whose ranking is the
largest among such teams. -/
theorem findLowest_spec (s : ICPCSystem)
    (hrank : ∀ n ∈ s.teamNames, -1 < (s.team n).ranking) (h : (findLowest s).1 = true) :
    (findLowest s).2.1 ∈ s.teamNames ∧
    hasFrozen (s.team (findLowest s).2.1) s.problemCount = true ∧
    (findLowest s).2.2 = (s.team (findLowest s).2.1).ranking ∧
    ∀ n ∈ s.teamNames, hasFrozen (s.team n) s.problemCount = true →
      (s.team n).ranking ≤ (s.team (findLowest s).2.1).ranking := by
  obtain ⟨-, -, h3, h4⟩ := findLowest_fold s s.teamNames (false, "", -1)
  obtain ⟨n, hn, hfn⟩ := (findLowest_true_iff s).mp h
  have hlow : (findLowest s).2 ≠ ("", -1) := by
    intro hc
    have h1 := h3 n hn hfn
    have h2 := hrank n hn
    have h5 : (findLowest s).2.2 = -1 := by rw [hc]
    unfold findLowest at h5
    omega
  rcases h4 with h4 | ⟨m, hm, hfm, h4⟩
  · exact absurd h4 hlow
  · have e1 : (findLowest s).2.1 = m := congrArg Prod.fst h4
    have e2 : (findLowest s).2.2 = (s.team m).ranking := congrArg Prod.snd h4
    rw [e1]
    refine ⟨hm, hfm, e2, ?_⟩
    intro k hk hfk
    have := h3 k hk hfk
    unfold findLowest at e2
    omega

theorem smallestProblem_spec (t : Team) (pc : Int) (h : hasFrozen t pc = true) :
    smallestProblem t pc ∈ letters pc ∧ (t.problem (smallestProblem t pc)).pending = true := by
  unfold smallestProblem
  cases hf : (letters pc).find? (fun p => (t.problem p).pending) with
  | none =>
    rw [List.find?_eq_none] at hf
    unfold hasFrozen at h
    rw [List.any_eq_true] at h
    obtain ⟨p, hp, hpp⟩ := h
    exact absurd hpp (hf p hp)
  | some p =>
    simp only [Option.getD_some]
    exact ⟨List.mem_of_find?_eq_some hf,
      @List.find?_some _ (fun p => (t.problem p).pending) p (letters pc) hf⟩

theorem foldl_apply_submissions (l : List Submission) (ps : ProblemStatus) :
    (l.foldl (fun acc sub => acc.apply sub.status sub.time) ps).submissions = ps.submissions := by
  induction l generalizing ps with
  | nil => rfl
  | cons x l ih => rw [List.foldl_cons, ih, apply_submissions]

@[simp] theorem unfreeze_submissions (ps : ProblemStatus) :
    (unfreeze ps).submissions = ps.submissions := by
  simp [unfreeze, foldl_apply_submissions]

@[simp] theorem unfreeze_frozenSubmissions (ps : ProblemStatus) :
    (unfreeze ps).frozenSubmissions = 0 := rfl

theorem pending_iff (ps : ProblemStatus) :
    ps.pending = true ↔ ps.solved = false ∧ 0 < ps.frozenSubmissions := by
  simp [ProblemStatus.pending]

/-- The reveal of the first pending problem of a registered team with a pending
problem keeps the state well formed. -/
theorem wellFormed_reveal {s : ICPCSystem} (h : WellFormed s) {n : String}
    (hn : n ∈ s.teamNames) (hf : hasFrozen (s.team n) s.problemCount = true) :
    WellFormed (reveal s n) := by
  have hsome := (h.roster n).mp hn
  cases ht : s.teams n with
  | none => simp [ht] at hsome
  | some t =>
    rw [team_of_some ht] at hf
    obtain ⟨hp, -⟩ := smallestProblem_spec t s.problemCount hf
    have hkey := (h.keys n t ht _).mpr hp
    cases hps : t.problems (smallestProblem t s.problemCount) with
    | none => simp [hps] at hkey
    | some ps =>
      have hteams : (reveal s n).teams = Map.set s.teams n
          (t.setProblem (smallestProblem t s.problemCount) (unfreeze ps)) := by
        simp only [reveal, team_of_some ht, problem_of_some hps]
      refine h.update_problem ht hps hteams rfl rfl rfl rfl (le_refl _) ?_ ?_ ?_
      · exact ⟨le_refl _, fun _ => rfl, fun _ => rfl, by simp⟩
      · intro sub hsub
        rw [unfreeze_submissions] at hsub
        exact h.ledger n t _ ps ht hps sub hsub
      · refine ⟨⟨'A', "", 0, s.nextSubmissionId⟩, le_refl _, ?_⟩
        intro x hx
        rw [unfreeze_submissions] at hx
        exact Or.inl hx

theorem rank_gt_of_wellFormed {s : ICPCSystem} (h : WellFormed s) :
    ∀ n ∈ s.teamNames, -1 < (s.team n).ranking := by
  intro n hn
  have hsome := (h.roster n).mp hn
  cases ht : s.teams n with
  | none => simp [ht] at hsome
  | some t =>
    rw [team_of_some ht]
    have := h.rankNonneg n t ht
    omega

/-- The state after one pass of the loop is the recompute of the reveal on the
selected team. -/
theorem scrollIteration_state {s s' : ICPCSystem} {out : List Message}
    (h : scrollIteration s = some (s', out)) :
    (findLowest s).1 = true ∧ s' = updateRankings (reveal s (findLowest s).2.1) := by
  unfold scrollIteration at h
  simp only at h
  split at h
  · exact Option.noConfusion h
  · rename_i hsel
    refine ⟨by simpa using hsel, ?_⟩
    split at h
    · exact (congrArg Prod.fst (Option.some.inj h)).symm
    · exact (congrArg Prod.fst (Option.some.inj h)).symm

theorem scrollIteration_eq_none {s : ICPCSystem} :
    scrollIteration s = none ↔ (findLowest s).1 = false := by
  unfold scrollIteration
  simp only
  split
  · rename_i h; simp at h; simp [h]
  · rename_i h
    simp only [Bool.not_eq_true, Bool.not_eq_false'] at h
    split <;> simp [h]

theorem wellFormed_scrollIteration {s s' : ICPCSystem} {out : List Message}
    (h : WellFormed s) (hs : scrollIteration s = some (s', out)) : WellFormed s' := by
  obtain ⟨hsel, rfl⟩ := scrollIteration_state hs
  obtain ⟨h1, h2, -, -⟩ := findLowest_spec s (rank_gt_of_wellFormed h) hsel
  exact wellFormed_updateRankings (wellFormed_reveal h h1 h2)

/-! ## Termination of the loop of `scroll` -/

theorem reveal_team (s : ICPCSystem) (n m : String) :
    (reveal s n).team m =
      if m = n then
        (s.team n).setProblem (smallestProblem (s.team n) s.problemCount)
          (unfreeze ((s.team n).problem (smallestProblem (s.team n) s.problemCount)))
      else s.team m := by
  by_cases h : m = n
  · subst h; simp [reveal, ICPCSystem.team]
  · simp [reveal, ICPCSystem.team, Map.set_other _ _ h, h]

theorem teamPending_congr (t t' : Team) (pc : Int)
    (h : ∀ p ∈ letters pc, (t.problem p).frozenSubmissions = (t'.problem p).frozenSubmissions) :
    teamPending t pc = teamPending t' pc := by
  unfold teamPending
  congr 1
  exact List.map_congr_left (fun p hp => by rw [h p hp])

theorem totalPending_updateRankings (s : ICPCSystem) :
    totalPending (updateRankings s) = totalPending s := by
  unfold totalPending
  have h1 : (updateRankings s).teamNames.map
      (fun n => teamPending ((updateRankings s).team n) (updateRankings s).problemCount) =
      (updateRankings s).teamNames.map (fun n => teamPending (s.team n) s.problemCount) := by
    apply List.map_congr_left
    intro n _
    exact teamPending_congr _ _ _
      (fun p _ => by rw [(updateRankings_team_fields s n).2.2.2 p])
  rw [h1]
  exact ((updateRankings_perm s).map _).sum_eq

theorem totalPending_reveal_lt (s : ICPCSystem) {n : String} (hn : n ∈ s.teamNames)
    (hf : hasFrozen (s.team n) s.problemCount = true) :
    totalPending (reveal s n) < totalPending s := by
  obtain ⟨hp, hpend⟩ := smallestProblem_spec (s.team n) s.problemCount hf
  have hpos := ((pending_iff _).mp hpend).2
  unfold totalPending
  apply List.sum_lt_sum
  · intro m _
    show teamPending ((reveal s n).team m) s.problemCount ≤ teamPending (s.team m) s.problemCount
    rw [reveal_team]
    split
    · rename_i hm
      subst hm
      unfold teamPending
      apply List.sum_le_sum
      intro q _
      rw [setProblem_problem]
      split
      · simp
      · exact le_refl _
    · exact le_refl _
  · refine ⟨n, hn, ?_⟩
    show teamPending ((reveal s n).team n) s.problemCount < teamPending (s.team n) s.problemCount
    rw [reveal_team, if_pos rfl]
    unfold teamPending
    apply List.sum_lt_sum
    · intro q _
      rw [setProblem_problem]
      split
      · simp
      · exact le_refl _
    · refine ⟨_, hp, ?_⟩
      rw [setProblem_problem, if_pos rfl]
      simp only [unfreeze_frozenSubmissions, Int.toNat_zero]
      omega

/-- Every pass of the loop strictly decreases the number of pending frozen
submissions. -/
theorem totalPending_scrollIteration_lt {s s' : ICPCSystem} {out : List Message}
    (h : WellFormed s) (hs : scrollIteration s = some (s', out)) :
    totalPending s' < totalPending s := by
  obtain ⟨hsel, rfl⟩ := scrollIteration_state hs
  obtain ⟨h1, h2, -, -⟩ := findLowest_spec s (rank_gt_of_wellFormed h) hsel
  rw [totalPending_updateRankings]
  exact totalPending_reveal_lt s h1 h2

theorem scrollIteration_frozen {s s' : ICPCSystem} {out : List Message}
    (hs : scrollIteration s = some (s', out)) : s'.frozen = s.frozen := by
  obtain ⟨-, rfl⟩ := scrollIteration_state hs
  rfl

/-- When the selection finds no team, no stored status has a frozen submission. -/
theorem noPending_of_findLowest {s : ICPCSystem} (h : WellFormed s)
    (hsel : (findLowest s).1 = false) : NoPending s := by
  intro n t p ps hn hp
  have hroster : n ∈ s.teamNames := (h.roster n).mpr (by simp [hn])
  have hletter : p ∈ letters s.problemCount := (h.keys n t hn p).mp (by simp [hp])
  have hinv := h.pending n t p ps hn hp
  by_contra hne
  have hpend : (t.problem p).pending = true := by
    rw [problem_of_some hp, pending_iff]
    constructor
    · cases hs : ps.solved with
      | false => rfl
      | true => exact absurd (hinv.2.1 hs) hne
    · omega
  have : (findLowest s).1 = true := by
    rw [findLowest_true_iff]
    refine ⟨n, hroster, ?_⟩
    rw [team_of_some hn]
    unfold hasFrozen
    rw [List.any_eq_true]
    exact ⟨p, hletter, hpend⟩
  rw [hsel] at this
  exact Bool.noConfusion this

/-- With more fuel than pending frozen submissions the loop reaches its `break`,
after at most that many reveals, in a well-formed state without pending
submissions. -/
theorem scrollLoop_terminates (fuel : Nat) (s : ICPCSystem) (h : WellFormed s)
    (hfuel : totalPending s < fuel) :
    ∃ s' out reveals, scrollLoop fuel s = some (s', out, reveals) ∧
      reveals ≤ totalPending s ∧ WellFormed s' ∧ NoPending s' ∧ s'.frozen = s.frozen := by
  induction fuel generalizing s with
  | zero => omega
  | succ fuel ih =>
    cases hs : scrollIteration s with
    | none =>
      refine ⟨s, [], 0, by simp [scrollLoop, hs], Nat.zero_le _, h, ?_, rfl⟩
      exact noPending_of_findLowest h (scrollIteration_eq_none.mp hs)
    | some r =>
      obtain ⟨s1, out1⟩ := r
      have hlt := totalPending_scrollIteration_lt h hs
      obtain ⟨s', out, k, h1, h2, h3, h4, h5⟩ :=
        ih s1 (wellFormed_scrollIteration h hs) (by omega)
      refine ⟨s', out1 ++ out, k + 1, by simp [scrollLoop, hs, h1], by omega, h3, h4, ?_⟩
      rw [h5, scrollIteration_frozen hs]

theorem wellFormed_unfreezeFlag {s : ICPCSystem} (h : WellFormed s) (hz : NoPending s) :
    WellFormed { s with frozen := false } where
  nodup := h.nodup
  roster := h.roster
  keys := h.keys
  count := h.count
  notStarted := h.notStarted
  rankNonneg := h.rankNonneg
  pending := fun n t p ps hn hp =>
    ⟨(h.pending n t p ps hn hp).1, (h.pending n t p ps hn hp).2.1, fun _ => hz n t p ps hn hp,
      (h.pending n t p ps hn hp).2.2.2⟩
  ledger := h.ledger
  distinct := h.distinct

theorem wellFormed_scroll {s s' : ICPCSystem} {fuel : Nat} {out : List Message}
    (h : WellFormed s) (hs : scroll fuel s = some (s', out)) : WellFormed s' := by
  unfold scroll at hs
  split at hs
  · cases hs
    exact h
  · -- the loop returned, hence reached its `break` in a well-formed state
    have key : ∀ (fuel : Nat) (s1 : ICPCSystem) r, WellFormed s1 →
        scrollLoop fuel s1 = some r → WellFormed r.1 ∧ NoPending r.1 := by
      intro fuel
      induction fuel with
      | zero => intro s1 r _ hr; simp [scrollLoop] at hr
      | succ fuel ih =>
        intro s1 r h1 hr
        simp only [scrollLoop] at hr
        cases hi : scrollIteration s1 with
        | none =>
          simp only [hi, Option.some.injEq] at hr
          subst hr
          exact ⟨h1, noPending_of_findLowest h1 (scrollIteration_eq_none.mp hi)⟩
        | some r1 =>
          obtain ⟨s2, out2⟩ := r1
          simp only [hi, Option.map_eq_some'] at hr
          obtain ⟨r2, hr2, rfl⟩ := hr
          exact ih s2 r2 (wellFormed_scrollIteration h1 hi) hr2
    simp only [Option.map_eq_some'] at hs
    obtain ⟨r, hr, hs⟩ := hs
    obtain ⟨h1, h2⟩ := key fuel _ r (wellFormed_updateRankings h) hr
    cases hs
    exact wellFormed_unfreezeFlag h1 h2

/-- Every reachable state is well formed. -/
theorem wellFormed_of_reachable {s : ICPCSystem} (h : Reachable s) : WellFormed s := by
  induction h with
  | init => exact wellFormed_init
  | @step s s' op fuel out _ hv hs ih =>
    cases op with
    | addTeam name =>
      have e : (addTeam s name).1 = s' := congrArg Prod.fst (Option.some.inj hs)
      rw [← e]
      exact wellFormed_addTeam ih name
    | startCompetition duration problems =>
      have e : (startCompetition s duration problems).1 = s' :=
        congrArg Prod.fst (Option.some.inj hs)
      rw [← e]
      exact wellFormed_startCompetition ih duration problems hv
    | submit problem teamName status time =>
      have e : submit s problem teamName status time = s' :=
        congrArg Prod.fst (Option.some.inj hs)
      rw [← e]
      exact wellFormed_submit ih problem teamName status time hv
    | flush =>
      have e : updateRankings s = s' := congrArg Prod.fst (Option.some.inj hs)
      rw [← e]
      exact wellFormed_updateRankings ih
    | freeze =>
      have e : (freeze s).1 = s' := congrArg Prod.fst (Option.some.inj hs)
      rw [← e]
      exact wellFormed_freeze ih
    | scroll => exact wellFormed_scroll ih hs
    | queryRanking name =>
      simp only [step, queryRanking] at hs
      split at hs <;> (cases hs; exact ih)
    | querySubmission teamName problemName statusName =>
      simp only [step, querySubmission] at hs
      split at hs <;> (cases hs; exact ih)

theorem wellFormed_of_loopState {s₀ s : ICPCSystem} (h₀ : WellFormed s₀)
    (h : LoopState s₀ s) : WellFormed s := by
  induction h with
  | entry => exact wellFormed_updateRankings h₀
  | pass _ hs ih => exact wellFormed_scrollIteration ih hs

/-! ## Reachability of concrete states -/

theorem Reachable.addTeam {s : ICPCSystem} (h : Reachable s) (name : String) :
    Reachable (addTeam s name).1 :=
  @Reachable.step s _ (.addTeam name) 0 (ICPC.addTeam s name).2 h trivial rfl

theorem Reachable.startCompetition {s : ICPCSystem} (h : Reachable s) (duration problems : Int)
    (hv : problems ≤ 26) : Reachable (startCompetition s duration problems).1 :=
  @Reachable.step s _ (.startCompetition duration problems) 0
    (ICPC.startCompetition s duration problems).2 h hv rfl

theorem Reachable.submit {s : ICPCSystem} (h : Reachable s) (problem : Char)
    (teamName status : String) (time : Int)
    (hv : (Op.submit problem teamName status time).valid s) :
    Reachable (submit s problem teamName status time) :=
  @Reachable.step s _ (.submit problem teamName status time) 0 [] h hv rfl

theorem Reachable.flush {s : ICPCSystem} (h : Reachable s) : Reachable (updateRankings s) :=
  @Reachable.step s _ .flush 0 (ICPC.flush s).2 h trivial rfl

theorem Reachable.freeze {s : ICPCSystem} (h : Reachable s) : Reachable (freeze s).1 :=
  @Reachable.step s _ .freeze 0 (ICPC.freeze s).2 h trivial rfl

theorem reachable_contestBeforeFlush : Reachable contestBeforeFlush :=
  (((((Reachable.init.addTeam "A").addTeam "B").startCompetition 120 2 (by decide)).submit
    'A' "A" "Wrong_Answer" 10 ⟨by decide, by decide, by decide⟩).submit
    'A' "A" "Accepted" 15 ⟨by decide, by decide, by decide⟩).submit
    'A' "B" "Accepted" 5 ⟨by decide, by decide, by decide⟩

theorem reachable_staleContest : Reachable staleContest :=
  (((((Reachable.init.addTeam "x").addTeam "y").addTeam "z").startCompetition 60 1
    (by decide)).submit 'A' "x" "Accepted" 7 ⟨by decide, by decide, by decide⟩).submit
    'A' "z" "Accepted" 5 ⟨by decide, by decide, by decide⟩

/-! ## C1: the recompute sorts the roster and numbers it -/

/-- C1: after `updateRankings` in a reachable state the roster is a permutation of
its previous contents, ordered by `compareTeams` (earlier positions precede later
ones), the team at index `i` has ranking `i + 1`, and ranking is a bijection from
the roster onto `1..N`. -/
theorem updateRankings_sorts_and_ranks (s : ICPCSystem) (hr : Reachable s) :
    (updateRankings s).teamNames.Perm s.teamNames ∧
    (∀ (i j : Nat) (hi : i < (updateRankings s).teamNames.length)
        (hj : j < (updateRankings s).teamNames.length), i < j →
      compareTeams (updateRankings s) ((updateRankings s).teamNames.get ⟨i, hi⟩)
        ((updateRankings s).teamNames.get ⟨j, hj⟩) = true) ∧
    (∀ (i : Nat) (hi : i < (updateRankings s).teamNames.length),
      ((updateRankings s).team ((updateRankings s).teamNames.get ⟨i, hi⟩)).ranking =
        (i : Int) + 1) ∧
    (∀ n ∈ (updateRankings s).teamNames,
      1 ≤ ((updateRankings s).team n).ranking ∧
      ((updateRankings s).team n).ranking ≤ s.teamNames.length) ∧
    (∀ n ∈ (updateRankings s).teamNames, ∀ m ∈ (updateRankings s).teamNames,
      ((updateRankings s).team n).ranking = ((updateRankings s).team m).ranking → n = m) ∧
    (∀ r : Int, 1 ≤ r → r ≤ s.teamNames.length →
      ∃ n ∈ (updateRankings s).teamNames, ((updateRankings s).team n).ranking = r) := by
  have hwf := wellFormed_of_reachable hr
  have hnd := updateRankings_nodup s hwf.nodup
  have hrk := updateRankings_ranked s hwf.nodup
  have hlen : (updateRankings s).teamNames.length = s.teamNames.length :=
    (updateRankings_perm s).length_eq
  refine ⟨updateRankings_perm s, ?_, hrk, ?_, ?_, ?_⟩
  · intro i j hi hj hij
    have := List.pairwise_iff_getElem.mp (updateRankings_pairwise s hwf.nodup) i j hi hj hij
    simpa using this
  · intro n hn
    obtain ⟨i, hi, rfl⟩ := List.mem_iff_getElem.mp hn
    have := hrk i hi
    simp only [List.get_eq_getElem] at this
    rw [this]
    omega
  · intro n hn m hm hnm
    obtain ⟨i, hi, rfl⟩ := List.mem_iff_getElem.mp hn
    obtain ⟨j, hj, rfl⟩ := List.mem_iff_getElem.mp hm
    have h1 := hrk i hi
    have h2 := hrk j hj
    simp only [List.get_eq_getElem] at h1 h2
    rw [h1, h2] at hnm
    have : i = j := by omega
    subst this
    rfl
  · intro r h1 h2
    have hi : (r - 1).toNat < (updateRankings s).teamNames.length := by omega
    refine ⟨_, List.getElem_mem hi, ?_⟩
    have := hrk _ hi
    simp only [List.get_eq_getElem] at this
    rw [this]
    omega

/-- The recompute of the end-to-end contest: the roster becomes `B`, `A` with the
rankings 1 and 2. -/
theorem updateRankings_sorts_and_ranks_witness :
    Reachable contestBeforeFlush ∧
    (updateRankings contestBeforeFlush).teamNames.Perm contestBeforeFlush.teamNames ∧
    (∀ (i : Nat) (hi : i < (updateRankings contestBeforeFlush).teamNames.length),
      ((updateRankings contestBeforeFlush).team
        ((updateRankings contestBeforeFlush).teamNames.get ⟨i, hi⟩)).ranking = (i : Int) + 1) :=
  ⟨reachable_contestBeforeFlush,
    (updateRankings_sorts_and_ranks contestBeforeFlush reachable_contestBeforeFlush).1,
    (updateRankings_sorts_and_ranks contestBeforeFlush reachable_contestBeforeFlush).2.2.1⟩

/-! ## C2: the comparator as an order -/

/-- C2 fails as stated: in the reachable state `staleContest`, whose cached solved
counts are stale, `z` precedes `x` and `x` precedes `y` but `z` does not precede
`y`, so `compareTeams` is not transitive on the roster. -/
theorem compareTeams_not_transitive_when_stale :
    Reachable staleContest ∧
    "x" ∈ staleContest.teamNames ∧ "y" ∈ staleContest.teamNames ∧
    "z" ∈ staleContest.teamNames ∧
    compareTeams staleContest "z" "x" = true ∧ compareTeams staleContest "x" "y" = true ∧
    compareTeams staleContest "z" "y" = false ∧ ¬ StrictTotalOnRoster staleContest := by
  refine ⟨reachable_staleContest, by decide, by decide, by decide, by decide, by decide,
    by decide, ?_⟩
  intro h
  have := h.2.2.1 "z" (by decide) "x" (by decide) "y" (by decide) (by decide) (by decide)
  exact absurd this (by decide)

/-- C2, amended: in every state `compareTeams` is irreflexive, never holds in both
directions and holds in exactly one direction for two distinct names; it is a strict
total order on the roster whenever the cached solved count of every roster team is
the one `updateStats` computes, which is the case in the state in which
`updateRankings` sorts and in the state it returns. -/
theorem compareTeams_strict_total_order (s : ICPCSystem) :
    (∀ a, compareTeams s a a = false) ∧
    (∀ a b, ¬ (compareTeams s a b = true ∧ compareTeams s b a = true)) ∧
    (∀ a b, a ≠ b → (compareTeams s a b = true ∧ compareTeams s b a = false) ∨
      (compareTeams s b a = true ∧ compareTeams s a b = false)) ∧
    ((∀ a ∈ s.teamNames,
        (s.team a).solvedCount = ((s.team a).updateStats s.problemCount).solvedCount) →
      StrictTotalOnRoster s) ∧
    StrictTotalOnRoster (refreshStats s) ∧ StrictTotalOnRoster (updateRankings s) := by
  refine ⟨compareTeams_irrefl s, ?_, ?_, ?_, ?_, ?_⟩
  · intro a b hc
    have := compareTeams_asymm s a b hc.1
    rw [hc.2] at this
    exact Bool.noConfusion this
  · intro a b hne
    rcases compareTeams_total s a b hne with h1 | h1
    · exact Or.inl ⟨h1, compareTeams_asymm s a b h1⟩
    · exact Or.inr ⟨h1, compareTeams_asymm s b a h1⟩
  · intro hc
    exact strictTotalOnRoster_of_counts (fun a ha => by rw [hc a ha, updateStats_solvedCount])
  · exact strictTotalOnRoster_of_counts (fun a _ => countsCurrent_refreshStats s a)
  · exact strictTotalOnRoster_of_counts (fun a _ => countsCurrent_updateRankings s a)

/-- In the end-to-end contest after its `flush` the cached solved counts are current
and `compareTeams` is a strict total order on the roster. -/
theorem compareTeams_strict_total_order_witness :
    (∀ a ∈ (updateRankings contestBeforeFlush).teamNames,
      ((updateRankings contestBeforeFlush).team a).solvedCount =
        (((updateRankings contestBeforeFlush).team a).updateStats
          (updateRankings contestBeforeFlush).problemCount).solvedCount) ∧
    StrictTotalOnRoster (updateRankings contestBeforeFlush) :=
  ⟨by decide,
    (compareTeams_strict_total_order (updateRankings contestBeforeFlush)).2.2.2.1 (by decide)⟩

/-! ## C4 and C5: `submit` -/

theorem record_not_frozen (ps : ProblemStatus) (sub : Submission) :
    ps.record false sub =
      ({ ps with submissions := ps.submissions ++ [sub] } : ProblemStatus).apply
        sub.status sub.time := by
  simp [ProblemStatus.record]

theorem record_frozen_unsolved (ps : ProblemStatus) (sub : Submission)
    (h : ps.solved = false) :
    ps.record true sub =
      { ps with submissions := ps.submissions ++ [sub]
                frozenSubmissions := ps.frozenSubmissions + 1 } := by
  simp [ProblemStatus.record, h]

theorem record_solved (ps : ProblemStatus) (frozen : Bool) (sub : Submission)
    (h : ps.solved = true) :
    ps.record frozen sub = { ps with submissions := ps.submissions ++ [sub] } := by
  cases frozen <;> simp [ProblemStatus.record, ProblemStatus.apply, h]

/-- A valid submission in a reachable state names a stored team and a stored
problem status. -/
theorem stored_of_valid {s : ICPCSystem} (hr : Reachable s) {problem : Char}
    {teamName status : String} {time : Int}
    (hv : (Op.submit problem teamName status time).valid s) :
    ∃ t ps, s.teams teamName = some t ∧ t.problems problem = some ps := by
  have h := wellFormed_of_reachable hr
  obtain ⟨-, hteam, hletter⟩ := hv
  cases hn : s.teams teamName with
  | none => simp [hn] at hteam
  | some t =>
    have hkey := (h.keys teamName t hn problem).mpr hletter
    cases hp : t.problems problem with
    | none => simp [hp] at hkey
    | some ps => exact ⟨t, ps, rfl, hp⟩

/-- The frame of `submit`: the stored team gets the recorded status under the
problem letter and nothing else changes but the submission counter. -/
theorem submit_frame {s : ICPCSystem} {teamName : String} {t : Team}
    (hn : s.teams teamName = some t) (problem : Char) (status : String) (time : Int) :
    (submit s problem teamName status time).teams teamName =
      some (t.setProblem problem ((t.problem problem).record s.frozen
        ⟨problem, status, time, s.nextSubmissionId⟩)) ∧
    (∀ m, m ≠ teamName → (submit s problem teamName status time).teams m = s.teams m) ∧
    (submit s problem teamName status time).nextSubmissionId = s.nextSubmissionId + 1 ∧
    (submit s problem teamName status time).teamNames = s.teamNames ∧
    (submit s problem teamName status time).started = s.started ∧
    (submit s problem teamName status time).frozen = s.frozen ∧
    (submit s problem teamName status time).problemCount = s.problemCount ∧
    (submit s problem teamName status time).durationTime = s.durationTime := by
  refine ⟨?_, ?_, rfl, rfl, rfl, rfl, rfl, rfl⟩
  · rw [submit_teams_of_some hn]
    simp
  · intro m hm
    rw [submit_teams_of_some hn]
    exact Map.set_other _ _ hm

/-- C4: a valid submission in a reachable state appends exactly one `Submission`
with the next sequence number to the list of that team and problem and changes no
other team, problem or flag. While not frozen, on an unsolved problem `Accepted`
sets `solved` and `solveTime = time` and keeps `wrongAttempts`; any other status
adds one to `wrongAttempts` and keeps `solved` and `solveTime`. On a solved problem,
frozen or not, `solved`, `solveTime`, `wrongAttempts` and `frozenSubmissions` are
unchanged and the submission is still stored. -/
theorem submit_appends_and_applies (s : ICPCSystem) (hr : Reachable s) (problem : Char)
    (teamName status : String) (time : Int)
    (hv : (Op.submit problem teamName status time).valid s) :
    ∃ t ps t' ps', s.teams teamName = some t ∧ t.problems problem = some ps ∧
      (submit s problem teamName status time).teams teamName = some t' ∧
      t'.problems problem = some ps' ∧
      ps'.submissions = ps.submissions ++ [⟨problem, status, time, s.nextSubmissionId⟩] ∧
      (submit s problem teamName status time).nextSubmissionId = s.nextSubmissionId + 1 ∧
      (∀ m, m ≠ teamName → (submit s problem teamName status time).teams m = s.teams m) ∧
      (∀ q, q ≠ problem → t'.problems q = t.problems q) ∧
      t'.name = t.name ∧ t'.solvedCount = t.solvedCount ∧ t'.penaltyTime = t.penaltyTime ∧
      t'.ranking = t.ranking ∧
      (submit s problem teamName status time).teamNames = s.teamNames ∧
      (submit s problem teamName status time).started = s.started ∧
      (submit s problem teamName status time).frozen = s.frozen ∧
      (submit s problem teamName status time).problemCount = s.problemCount ∧
      ps'.frozenWrongAttempts = ps.frozenWrongAttempts ∧
      (s.frozen = false → ps.solved = false → status = "Accepted" →
        ps'.solved = true ∧ ps'.solveTime = time ∧ ps'.wrongAttempts = ps.wrongAttempts ∧
        ps'.frozenSubmissions = ps.frozenSubmissions) ∧
      (s.frozen = false → ps.solved = false → status ≠ "Accepted" →
        ps'.solved = false ∧ ps'.solveTime = ps.solveTime ∧
        ps'.wrongAttempts = ps.wrongAttempts + 1 ∧
        ps'.frozenSubmissions = ps.frozenSubmissions) ∧
      (ps.solved = true →
        ps'.solved = true ∧ ps'.solveTime = ps.solveTime ∧
        ps'.wrongAttempts = ps.wrongAttempts ∧
        ps'.frozenSubmissions = ps.frozenSubmissions) := by
  obtain ⟨t, ps, hn, hp⟩ := stored_of_valid hr hv
  obtain ⟨h1, h2, h3, h4, h5, h6, h7, -⟩ := submit_frame hn problem status time
  rw [problem_of_some hp] at h1
  refine ⟨t, ps, _, ps.record s.frozen ⟨problem, status, time, s.nextSubmissionId⟩, hn, hp, h1,
    by simp [Team.setProblem], record_submissions _ _ _, h3, h2, ?_, rfl, rfl, rfl, rfl,
    h4, h5, h6, h7, ?_, ?_, ?_, ?_⟩
  · intro q hq
    exact Map.set_other _ _ hq
  · cases s.frozen <;> cases hs : ps.solved <;>
      simp [ProblemStatus.record, ProblemStatus.apply, hs]
    all_goals (split <;> rfl)
  · intro hf hs hst
    rw [hf, record_not_frozen]
    simp [ProblemStatus.apply, hs, hst]
  · intro hf hs hst
    rw [hf, record_not_frozen]
    simp [ProblemStatus.apply, hs, hst]
  · intro hs
    rw [record_solved _ _ _ hs]
    exact ⟨hs, rfl, rfl, rfl⟩

/-- In the end-to-end contest a second `Accepted` of team `B` on problem `A` is
stored with the next sequence number. -/
theorem submit_appends_and_applies_witness :
    Reachable contestBeforeFlush ∧
    (Op.submit 'A' "B" "Accepted" 9).valid contestBeforeFlush ∧
    ∃ t ps t' ps', contestBeforeFlush.teams "B" = some t ∧ t.problems 'A' = some ps ∧
      (submit contestBeforeFlush 'A' "B" "Accepted" 9).teams "B" = some t' ∧
      t'.problems 'A' = some ps' ∧
      ps'.submissions = ps.submissions ++ [⟨'A', "Accepted", 9, 3⟩] := by
  refine ⟨reachable_contestBeforeFlush, ⟨by decide, by decide, by decide⟩, ?_⟩
  obtain ⟨t, ps, t', ps', h1, h2, h3, h4, h5, -⟩ :=
    submit_appends_and_applies contestBeforeFlush reachable_contestBeforeFlush 'A' "B"
      "Accepted" 9 ⟨by decide, by decide, by decide⟩
  exact ⟨t, ps, t', ps', h1, h2, h3, h4, h5⟩

theorem assignRankings_ranking_congr (i : Nat) (names : List String)
    (tm tm' : String → Option Team)
    (h : ∀ n, ((tm n).getD Team.empty).ranking = ((tm' n).getD Team.empty).ranking) (n : String) :
    ((assignRankings i names tm n).getD Team.empty).ranking =
      ((assignRankings i names tm' n).getD Team.empty).ranking := by
  induction names generalizing i tm tm' with
  | nil => exact h n
  | cons m ns ih =>
    simp only [assignRankings]
    apply ih
    intro k
    by_cases hk : k = m
    · subst hk; simp
    · rw [Map.set_other _ _ hk, Map.set_other _ _ hk]
      exact h k

/-- The recompute depends only on the roster, the problem count, the rankings and
the `solved`, `solveTime` and `wrongAttempts` of the problem statuses. -/
theorem updateRankings_congr (s s' : ICPCSystem) (hnames : s'.teamNames = s.teamNames)
    (hpc : s'.problemCount = s.problemCount)
    (hview : ∀ n p, ((s'.team n).problem p).solved = ((s.team n).problem p).solved ∧
      ((s'.team n).problem p).solveTime = ((s.team n).problem p).solveTime ∧
      ((s'.team n).problem p).wrongAttempts = ((s.team n).problem p).wrongAttempts)
    (hrank : ∀ n, (s'.team n).ranking = (s.team n).ranking) :
    (updateRankings s').teamNames = (updateRankings s).teamNames ∧
    ∀ n, ((updateRankings s').team n).solvedCount = ((updateRankings s).team n).solvedCount ∧
      ((updateRankings s').team n).penaltyTime = ((updateRankings s).team n).penaltyTime ∧
      ((updateRankings s').team n).ranking = ((updateRankings s).team n).ranking := by
  have hsc : ∀ n, countSolved (s'.team n) s'.problemCount =
      countSolved (s.team n) s.problemCount := by
    intro n
    rw [hpc]
    exact countSolved_congr _ _ _ (fun p _ => (hview n p).1)
  have hpen : ∀ n, storedPenalty (s'.team n) s'.problemCount =
      storedPenalty (s.team n) s.problemCount := by
    intro n
    rw [hpc]
    exact storedPenalty_congr _ _ _ (fun p _ => (hview n p).1)
      (fun p _ _ => ⟨(hview n p).2.1, (hview n p).2.2⟩)
  have hcmp : compareTeams (refreshStats s') = compareTeams (refreshStats s) := by
    refine compareTeams_congr (refreshStats s') (refreshStats s) hpc ?_
    intro a
    have h1 := refreshStats_team s' a
    have h2 := refreshStats_team s a
    refine ⟨by rw [h1.1, h2.1, hsc], by rw [h1.2.1, h2.2.1, hpen], fun p _ => ?_⟩
    rw [h1.2.2.2.2 p, h2.2.2.2.2 p]
    exact ⟨(hview a p).1, fun _ => (hview a p).2.1⟩
  have hroster : (updateRankings s').teamNames = (updateRankings s).teamNames := by
    rw [updateRankings_teamNames, updateRankings_teamNames, hcmp, hnames]
  refine ⟨hroster, fun n => ⟨?_, ?_, ?_⟩⟩
  · rw [(updateRankings_team_fields s' n).1, (updateRankings_team_fields s n).1, hsc]
  · rw [(updateRankings_team_fields s' n).2.1, (updateRankings_team_fields s n).2.1, hpen]
  · unfold ICPCSystem.team
    rw [updateRankings_teams, updateRankings_teams, hroster]
    apply assignRankings_ranking_congr
    intro k
    have h1 := (refreshStats_team s' k).2.2.1
    have h2 := (refreshStats_team s k).2.2.1
    unfold ICPCSystem.team at h1 h2
    rw [h1, h2]
    exact hrank k

theorem submit_team {s : ICPCSystem} {teamName : String} {t : Team}
    (hn : s.teams teamName = some t) (problem : Char) (status : String) (time : Int)
    (m : String) :
    (submit s problem teamName status time).team m =
      if m = teamName then
        t.setProblem problem ((t.problem problem).record s.frozen
          ⟨problem, status, time, s.nextSubmissionId⟩)
      else s.team m := by
  obtain ⟨h1, h2, -⟩ := submit_frame hn problem status time
  by_cases hm : m = teamName
  · subst hm
    simp [ICPCSystem.team, h1]
  · simp [ICPCSystem.team, h2 m hm, hm]

/-- C5: in a frozen reachable state a valid submission on an unsolved problem,
whatever its status, only appends to that problem's submission list and adds one to
its `frozenSubmissions`; every other problem and team, and the cached `solvedCount`,
`penaltyTime` and `ranking` of the team, are unchanged, and a recompute afterwards
gives every team the same `solvedCount`, `penaltyTime` and `ranking`, and the roster
the same order, as a recompute without the submission. -/
theorem frozen_submit_is_opaque (s : ICPCSystem) (hr : Reachable s) (hf : s.frozen = true)
    (problem : Char) (teamName status : String) (time : Int)
    (hv : (Op.submit problem teamName status time).valid s)
    (hu : ((s.team teamName).problem problem).solved = false) :
    ∃ t ps t', s.teams teamName = some t ∧ t.problems problem = some ps ∧
      (submit s problem teamName status time).teams teamName = some t' ∧
      t'.problems problem =
        some { ps with
          submissions := ps.submissions ++ [⟨problem, status, time, s.nextSubmissionId⟩]
          frozenSubmissions := ps.frozenSubmissions + 1 } ∧
      (∀ q, q ≠ problem → t'.problems q = t.problems q) ∧
      t'.name = t.name ∧ t'.solvedCount = t.solvedCount ∧ t'.penaltyTime = t.penaltyTime ∧
      t'.ranking = t.ranking ∧
      (∀ m, m ≠ teamName → (submit s problem teamName status time).teams m = s.teams m) ∧
      (submit s problem teamName status time).teamNames = s.teamNames ∧
      (updateRankings (submit s problem teamName status time)).teamNames =
        (updateRankings s).teamNames ∧
      ∀ n,
        ((updateRankings (submit s problem teamName status time)).team n).solvedCount =
          ((updateRankings s).team n).solvedCount ∧
        ((updateRankings (submit s problem teamName status time)).team n).penaltyTime =
          ((updateRankings s).team n).penaltyTime ∧
        ((updateRankings (submit s problem teamName status time)).team n).ranking =
          ((updateRankings s).team n).ranking := by
  obtain ⟨t, ps, hn, hp⟩ := stored_of_valid hr hv
  rw [team_of_some hn, problem_of_some hp] at hu
  obtain ⟨h1, h2, -, h4, -⟩ := submit_frame hn problem status time
  rw [problem_of_some hp, hf, record_frozen_unsolved _ _ hu] at h1
  have hteam := submit_team hn problem status time
  rw [problem_of_some hp, hf, record_frozen_unsolved _ _ hu] at hteam
  have hcongr := updateRankings_congr s (submit s problem teamName status time) h4 rfl
    (by
      intro n p
      rw [hteam]
      split
      · rename_i hm
        subst hm
        rw [team_of_some hn, setProblem_problem]
        split
        · rename_i hq
          subst hq
          rw [problem_of_some hp]
          exact ⟨rfl, rfl, rfl⟩
        · exact ⟨rfl, rfl, rfl⟩
      · exact ⟨rfl, rfl, rfl⟩)
    (by
      intro n
      rw [hteam]
      split
      · rename_i hm
        subst hm
        rw [team_of_some hn]
        rfl
      · rfl)
  exact ⟨t, ps, _, hn, hp, h1, by simp [Team.setProblem], fun q hq => Map.set_other _ _ hq,
    rfl, rfl, rfl, rfl, h2, h4, hcongr.1, hcongr.2⟩

/-- The end-to-end contest once frozen: an `Accepted` of team `A` on the unsolved
problem `B` leaves the recomputed ranking of `A` at 2. -/
theorem frozen_submit_is_opaque_witness :
    Reachable (freeze contestBeforeFlush).1 ∧ (freeze contestBeforeFlush).1.frozen = true ∧
    (Op.submit 'B' "A" "Accepted" 30).valid (freeze contestBeforeFlush).1 ∧
    (((freeze contestBeforeFlush).1.team "A").problem 'B').solved = false ∧
    ((updateRankings (submit (freeze contestBeforeFlush).1 'B' "A" "Accepted" 30)).team
      "A").ranking = 2 := by
  refine ⟨reachable_contestBeforeFlush.freeze, by decide, ⟨by decide, by decide, by decide⟩,
    by decide, ?_⟩
  obtain ⟨t, ps, t', -, -, -, -, -, -, -, -, -, -, -, -, h⟩ :=
    frozen_submit_is_opaque (freeze contestBeforeFlush).1 reachable_contestBeforeFlush.freeze
      (by decide) 'B' "A" "Accepted" 30 ⟨by decide, by decide, by decide⟩ (by decide)
  rw [(h "A").2.2]
  decide

/-! ## C6: `scroll` terminates -/

theorem reachable_frozenContest : Reachable frozenContest :=
  reachable_contestBeforeFlush.freeze.submit 'B' "A" "Accepted" 30
    ⟨by decide, by decide, by decide⟩

/-- C6: in a reachable frozen state, with more fuel than pending frozen submissions
the loop of `scroll` reaches its `break` and `scroll` returns; the loop performs at
most as many reveals as there were pending frozen submissions at the start; in the
returned state no stored problem status has a frozen submission and the frozen flag
is clear; and every pass of the loop strictly decreases the number of pending
frozen submissions. -/
theorem scroll_terminates (s : ICPCSystem) (hr : Reachable s) (hf : s.frozen = true)
    (fuel : Nat) (hfuel : totalPending s < fuel) :
    (∃ s' out' reveals, scrollLoop fuel (updateRankings s) = some (s', out', reveals) ∧
      reveals ≤ totalPending s ∧
      ∃ r out, scroll fuel s = some (r, out) ∧ r = { s' with frozen := false } ∧
        r.frozen = false ∧ NoPending r) ∧
    ∀ s₁ s₂ out, LoopState s s₁ → scrollIteration s₁ = some (s₂, out) →
      totalPending s₂ < totalPending s₁ := by
  have hwf := wellFormed_of_reachable hr
  constructor
  · obtain ⟨s', out', k, h1, h2, -, h4, -⟩ :=
      scrollLoop_terminates fuel (updateRankings s) (wellFormed_updateRankings hwf)
        (by rw [totalPending_updateRankings]; exact hfuel)
    rw [totalPending_updateRankings] at h2
    refine ⟨s', out', k, h1, h2, { s' with frozen := false },
      [Message.scrollOk] ++ printScoreboard (updateRankings s) ++ out' ++ printScoreboard s',
      ?_, rfl, rfl, h4⟩
    simp [scroll, hf, h1]
  · intro s₁ s₂ out hl hs
    exact totalPending_scrollIteration_lt (wellFormed_of_loopState hwf hl) hs

/-- The frozen end-to-end contest has one pending submission; with fuel 2 `scroll`
returns after at most one reveal. -/
theorem scroll_terminates_witness :
    Reachable frozenContest ∧ frozenContest.frozen = true ∧ totalPending frozenContest < 2 ∧
    ∃ s' out' reveals,
      scrollLoop 2 (updateRankings frozenContest) = some (s', out', reveals) ∧
      reveals ≤ totalPending frozenContest ∧
      ∃ r out, scroll 2 frozenContest = some (r, out) ∧ r = { s' with frozen := false } ∧
        r.frozen = false ∧ NoPending r :=
  ⟨reachable_frozenContest, by decide, by decide,
    (scroll_terminates frozenContest reachable_frozenContest (by decide) 2 (by decide)).1⟩

/-! ## C7: the rank-change event -/

theorem reveal_teamNames (s : ICPCSystem) (n : String) : (reveal s n).teamNames = s.teamNames :=
  rfl

theorem reveal_ranking (s : ICPCSystem) (n m : String) :
    ((reveal s n).team m).ranking = (s.team m).ranking := by
  rw [reveal_team]
  split
  · rename_i h; subst h; rfl
  · rfl

theorem ranked_of_loopState {s₀ s : ICPCSystem} (h₀ : WellFormed s₀) (h : LoopState s₀ s) :
    Ranked s := by
  cases h with
  | entry => exact updateRankings_ranked s₀ h₀.nodup
  | pass hl hs =>
    obtain ⟨-, rfl⟩ := scrollIteration_state hs
    exact updateRankings_ranked _ (wellFormed_of_loopState h₀ hl).nodup

theorem foldl_rank_not_mem (f : String → Int) (l : List String) (m : Int → Option String)
    (k : Int) (hk : ∀ n ∈ l, f n ≠ k) :
    l.foldl (fun m name => Map.set m (f name) name) m k = m k := by
  induction l generalizing m with
  | nil => rfl
  | cons a l ih =>
    rw [List.foldl_cons, ih _ (fun n hn => hk n (List.mem_cons_of_mem _ hn))]
    exact Map.set_other _ _ (fun hc => hk a (List.mem_cons_self _ _) hc.symm)

theorem foldl_rank_mem (f : String → Int) (l : List String) (m : Int → Option String)
    (hinj : ∀ a ∈ l, ∀ b ∈ l, f a = f b → a = b) (hnd : l.Nodup) (n : String) (hn : n ∈ l) :
    l.foldl (fun m name => Map.set m (f name) name) m (f n) = some n := by
  induction l generalizing m with
  | nil => simp at hn
  | cons a l ih =>
    rw [List.foldl_cons]
    have hnd' := List.nodup_cons.mp hnd
    by_cases hna : n = a
    · subst hna
      rw [foldl_rank_not_mem]
      · simp
      · intro b hb hc
        have := hinj b (List.mem_cons_of_mem _ hb) n (List.mem_cons_self _ _) hc
        exact hnd'.1 (this ▸ hb)
    · have hnl : n ∈ l := by
        rcases List.mem_cons.mp hn with h | h
        · exact absurd h hna
        · exact h
      exact ih _ (fun x hx y hy => hinj x (List.mem_cons_of_mem _ hx) y
        (List.mem_cons_of_mem _ hy)) hnd'.2 hnl

/-- In a ranked state with a duplicate-free roster, the rank-to-team map sends the
ranking of every roster team back to the team. -/
theorem rankToTeam_of_ranked {s : ICPCSystem} (hnd : s.teamNames.Nodup) (hrk : Ranked s)
    (n : String) (hn : n ∈ s.teamNames) :
    rankToTeam s (s.team n).ranking = some n := by
  unfold rankToTeam
  refine foldl_rank_mem (fun n => (s.team n).ranking) s.teamNames _ ?_ hnd n hn
  intro a ha b hb hab
  obtain ⟨i, hi, rfl⟩ := List.mem_iff_getElem.mp ha
  obtain ⟨j, hj, rfl⟩ := List.mem_iff_getElem.mp hb
  have h1 := hrk i hi
  have h2 := hrk j hj
  simp only [List.get_eq_getElem] at h1 h2
  simp only [h1, h2] at hab
  have : i = j := by omega
  subst this
  rfl

theorem rankToTeam_congr (s s' : ICPCSystem) (hnames : s'.teamNames = s.teamNames)
    (hrank : ∀ n, (s'.team n).ranking = (s.team n).ranking) :
    rankToTeam s' = rankToTeam s := by
  unfold rankToTeam
  rw [hnames]
  simp only [hrank]

/-- C7: in every pass of the loop of `scroll` called in a reachable state, the
revealed team is the selected roster team and a rank-change line is printed exactly
when its ranking after the recompute is smaller than before the reveal; the line
names the revealed team, the team that the rank-to-team map built before the
recompute holds at the new ranking, and the recomputed solved count and penalty
time of the revealed team; the replaced team is a roster team other than the
revealed one, and it held the new ranking before the reveal. -/
theorem scroll_rank_change_event (s₀ : ICPCSystem) (hr : Reachable s₀) (s s' : ICPCSystem)
    (out : List Message) (hl : LoopState s₀ s) (hs : scrollIteration s = some (s', out)) :
    s' = updateRankings (reveal s (findLowest s).2.1) ∧
    (findLowest s).2.1 ∈ s.teamNames ∧
    (out ≠ [] ↔ (s'.team (findLowest s).2.1).ranking < (s.team (findLowest s).2.1).ranking) ∧
    ((s'.team (findLowest s).2.1).ranking < (s.team (findLowest s).2.1).ranking →
      ∃ replaced,
        out = [Message.rankChange (findLowest s).2.1 replaced
          (s'.team (findLowest s).2.1).solvedCount (s'.team (findLowest s).2.1).penaltyTime] ∧
        rankToTeam (reveal s (findLowest s).2.1) (s'.team (findLowest s).2.1).ranking =
          some replaced ∧
        replaced ∈ s.teamNames ∧ replaced ≠ (findLowest s).2.1 ∧
        (s.team replaced).ranking = (s'.team (findLowest s).2.1).ranking) := by
  have hwf₀ := wellFormed_of_reachable hr
  have hwf := wellFormed_of_loopState hwf₀ hl
  have hrk := ranked_of_loopState hwf₀ hl
  have hrk' : Ranked s' := ranked_of_loopState hwf₀ (LoopState.pass hl hs)
  obtain ⟨hsel, hs'⟩ := scrollIteration_state hs
  obtain ⟨hmem, -, -, -⟩ := findLowest_spec s (rank_gt_of_wellFormed hwf) hsel
  -- the new ranking lies in `1..N`, so some roster team held it before the reveal
  have hmem' : (findLowest s).2.1 ∈ s'.teamNames := by
    rw [hs', (updateRankings_perm _).mem_iff]
    exact hmem
  obtain ⟨i, hi, hget⟩ := List.mem_iff_getElem.mp hmem'
  have hnew : (s'.team (findLowest s).2.1).ranking = (i : Int) + 1 := by
    have := hrk' i hi
    simp only [List.get_eq_getElem] at this
    rw [← hget]
    exact this
  have hlen : s'.teamNames.length = s.teamNames.length := by
    rw [hs']
    exact (updateRankings_perm _).length_eq
  have hi' : i < s.teamNames.length := by omega
  have hold : (s.team s.teamNames[i]).ranking = (i : Int) + 1 := by
    have := hrk i hi'
    simpa using this
  have hr2t : rankToTeam (reveal s (findLowest s).2.1)
      (s'.team (findLowest s).2.1).ranking = some s.teamNames[i] := by
    rw [rankToTeam_congr s (reveal s (findLowest s).2.1) rfl (reveal_ranking s _), hnew, ← hold]
    exact rankToTeam_of_ranked hwf.nodup hrk _ (List.getElem_mem hi')
  unfold scrollIteration at hs
  simp only [hsel, Bool.not_true, Bool.false_eq_true, if_false] at hs
  rw [← hs'] at hs
  refine ⟨hs', hmem, ?_, ?_⟩
  · by_cases hlt : (s'.team (findLowest s).2.1).ranking < (s.team (findLowest s).2.1).ranking
    · rw [if_pos hlt] at hs
      have := congrArg Prod.snd (Option.some.inj hs)
      simp only at this
      rw [← this]
      simp [hlt]
    · rw [if_neg hlt] at hs
      have := congrArg Prod.snd (Option.some.inj hs)
      simp only at this
      rw [← this]
      simp [hlt]
  · intro hlt
    rw [if_pos hlt] at hs
    have := congrArg Prod.snd (Option.some.inj hs)
    simp only at this
    refine ⟨s.teamNames[i], ?_, hr2t, List.getElem_mem hi', ?_, ?_⟩
    · rw [← this, hr2t]
      rfl
    · intro hc
      rw [hnew] at hlt
      rw [← hc, hold] at hlt
      omega
    · rw [hold, hnew]

/-- The only pass of the loop on the frozen end-to-end contest: team `A` is
revealed, moves from ranking 2 to ranking 1 and replaces team `B`. -/
theorem scroll_rank_change_event_witness :
    Reachable frozenContest ∧ LoopState frozenContest (updateRankings frozenContest) ∧
    scrollIteration (updateRankings frozenContest) =
      some (updateRankings (reveal (updateRankings frozenContest) "A"),
        [Message.rankChange "A" "B" 2 65]) ∧
    (findLowest (updateRankings frozenContest)).2.1 = "A" ∧
    ((updateRankings (reveal (updateRankings frozenContest) "A")).team "A").ranking <
      ((updateRankings frozenContest).team "A").ranking :=
  have hs : scrollIteration (updateRankings frozenContest) =
      some (updateRankings (reveal (updateRankings frozenContest) "A"),
        [Message.rankChange "A" "B" 2 65]) := by
    unfold scrollIteration
    simp only [show (findLowest (updateRankings frozenContest)) = (true, "A", 2) by decide]
    have h1 : ((updateRankings (reveal (updateRankings frozenContest) "A")).team "A").ranking
        = 1 := by decide
    have h2 : ((updateRankings frozenContest).team "A").ranking = 2 := by decide
    have h3 : ((updateRankings (reveal (updateRankings frozenContest) "A")).team
        "A").solvedCount = 2 := by decide
    have h4 : ((updateRankings (reveal (updateRankings frozenContest) "A")).team
        "A").penaltyTime = 65 := by decide
    have h5 : (rankToTeam (reveal (updateRankings frozenContest) "A") 1).getD "" = "B" := by
      decide
    simp [h1, h2, h3, h4, h5]
  have key := scroll_rank_change_event frozenContest reachable_frozenContest
    (updateRankings frozenContest) _ _ LoopState.entry hs
  ⟨reachable_frozenContest, LoopState.entry, hs, by decide,
    (key.2.2.1).mp (by simp)⟩

/-! ## C8: `querySubmission` -/

theorem Latest.refl (sn : String) (acc : Option Submission) :
    Latest sn (fun _ => False) acc acc := by
  refine ⟨by simp, ?_⟩
  intro v hv
  refine ⟨Or.inl hv, ?_, fun x hx => False.elim hx⟩
  intro a ha
  rw [hv] at ha
  cases ha
  exact le_refl _

theorem Latest.congr {sn : String} {C C' : Submission → Prop} {acc r : Option Submission}
    (h : Latest sn C acc r) (hc : ∀ x, C' x ↔ C x) : Latest sn C' acc r := by
  obtain ⟨h1, h2⟩ := h
  refine ⟨?_, ?_⟩
  · rw [h1]
    exact ⟨fun ⟨a, b⟩ => ⟨a, fun x hx => b x ((hc x).mp hx)⟩,
      fun ⟨a, b⟩ => ⟨a, fun x hx => b x ((hc x).mpr hx)⟩⟩
  · intro v hv
    obtain ⟨a, b, c⟩ := h2 v hv
    refine ⟨?_, b, fun x hx => c x ((hc x).mp hx)⟩
    rcases a with a | a
    · exact Or.inl a
    · exact Or.inr ⟨(hc v).mpr a.1, a.2⟩

theorem Latest.trans {sn : String} {C₁ C₂ : Submission → Prop} {acc r₁ r₂ : Option Submission}
    (h₁ : Latest sn C₁ acc r₁) (h₂ : Latest sn C₂ r₁ r₂) :
    Latest sn (fun x => C₁ x ∨ C₂ x) acc r₂ := by
  obtain ⟨a1, a2⟩ := h₁
  obtain ⟨b1, b2⟩ := h₂
  refine ⟨?_, ?_⟩
  · rw [b1, a1]
    constructor
    · rintro ⟨⟨h, h'⟩, h''⟩
      exact ⟨h, fun x hx => hx.elim (h' x) (h'' x)⟩
    · rintro ⟨h, h'⟩
      exact ⟨⟨h, fun x hx => h' x (Or.inl hx)⟩, fun x hx => h' x (Or.inr hx)⟩
  · intro v hv
    obtain ⟨c1, c2, c3⟩ := b2 v hv
    cases hr : r₁ with
    | none =>
      have hacc := (a1.mp hr).1
      have hno := (a1.mp hr).2
      refine ⟨?_, ?_, ?_⟩
      · rcases c1 with c1 | c1
        · rw [hr] at c1; exact Option.noConfusion c1
        · exact Or.inr ⟨Or.inr c1.1, c1.2⟩
      · intro a ha
        rw [hacc] at ha
        exact Option.noConfusion ha
      · intro x hx hm
        rcases hx with hx | hx
        · exact absurd hm (hno x hx)
        · exact c3 x hx hm
    | some w =>
      obtain ⟨d1, d2, d3⟩ := a2 w hr
      have hwv := c2 w hr
      refine ⟨?_, ?_, ?_⟩
      · rcases c1 with c1 | c1
        · rw [hr] at c1
          cases c1
          rcases d1 with d1 | d1
          · exact Or.inl d1
          · exact Or.inr ⟨Or.inl d1.1, d1.2⟩
        · exact Or.inr ⟨Or.inr c1.1, c1.2⟩
      · intro a ha
        exact le_trans (d2 a ha) hwv
      · intro x hx hm
        rcases hx with hx | hx
        · exact le_trans (d3 x hx hm) hwv
        · exact c3 x hx hm

theorem Latest.pickLater (sn : String) (acc : Option Submission) (sub : Submission) :
    Latest sn (fun x => x = sub) acc (pickLater sn acc sub) := by
  unfold ICPC.pickLater
  by_cases hm : sn = "ALL" ∨ sub.status = sn
  · rw [if_pos hm]
    cases acc with
    | none =>
      refine ⟨⟨fun h => Option.noConfusion h,
        fun h => absurd (show statusMatches sn sub from hm) (h.2 sub rfl)⟩, ?_⟩
      intro v hv
      simp only [Option.some.injEq] at hv
      subst hv
      exact ⟨Or.inr ⟨rfl, hm⟩, fun a ha => Option.noConfusion ha,
        fun x hx _ => by rw [hx]⟩
    | some l =>
      simp only
      by_cases hgt : sub.submissionId > l.submissionId
      · rw [if_pos hgt]
        refine ⟨by simp, ?_⟩
        intro v hv
        simp only [Option.some.injEq] at hv
        subst hv
        refine ⟨Or.inr ⟨rfl, hm⟩, ?_, fun x hx _ => by rw [hx]⟩
        intro a ha
        cases ha
        omega
      · rw [if_neg hgt]
        refine ⟨by simp, ?_⟩
        intro v hv
        simp only [Option.some.injEq] at hv
        subst hv
        refine ⟨Or.inl rfl, fun a ha => by cases ha; exact le_refl _, ?_⟩
        intro x hx _
        rw [hx]
        omega
  · rw [if_neg hm]
    refine ⟨?_, ?_⟩
    · constructor
      · intro h
        exact ⟨h, fun x hx hc => hm (by rw [← hx]; exact hc)⟩
      · intro h
        exact h.1
    · intro v hv
      refine ⟨Or.inl hv, ?_, ?_⟩
      · intro a ha
        rw [hv] at ha
        cases ha
        exact le_refl _
      · intro x hx hc
        exact absurd (by rw [← hx]; exact hc) hm

theorem Latest.foldl (sn : String) (l : List Submission) (acc : Option Submission) :
    Latest sn (fun x => x ∈ l) acc (l.foldl (ICPC.pickLater sn) acc) := by
  induction l generalizing acc with
  | nil => exact (Latest.refl sn acc).congr (by simp)
  | cons a l ih =>
    rw [List.foldl_cons]
    exact ((Latest.pickLater sn acc a).trans (ih _)).congr (by simp)

/-- The scan of `querySubmission` over a list of letters. -/
theorem Latest.scan (sn pn : String) (t : Team) (l : List Char) (acc : Option Submission) :
    Latest sn
      (fun x => ∃ p ∈ l, (pn = "ALL" ∨ p = firstChar pn) ∧
        ∃ ps, t.problems p = some ps ∧ x ∈ ps.submissions)
      acc
      (l.foldl
        (fun lastSub p =>
          if pn ≠ "ALL" ∧ p ≠ firstChar pn then lastSub
          else
            match t.problems p with
            | none => lastSub
            | some ps => ps.submissions.foldl (ICPC.pickLater sn) lastSub)
        acc) := by
  induction l generalizing acc with
  | nil => exact (Latest.refl sn acc).congr (by simp)
  | cons q l ih =>
    rw [List.foldl_cons]
    have hstep : Latest sn
        (fun x => (pn = "ALL" ∨ q = firstChar pn) ∧
          ∃ ps, t.problems q = some ps ∧ x ∈ ps.submissions)
        acc
        (if pn ≠ "ALL" ∧ q ≠ firstChar pn then acc
          else
            match t.problems q with
            | none => acc
            | some ps => ps.submissions.foldl (ICPC.pickLater sn) acc) := by
      by_cases hskip : pn ≠ "ALL" ∧ q ≠ firstChar pn
      · rw [if_pos hskip]
        refine (Latest.refl sn acc).congr ?_
        intro x
        simp only [iff_false, not_and]
        intro hc
        rcases hc with hc | hc
        · exact absurd hc hskip.1
        · exact absurd hc hskip.2
      · rw [if_neg hskip]
        have hpass : pn = "ALL" ∨ q = firstChar pn := by
          by_contra hc
          push_neg at hc
          exact hskip hc
        cases hq : t.problems q with
        | none =>
          refine (Latest.refl sn acc).congr ?_
          intro x
          simp
        | some ps =>
          refine (Latest.foldl sn ps.submissions acc).congr ?_
          intro x
          simp [hpass]
    refine (hstep.trans (ih _)).congr ?_
    intro x
    simp only [List.mem_cons, exists_eq_or_imp]

/-- C8: in a reachable state `querySubmission` changes nothing; it reports the
missing team exactly when the name is not registered; for a registered team it
prints `Cannot find any submission.` exactly when no stored submission of the team
passes both filters, and otherwise prints the stored submission passing both filters
whose sequence number is the largest, every other stored submission passing the
filters having a strictly smaller one. -/
theorem querySubmission_returns_latest (s : ICPCSystem) (hr : Reachable s)
    (teamName problemName statusName : String) :
    (querySubmission s teamName problemName statusName).1 = s ∧
    (s.teams teamName = none ↔
      (querySubmission s teamName problemName statusName).2 = [Message.querySubmissionFailed]) ∧
    ∀ t, s.teams teamName = some t →
      ((querySubmission s teamName problemName statusName).2 =
          [Message.querySubmissionOk, Message.cannotFind] ↔
        ∀ sub, Stored t sub → ¬ Matches problemName statusName sub) ∧
      ((∃ sub, Stored t sub ∧ Matches problemName statusName sub) →
        ∃ last, Stored t last ∧ Matches problemName statusName last ∧
          (∀ x, Stored t x → Matches problemName statusName x → x ≠ last →
            x.submissionId < last.submissionId) ∧
          (querySubmission s teamName problemName statusName).2 =
            [Message.querySubmissionOk,
              Message.lastSubmission teamName last.problem last.status last.time]) := by
  have hwf := wellFormed_of_reachable hr
  refine ⟨?_, ?_, ?_⟩
  · unfold querySubmission
    split <;> rfl
  · unfold querySubmission
    cases ht : s.teams teamName with
    | none => simp
    | some t => simp
  · intro t ht
    have hscan := Latest.scan statusName problemName t (letters s.problemCount) none
    -- the scanned submissions are the stored ones passing the problem filter
    have hcand : ∀ x, (Stored t x ∧ (problemName = "ALL" ∨ x.problem = firstChar problemName)) ↔
        ∃ p ∈ letters s.problemCount, (problemName = "ALL" ∨ p = firstChar problemName) ∧
          ∃ ps, t.problems p = some ps ∧ x ∈ ps.submissions := by
      intro x
      constructor
      · rintro ⟨⟨p, ps, hp, hx⟩, hf⟩
        have hxp := (hwf.ledger teamName t p ps ht hp x hx).1
        exact ⟨p, (hwf.keys teamName t ht p).mp (by simp [hp]), by rw [← hxp]; exact hf,
          ps, hp, hx⟩
      · rintro ⟨p, -, hf, ps, hp, hx⟩
        have hxp := (hwf.ledger teamName t p ps ht hp x hx).1
        exact ⟨⟨p, ps, hp, hx⟩, by rw [hxp]; exact hf⟩
    have hlatest := hscan.congr hcand
    have hfind : findLastSubmission s t problemName statusName =
        (letters s.problemCount).foldl
          (fun lastSub p =>
            if problemName ≠ "ALL" ∧ p ≠ firstChar problemName then lastSub
            else
              match t.problems p with
              | none => lastSub
              | some ps => ps.submissions.foldl (pickLater statusName) lastSub)
          none := rfl
    rw [← hfind] at hlatest
    obtain ⟨hnone, hsome⟩ := hlatest
    have hout_none : findLastSubmission s t problemName statusName = none →
        (querySubmission s teamName problemName statusName).2 =
          [Message.querySubmissionOk, Message.cannotFind] := by
      intro h
      simp [querySubmission, ht, h]
    have hout_some : ∀ v, findLastSubmission s t problemName statusName = some v →
        (querySubmission s teamName problemName statusName).2 =
          [Message.querySubmissionOk,
            Message.lastSubmission teamName v.problem v.status v.time] := by
      intro v h
      simp [querySubmission, ht, h]
    constructor
    · cases hres : findLastSubmission s t problemName statusName with
      | none =>
        simp only [hout_none hres, true_iff]
        intro sub hst hm
        exact (hnone.mp hres).2 sub ⟨hst, hm.1⟩ hm.2
      | some v =>
        rw [hout_some v hres]
        simp only [List.cons.injEq, reduceCtorEq, and_false, false_and, false_iff, and_true]
        intro hall
        obtain ⟨h1, -, -⟩ := hsome v hres
        rcases h1 with h1 | h1
        · exact Option.noConfusion h1
        · exact hall v h1.1.1 ⟨h1.1.2, h1.2⟩
    · rintro ⟨sub, hst, hm⟩
      cases hres : findLastSubmission s t problemName statusName with
      | none => exact absurd hm.2 ((hnone.mp hres).2 sub ⟨hst, hm.1⟩)
      | some v =>
        obtain ⟨h1, -, h3⟩ := hsome v hres
        rcases h1 with h1 | h1
        · exact Option.noConfusion h1
        · refine ⟨v, h1.1.1, ⟨h1.1.2, h1.2⟩, ?_, hout_some v hres⟩
          intro x hx hxm hne
          have hle := h3 x ⟨hx, hxm.1⟩ hxm.2
          rcases lt_or_eq_of_le hle with hlt | heq
          · exact hlt
          · obtain ⟨p, ps, hp, hxin⟩ := hx
            obtain ⟨q, qs, hq, hvin⟩ := h1.1.1
            exact absurd (hwf.distinct teamName t p ps q qs ht hp hq x hxin v hvin heq) hne

/-- In the end-to-end contest the last `Accepted` of team `A` on any problem is the
one on problem `A` at time 15. -/
theorem querySubmission_returns_latest_witness :
    Reachable contestBeforeFlush ∧
    (querySubmission contestBeforeFlush "A" "ALL" "Accepted").1 = contestBeforeFlush ∧
    (querySubmission contestBeforeFlush "A" "ALL" "Accepted").2 =
      [Message.querySubmissionOk, Message.lastSubmission "A" 'A' "Accepted" 15] :=
  ⟨reachable_contestBeforeFlush,
    (querySubmission_returns_latest contestBeforeFlush reachable_contestBeforeFlush
      "A" "ALL" "Accepted").1,
    by decide⟩

/-! ## C9: the end-to-end scenario -/

/-- C9: `addTeam A`, `addTeam B`, `startCompetition(120, 2)`, a wrong answer of `A`
on problem `A` at 10, `Accepted` of `A` on `A` at 15, `Accepted` of `B` on `A` at 5,
then `flush`: the roster is `B`, `A`; team `B` has ranking 1, one solved problem and
penalty 5; team `A` has ranking 2, one solved problem and penalty 35. -/
theorem end_to_end_flush :
    run 0 ICPCSystem.init
      [.addTeam "A", .addTeam "B", .startCompetition 120 2,
        .submit 'A' "A" "Wrong_Answer" 10, .submit 'A' "A" "Accepted" 15,
        .submit 'A' "B" "Accepted" 5, .flush] = some (flush contestBeforeFlush).1 ∧
    (flush contestBeforeFlush).1.teamNames = ["B", "A"] ∧
    ((flush contestBeforeFlush).1.teams "B").map
      (fun t => (t.ranking, t.solvedCount, t.penaltyTime)) = some (1, 1, 5) ∧
    ((flush contestBeforeFlush).1.teams "A").map
      (fun t => (t.ranking, t.solvedCount, t.penaltyTime)) = some (2, 1, 35) ∧
    compareTeams (flush contestBeforeFlush).1 "B" "A" = true := by
  refine ⟨rfl, by decide, by decide, by decide, by decide⟩

/-! ## C10: a rejected operation changes nothing -/

theorem printScoreboard_no_error (s : ICPCSystem) :
    ∀ m ∈ printScoreboard s, m.isError = false := by
  intro m hm
  unfold printScoreboard at hm
  rw [List.mem_map] at hm
  obtain ⟨n, -, rfl⟩ := hm
  rfl

theorem scrollIteration_no_error {s s' : ICPCSystem} {out : List Message}
    (h : scrollIteration s = some (s', out)) : ∀ m ∈ out, m.isError = false := by
  unfold scrollIteration at h
  simp only at h
  split at h
  · exact Option.noConfusion h
  · split at h
    · have := congrArg Prod.snd (Option.some.inj h)
      simp only at this
      rw [← this]
      intro m hm
      rw [List.mem_singleton] at hm
      rw [hm]
      rfl
    · have := congrArg Prod.snd (Option.some.inj h)
      simp only at this
      rw [← this]
      intro m hm
      simp at hm

theorem scrollLoop_no_error (fuel : Nat) (s : ICPCSystem)
    (r : ICPCSystem × List Message × Nat) (h : scrollLoop fuel s = some r) :
    ∀ m ∈ r.2.1, m.isError = false := by
  induction fuel generalizing s r with
  | zero => simp [scrollLoop] at h
  | succ fuel ih =>
    simp only [scrollLoop] at h
    cases hi : scrollIteration s with
    | none =>
      simp only [hi, Option.some.injEq] at h
      subst h
      intro m hm
      simp at hm
    | some r1 =>
      obtain ⟨s1, out1⟩ := r1
      simp only [hi, Option.map_eq_some'] at h
      obtain ⟨r2, hr2, rfl⟩ := h
      intro m hm
      simp only [List.mem_append] at hm
      rcases hm with hm | hm
      · exact scrollIteration_no_error hi m hm
      · exact ih s1 r2 hr2 m hm

/-- C10: every rejection leaves the whole state as it was: `addTeam` after the start
or with a registered name, `startCompetition` after the start, `freeze` while
frozen, `scroll` while not frozen, and the two queries for an unregistered team
return the unchanged state with their error line; and whenever a command prints an
error line the state after it is the state before it. -/
theorem rejected_operation_changes_nothing (s : ICPCSystem) :
    (∀ name, s.started = true → addTeam s name = (s, [Message.addFailedStarted])) ∧
    (∀ name, s.started = false → (s.teams name).isSome = true →
      addTeam s name = (s, [Message.addFailedDuplicate])) ∧
    (∀ duration problems, s.started = true →
      startCompetition s duration problems = (s, [Message.startFailed])) ∧
    (s.frozen = true → freeze s = (s, [Message.freezeFailed])) ∧
    (∀ fuel, s.frozen = false → scroll fuel s = some (s, [Message.scrollFailed])) ∧
    (∀ name, s.teams name = none → queryRanking s name = (s, [Message.queryRankingFailed])) ∧
    (∀ name problemName statusName, s.teams name = none →
      querySubmission s name problemName statusName = (s, [Message.querySubmissionFailed])) ∧
    (∀ fuel op s' out, step fuel s op = some (s', out) →
      (∃ m ∈ out, m.isError = true) → s' = s) := by
  refine ⟨?_, ?_, ?_, ?_, ?_, ?_, ?_, ?_⟩
  · intro name h
    simp [addTeam, h]
  · intro name h1 h2
    simp [addTeam, h1, h2]
  · intro duration problems h
    simp [startCompetition, h]
  · intro h
    simp [freeze, h]
  · intro fuel h
    simp [scroll, h]
  · intro name h
    simp [queryRanking, h]
  · intro name problemName statusName h
    simp [querySubmission, h]
  · intro fuel op s' out hs ⟨m, hm, herr⟩
    cases op with
    | addTeam name =>
      have e := Option.some.inj hs
      unfold addTeam at e
      split at e
      · exact (congrArg Prod.fst e).symm
      · split at e
        · exact (congrArg Prod.fst e).symm
        · have := congrArg Prod.snd e
          simp only at this
          rw [← this, List.mem_singleton] at hm
          rw [hm] at herr
          exact Bool.noConfusion herr
    | startCompetition duration problems =>
      have e := Option.some.inj hs
      unfold startCompetition at e
      split at e
      · exact (congrArg Prod.fst e).symm
      · have := congrArg Prod.snd e
        simp only at this
        rw [← this, List.mem_singleton] at hm
        rw [hm] at herr
        exact Bool.noConfusion herr
    | submit problem teamName status time =>
      have := congrArg Prod.snd (Option.some.inj hs)
      simp only at this
      rw [← this] at hm
      simp at hm
    | flush =>
      have := congrArg Prod.snd (Option.some.inj hs)
      simp only [flush] at this
      rw [← this, List.mem_singleton] at hm
      rw [hm] at herr
      exact Bool.noConfusion herr
    | freeze =>
      have e := Option.some.inj hs
      unfold freeze at e
      split at e
      · exact (congrArg Prod.fst e).symm
      · have := congrArg Prod.snd e
        simp only at this
        rw [← this, List.mem_singleton] at hm
        rw [hm] at herr
        exact Bool.noConfusion herr
    | scroll =>
      simp only [step, scroll] at hs
      split at hs
      · exact (congrArg Prod.fst (Option.some.inj hs)).symm
      · simp only [Option.map_eq_some'] at hs
        obtain ⟨r, hr, hs⟩ := hs
        have := congrArg Prod.snd hs
        simp only at this
        rw [← this] at hm
        simp only [List.mem_append, List.mem_singleton] at hm
        have hno : m.isError = false := by
          rcases hm with ((hm | hm) | hm) | hm
          · rw [hm]; rfl
          · exact printScoreboard_no_error _ m hm
          · exact scrollLoop_no_error fuel _ r hr m hm
          · exact printScoreboard_no_error _ m hm
        rw [hno] at herr
        exact Bool.noConfusion herr
    | queryRanking name =>
      have e := Option.some.inj hs
      unfold queryRanking at e
      split at e
      · exact (congrArg Prod.fst e).symm
      · exact (congrArg Prod.fst e).symm
    | querySubmission teamName problemName statusName =>
      have e := Option.some.inj hs
      unfold querySubmission at e
      split at e
      · exact (congrArg Prod.fst e).symm
      · exact (congrArg Prod.fst e).symm

/-- In the started end-to-end contest a further `addTeam` is rejected and returns the
same state. -/
theorem rejected_operation_changes_nothing_witness :
    contestBeforeFlush.started = true ∧
    addTeam contestBeforeFlush "C" = (contestBeforeFlush, [Message.addFailedStarted]) :=
  ⟨by decide, (rejected_operation_changes_nothing contestBeforeFlush).1 "C" (by decide)⟩

/-! ## C11: the freeze/scroll state machine -/

theorem scrollLoop_frozen (fuel : Nat) (s : ICPCSystem) (r : ICPCSystem × List Message × Nat)
    (h : scrollLoop fuel s = some r) : r.1.frozen = s.frozen := by
  induction fuel generalizing s r with
  | zero => simp [scrollLoop] at h
  | succ fuel ih =>
    simp only [scrollLoop] at h
    cases hi : scrollIteration s with
    | none =>
      simp only [hi, Option.some.injEq] at h
      subst h
      rfl
    | some r1 =>
      obtain ⟨s1, out1⟩ := r1
      simp only [hi, Option.map_eq_some'] at h
      obtain ⟨r2, hr2, rfl⟩ := h
      rw [ih s1 r2 hr2, scrollIteration_frozen hi]

/-- A `scroll` that returns in a frozen state prints no error line and clears the
flag. -/
theorem scroll_of_frozen {fuel : Nat} {s s' : ICPCSystem} {out : List Message}
    (hf : s.frozen = true) (h : scroll fuel s = some (s', out)) :
    s'.frozen = false ∧ succeeded out = true := by
  simp only [scroll, hf, Bool.not_true, Bool.false_eq_true, if_false, Option.map_eq_some'] at h
  obtain ⟨r, hr, h⟩ := h
  have h1 := congrArg Prod.fst h
  have h2 := congrArg Prod.snd h
  simp only at h1 h2
  refine ⟨by rw [← h1], ?_⟩
  rw [← h2]
  unfold succeeded
  rw [Bool.not_eq_true', List.any_eq_false]
  intro m hm
  simp only [List.mem_append, List.mem_singleton] at hm
  have hno : m.isError = false := by
    rcases hm with ((hm | hm) | hm) | hm
    · rw [hm]; rfl
    · exact printScoreboard_no_error _ m hm
    · exact scrollLoop_no_error fuel _ r hr m hm
    · exact printScoreboard_no_error _ m hm
  simp [hno]

/-- Every command other than a successful `freeze` or `scroll` keeps the frozen
flag; a successful `freeze` starts from a clear flag and sets it; a successful
`scroll` starts from a set flag and clears it. -/
theorem step_frozen {fuel : Nat} {s s' : ICPCSystem} {op : Op} {out : List Message}
    (h : step fuel s op = some (s', out)) :
    if (op = Op.freeze ∨ op = Op.scroll) ∧ succeeded out = true then
      (op = Op.freeze → s.frozen = false ∧ s'.frozen = true) ∧
      (op = Op.scroll → s.frozen = true ∧ s'.frozen = false)
    else s'.frozen = s.frozen := by
  cases op with
  | addTeam name =>
    have e : (addTeam s name).1 = s' := congrArg Prod.fst (Option.some.inj h)
    simp only [reduceCtorEq, or_self, false_and, if_false]
    rw [← e]
    unfold addTeam
    split
    · rfl
    · split <;> rfl
  | startCompetition duration problems =>
    have e : (startCompetition s duration problems).1 = s' :=
      congrArg Prod.fst (Option.some.inj h)
    simp only [reduceCtorEq, or_self, false_and, if_false]
    rw [← e]
    unfold startCompetition
    split <;> rfl
  | submit problem teamName status time =>
    have e : submit s problem teamName status time = s' :=
      congrArg Prod.fst (Option.some.inj h)
    simp only [reduceCtorEq, or_self, false_and, if_false]
    rw [← e]
    rfl
  | flush =>
    have e : updateRankings s = s' := congrArg Prod.fst (Option.some.inj h)
    simp only [reduceCtorEq, or_self, false_and, if_false]
    rw [← e]
    rfl
  | freeze =>
    have e := Option.some.inj h
    unfold freeze at e
    split at e
    · rename_i hf
      have e1 := congrArg Prod.fst e
      have e2 := congrArg Prod.snd e
      simp only at e1 e2
      rw [← e2, ← e1]
      simp [succeeded, Message.isError]
    · rename_i hf
      have e1 := congrArg Prod.fst e
      have e2 := congrArg Prod.snd e
      simp only at e1 e2
      rw [← e2, ← e1]
      simp only [Bool.not_eq_true] at hf
      simp [succeeded, Message.isError, hf]
  | scroll =>
    cases hf : s.frozen with
    | false =>
      have e : scroll fuel s = some (s', out) := h
      simp only [scroll, hf, Bool.not_false, if_true, Option.some.injEq] at e
      have e1 := congrArg Prod.fst e
      have e2 := congrArg Prod.snd e
      simp only at e1 e2
      rw [← e2, ← e1]
      simp [succeeded, Message.isError, hf]
    | true =>
      obtain ⟨h1, h2⟩ := scroll_of_frozen hf h
      simp [h1, h2]
  | queryRanking name =>
    have e := Option.some.inj h
    simp only [reduceCtorEq, or_self, false_and, if_false]
    unfold queryRanking at e
    split at e <;> (have e1 : s = s' := congrArg Prod.fst e; rw [← e1])
  | querySubmission teamName problemName statusName =>
    have e := Option.some.inj h
    simp only [reduceCtorEq, or_self, false_and, if_false]
    unfold querySubmission at e
    split at e <;> (have e1 : s = s' := congrArg Prod.fst e; rw [← e1])

theorem alternating_trace (fuel : Nat) (s : ICPCSystem) (ops tr : List Op)
    (h : freezeScrollTrace fuel s ops = some tr) : alternating s.frozen tr = true := by
  induction ops generalizing s tr with
  | nil =>
    simp only [freezeScrollTrace, Option.some.injEq] at h
    subst h
    rfl
  | cons op ops ih =>
    simp only [freezeScrollTrace] at h
    cases hs : step fuel s op with
    | none => simp [hs] at h
    | some r =>
      obtain ⟨s1, out⟩ := r
      simp only [hs, Option.map_eq_some'] at h
      obtain ⟨tr', htr', rfl⟩ := h
      have hrec := ih s1 tr' htr'
      have hfr := step_frozen hs
      by_cases hc : (op = Op.freeze ∨ op = Op.scroll) ∧ succeeded out = true
      · rw [if_pos hc] at hfr ⊢
        rcases hc.1 with rfl | rfl
        · obtain ⟨h1, h2⟩ := hfr.1 rfl
          rw [h2] at hrec
          simp [alternating, h1, hrec]
        · obtain ⟨h1, h2⟩ := hfr.2 rfl
          rw [h2] at hrec
          simp [alternating, h1, hrec]
      · rw [if_neg hc] at hfr ⊢
        rw [← hfr]
        exact hrec

/-- C11: `freeze` fails exactly when the frozen flag is set and otherwise sets the
flag and changes nothing else; `scroll` fails exactly when the flag is clear, and a
`scroll` that succeeds returns a state with the flag clear; hence in every run of
commands the successful `freeze` and `scroll` commands alternate, the first one
from the initial state being a `freeze`. -/
theorem freeze_scroll_state_machine (s : ICPCSystem) (fuel : Nat) :
    ((freeze s).2 = [Message.freezeFailed] ↔ s.frozen = true) ∧
    (s.frozen = true → freeze s = (s, [Message.freezeFailed])) ∧
    (s.frozen = false → freeze s = ({ s with frozen := true }, [Message.freezeOk])) ∧
    (∀ s' out, scroll fuel s = some (s', out) →
      (out = [Message.scrollFailed] ↔ s.frozen = false)) ∧
    (s.frozen = false → scroll fuel s = some (s, [Message.scrollFailed])) ∧
    (∀ s' out, s.frozen = true → scroll fuel s = some (s', out) →
      s'.frozen = false ∧ succeeded out = true) ∧
    (∀ ops tr, freezeScrollTrace fuel s ops = some tr → alternating s.frozen tr = true) ∧
    (∀ ops tr, freezeScrollTrace fuel ICPCSystem.init ops = some tr →
      alternating false tr = true) := by
  refine ⟨?_, ?_, ?_, ?_, ?_, ?_, ?_, ?_⟩
  · cases hf : s.frozen <;> simp [freeze, hf]
  · intro hf
    simp [freeze, hf]
  · intro hf
    simp [freeze, hf]
  · intro s' out h
    cases hf : s.frozen with
    | false =>
      simp only [scroll, hf, Bool.not_false, if_true, Option.some.injEq] at h
      have e2 := congrArg Prod.snd h
      simp only at e2
      simp [← e2]
    | true =>
      have := (scroll_of_frozen hf h).2
      simp only [reduceCtorEq, iff_false]
      intro hc
      rw [hc] at this
      simp [succeeded, Message.isError] at this
  · intro hf
    simp [scroll, hf]
  · intro s' out hf h
    exact scroll_of_frozen hf h
  · intro ops tr h
    exact alternating_trace fuel s ops tr h
  · intro ops tr h
    exact alternating_trace fuel ICPCSystem.init ops tr h

/-- On the frozen end-to-end contest a second `freeze` fails, the `scroll` succeeds
and clears the flag, and the next `freeze` succeeds again. -/
theorem freeze_scroll_state_machine_witness :
    frozenContest.frozen = true ∧
    freeze frozenContest = (frozenContest, [Message.freezeFailed]) ∧
    freezeScrollTrace 2 frozenContest [Op.freeze, Op.scroll, Op.scroll, Op.freeze] =
      some [Op.scroll, Op.freeze] ∧
    alternating frozenContest.frozen [Op.scroll, Op.freeze] = true := by
  have h : freezeScrollTrace 2 frozenContest [Op.freeze, Op.scroll, Op.scroll, Op.freeze] =
      some [Op.scroll, Op.freeze] := by decide
  exact ⟨by decide, (freeze_scroll_state_machine frozenContest 2).2.1 (by decide), h,
    (freeze_scroll_state_machine frozenContest 2).2.2.2.2.2.2.1 _ _ h⟩

/-! ## C12: `addTeam` -/

/-- C12: `addTeam` is rejected with the started error when the contest has started
(also when the name is registered as well), with the duplicate error when the
contest has not started and the name is registered; otherwise it stores a team with
that name, no problem status, zero `solvedCount`, `penaltyTime` and `ranking`,
appends the name to the roster and leaves every other team, the order of the
existing roster and every other field as they were. The roster of every reachable
state is free of duplicates. -/
theorem addTeam_registers (s : ICPCSystem) (name : String) :
    (s.started = true → addTeam s name = (s, [Message.addFailedStarted])) ∧
    (s.started = false → (s.teams name).isSome = true →
      addTeam s name = (s, [Message.addFailedDuplicate])) ∧
    (s.started = false → s.teams name = none →
      (addTeam s name).2 = [Message.addOk] ∧
      (addTeam s name).1.teams name =
        some { name := name, problems := fun _ => none, solvedCount := 0, penaltyTime := 0,
               ranking := 0 } ∧
      (addTeam s name).1.teamNames = s.teamNames ++ [name] ∧
      (∀ m, m ≠ name → (addTeam s name).1.teams m = s.teams m) ∧
      (addTeam s name).1.started = s.started ∧ (addTeam s name).1.frozen = s.frozen ∧
      (addTeam s name).1.problemCount = s.problemCount ∧
      (addTeam s name).1.durationTime = s.durationTime ∧
      (addTeam s name).1.freezeTime = s.freezeTime ∧
      (addTeam s name).1.nextSubmissionId = s.nextSubmissionId) ∧
    (∀ r, Reachable r → r.teamNames.Nodup) := by
  refine ⟨?_, ?_, ?_, fun r hr => (wellFormed_of_reachable hr).nodup⟩
  · intro h
    simp [addTeam, h]
  · intro h1 h2
    simp [addTeam, h1, h2]
  · intro h1 h2
    have e : addTeam s name =
        ({ s with teams := Map.set s.teams name { name := name }
                  teamNames := s.teamNames ++ [name] }, [Message.addOk]) := by
      simp [addTeam, h1, h2]
    rw [e]
    exact ⟨rfl, Map.set_same _ _ _, rfl, fun m hm => Map.set_other _ _ hm, rfl, rfl, rfl, rfl,
      rfl, rfl⟩

/-- Registering `C` in the state with the teams `A` and `B` before the start appends
`C` to the roster; the roster of the reachable end-to-end contest has no duplicate. -/
theorem addTeam_registers_witness :
    (addTeam (addTeam ICPCSystem.init "A").1 "B").1.started = false ∧
    (addTeam (addTeam ICPCSystem.init "A").1 "B").1.teams "C" = none ∧
    (addTeam (addTeam (addTeam ICPCSystem.init "A").1 "B").1 "C").1.teamNames =
      ["A", "B"] ++ ["C"] ∧
    Reachable contestBeforeFlush ∧ contestBeforeFlush.teamNames.Nodup :=
  ⟨by decide, rfl,
    ((addTeam_registers (addTeam (addTeam ICPCSystem.init "A").1 "B").1 "C").2.2.1
      (by decide) rfl).2.2.1,
    reachable_contestBeforeFlush,
    (addTeam_registers ICPCSystem.init "A").2.2.2 _ reachable_contestBeforeFlush⟩

/-! ## C15: where frozen submissions can be pending -/

/-- C15: in every reachable state a stored problem status with a non-zero
`frozenSubmissions` belongs to a frozen contest and is unsolved; so a contest that
is not frozen has every `frozenSubmissions` at 0, and so has a solved problem. -/
theorem pending_only_while_frozen_and_unsolved (s : ICPCSystem) (hr : Reachable s)
    (n : String) (t : Team) (p : Char) (ps : ProblemStatus)
    (hn : s.teams n = some t) (hp : t.problems p = some ps) :
    (ps.frozenSubmissions ≠ 0 → s.frozen = true ∧ ps.solved = false) ∧
    (s.frozen = false → ps.frozenSubmissions = 0) ∧
    (ps.solved = true → ps.frozenSubmissions = 0) := by
  have h := (wellFormed_of_reachable hr).pending n t p ps hn hp
  refine ⟨?_, h.2.2.1, h.2.1⟩
  intro hne
  constructor
  · cases hf : s.frozen with
    | true => rfl
    | false => exact absurd (h.2.2.1 hf) hne
  · cases hs : ps.solved with
    | false => rfl
    | true => exact absurd (h.2.1 hs) hne

/-- In the frozen end-to-end contest problem `B` of team `A` has one frozen
submission pending and is unsolved. -/
theorem pending_only_while_frozen_and_unsolved_witness :
    Reachable frozenContest ∧
    frozenContest.teams "A" = some (frozenContest.team "A") ∧
    (frozenContest.team "A").problems 'B' = some ((frozenContest.team "A").problem 'B') ∧
    ((frozenContest.team "A").problem 'B').frozenSubmissions = 1 ∧
    frozenContest.frozen = true ∧ ((frozenContest.team "A").problem 'B').solved = false := by
  have h1 : frozenContest.teams "A" = some (frozenContest.team "A") := by
    have : (frozenContest.teams "A").isSome = true := by decide
    simp only [ICPCSystem.team]
    cases hx : frozenContest.teams "A" with
    | none => rw [hx] at this; exact Bool.noConfusion this
    | some t => rfl
  have h2 : (frozenContest.team "A").problems 'B' =
      some ((frozenContest.team "A").problem 'B') := by
    have : ((frozenContest.team "A").problems 'B').isSome = true := by decide
    simp only [Team.problem]
    cases hx : (frozenContest.team "A").problems 'B' with
    | none => rw [hx] at this; exact Bool.noConfusion this
    | some t => rfl
  have h3 : ((frozenContest.team "A").problem 'B').frozenSubmissions = 1 := by decide
  have key := (pending_only_while_frozen_and_unsolved frozenContest reachable_frozenContest
    "A" _ 'B' _ h1 h2).1 (by rw [h3]; decide)
  exact ⟨reachable_frozenContest, h1, h2, h3, key.1, key.2⟩

/-! ## C13: `startCompetition` -/

theorem stringLess_trans (a b c : String) (hab : stringLess a b = true)
    (hbc : stringLess b c = true) : stringLess a c = true := by
  simp only [stringLess, decide_eq_true_eq] at *
  exact lt_trans hab hbc

theorem stringLess_total (a b : String) (hne : a ≠ b) :
    stringLess a b = true ∨ stringLess b a = true := by
  simp only [stringLess, decide_eq_true_eq]
  rcases lt_trichotomy a.toList b.toList with h | h | h
  · exact Or.inl h
  · exact absurd (String.toList_inj.mp h) hne
  · exact Or.inr h

/-- When no team has a solved problem and every cached statistic is zero the
comparator is the comparison of the names. -/
theorem compareTeams_of_unsolved (s : ICPCSystem)
    (h : ∀ a, (s.team a).solvedCount = 0 ∧ (s.team a).penaltyTime = 0 ∧
      ∀ q ∈ letters s.problemCount, ((s.team a).problem q).solved = false) :
    compareTeams s = stringLess := by
  funext a b
  have htimes : ∀ a, solveTimes (s.team a) s.problemCount = [] := by
    intro a
    unfold solveTimes
    rw [List.filterMap_eq_nil_iff]
    intro q hq
    simp [(h a).2.2 q hq]
  unfold compareTeams
  simp [(h a).1, (h b).1, (h a).2.1, (h b).2.1, htimes, sortDescending, sortWith, firstDifference]

theorem scrollLoop_static (fuel : Nat) (s : ICPCSystem) (r : ICPCSystem × List Message × Nat)
    (h : scrollLoop fuel s = some r) :
    r.1.started = s.started ∧ r.1.problemCount = s.problemCount ∧
    r.1.durationTime = s.durationTime ∧ r.1.freezeTime = s.freezeTime ∧
    r.1.nextSubmissionId = s.nextSubmissionId := by
  induction fuel generalizing s r with
  | zero => simp [scrollLoop] at h
  | succ fuel ih =>
    simp only [scrollLoop] at h
    cases hi : scrollIteration s with
    | none =>
      simp only [hi, Option.some.injEq] at h
      subst h
      exact ⟨rfl, rfl, rfl, rfl, rfl⟩
    | some r1 =>
      obtain ⟨s1, out1⟩ := r1
      simp only [hi, Option.map_eq_some'] at h
      obtain ⟨r2, hr2, rfl⟩ := h
      obtain ⟨-, hs1⟩ := scrollIteration_state hi
      have := ih s1 r2 hr2
      rw [hs1] at this
      exact this

/-- Every command keeps a started contest started. -/
theorem step_started {fuel : Nat} {s s' : ICPCSystem} {op : Op} {out : List Message}
    (h : step fuel s op = some (s', out)) (hs : s.started = true) : s'.started = true := by
  cases op with
  | addTeam name =>
    have e : (addTeam s name).1 = s' := congrArg Prod.fst (Option.some.inj h)
    rw [← e]
    simp [addTeam, hs]
  | startCompetition duration problems =>
    have e : (startCompetition s duration problems).1 = s' :=
      congrArg Prod.fst (Option.some.inj h)
    rw [← e]
    simp [startCompetition, hs]
  | submit problem teamName status time =>
    have e : submit s problem teamName status time = s' :=
      congrArg Prod.fst (Option.some.inj h)
    rw [← e]
    exact hs
  | flush =>
    have e : updateRankings s = s' := congrArg Prod.fst (Option.some.inj h)
    rw [← e]
    exact hs
  | freeze =>
    have e : (freeze s).1 = s' := congrArg Prod.fst (Option.some.inj h)
    rw [← e]
    unfold freeze
    split <;> exact hs
  | scroll =>
    have e : scroll fuel s = some (s', out) := h
    unfold scroll at e
    split at e
    · have e1 : s = s' := congrArg Prod.fst (Option.some.inj e)
      rw [← e1]
      exact hs
    · simp only [Option.map_eq_some'] at e
      obtain ⟨r, hr, e⟩ := e
      have e1 := congrArg Prod.fst e
      simp only at e1
      rw [← e1]
      have := (scrollLoop_static fuel _ r hr).1
      simp only [this]
      exact hs
  | queryRanking name =>
    have e := Option.some.inj h
    unfold queryRanking at e
    split at e <;> (have e1 : s = s' := congrArg Prod.fst e; rw [← e1]; exact hs)
  | querySubmission teamName problemName statusName =>
    have e := Option.some.inj h
    unfold querySubmission at e
    split at e <;> (have e1 : s = s' := congrArg Prod.fst e; rw [← e1]; exact hs)

theorem startCompetition_eq {s : ICPCSystem} (hs : s.started = false)
    (duration problems : Int) :
    startCompetition s duration problems =
      ({ s with
          started := true, durationTime := duration, problemCount := problems
          teamNames := sortWith stringLess s.teamNames
          teams := assignRankings 0 (sortWith stringLess s.teamNames)
            (fun n => (s.teams n).map (fun t =>
              { t with problems :=
                  (letters problems).foldl (fun m p => Map.set m p {}) t.problems })) },
        [Message.startOk]) := by
  simp [startCompetition, hs]

/-- After a successful start every configured problem of every team is fresh. -/
theorem startCompetition_problem {s : ICPCSystem} (hs : s.started = false)
    (duration problems : Int) (n : String) (q : Char) :
    ((startCompetition s duration problems).1.team n).problem q =
      if q ∈ letters problems then {} else (s.team n).problem q := by
  rw [startCompetition_eq hs]
  simp only [ICPCSystem.team]
  obtain ⟨r, hr⟩ := assignRankings_team 0 (sortWith stringLess s.teamNames)
    (fun n => (s.teams n).map (fun t =>
      { t with problems := (letters problems).foldl (fun m p => Map.set m p {}) t.problems })) n
  rw [hr]
  cases hn : s.teams n with
  | none =>
    simp only [Option.map_none', Option.getD_none]
    split <;> rfl
  | some t =>
    simp only [Option.map_some', Option.getD_some, Team.problem]
    rw [foldl_set_default]
    split <;> rfl

/-- C13: for a problem count of at most 62, where the letter loop of the source
stays inside the range of `char` and returns, `startCompetition` is rejected exactly
when the contest has started, and no command clears the started flag. In a reachable
state that has not started it
records the duration and the problem count, keeps the registered teams, gives each
of them a fresh unsolved status for every configured letter, sorts the roster by
name and sets ranking to position plus one; `updateRankings` in the resulting state
returns the same roster order and the same rankings. -/
theorem startCompetition_initialises (s : ICPCSystem) (hr : Reachable s)
    (duration problems : Int) (hp : problems ≤ 62) :
    (∀ q ∈ letters problems, 65 ≤ q.toNat ∧ q.toNat ≤ 126) ∧
    ((startCompetition s duration problems).2 = [Message.startFailed] ↔ s.started = true) ∧
    (s.started = true → startCompetition s duration problems = (s, [Message.startFailed])) ∧
    (∀ fuel op s₁ out, step fuel s op = some (s₁, out) → s.started = true →
      s₁.started = true) ∧
    (s.started = false →
      (startCompetition s duration problems).2 = [Message.startOk] ∧
      (startCompetition s duration problems).1.started = true ∧
      (startCompetition s duration problems).1.durationTime = duration ∧
      (startCompetition s duration problems).1.problemCount = problems ∧
      (∀ n, ((startCompetition s duration problems).1.teams n).isSome = (s.teams n).isSome) ∧
      (∀ n t, (startCompetition s duration problems).1.teams n = some t →
        ∀ q ∈ letters problems, t.problems q = some {}) ∧
      (startCompetition s duration problems).1.teamNames.Perm s.teamNames ∧
      (startCompetition s duration problems).1.teamNames.Pairwise
        (fun a b => a.toList < b.toList) ∧
      Ranked (startCompetition s duration problems).1 ∧
      (updateRankings (startCompetition s duration problems).1).teamNames =
        (startCompetition s duration problems).1.teamNames ∧
      ∀ n, ((updateRankings (startCompetition s duration problems).1).team n).ranking =
        ((startCompetition s duration problems).1.team n).ranking) := by
  have hwf := wellFormed_of_reachable hr
  refine ⟨letters_char_range problems hp, ?_, ?_, ?_, ?_⟩
  · cases hs : s.started <;> simp [startCompetition, hs]
  · intro hs
    simp [startCompetition, hs]
  · intro fuel op s₁ out h hs
    exact step_started h hs
  · intro hs
    have hnd : (sortWith stringLess s.teamNames).Nodup :=
      (sortWith_perm _ _).nodup_iff.mpr hwf.nodup
    have hsorted : (sortWith stringLess s.teamNames).Pairwise
        (fun a b => stringLess a b = true) :=
      sortWith_pairwise stringLess stringLess_trans stringLess_total _ hwf.nodup
    have hnames : (startCompetition s duration problems).1.teamNames =
        sortWith stringLess s.teamNames := by
      rw [startCompetition_eq hs]
    have hteams : (startCompetition s duration problems).1.teams =
        assignRankings 0 (sortWith stringLess s.teamNames)
          (fun n => (s.teams n).map (fun t =>
            { t with problems :=
                (letters problems).foldl (fun m p => Map.set m p {}) t.problems })) := by
      rw [startCompetition_eq hs]
    have hpc : (startCompetition s duration problems).1.problemCount = problems := by
      rw [startCompetition_eq hs]
    have hsome : ∀ n, ((startCompetition s duration problems).1.teams n).isSome =
        (s.teams n).isSome := by
      intro n
      rw [Bool.eq_iff_iff, hteams, assignRankings_isSome, mem_sortWith, hwf.roster]
      cases s.teams n <;> simp
    have hranked : Ranked (startCompetition s duration problems).1 := by
      intro i hi
      simp only [ICPCSystem.team]
      have hi' : i < (sortWith stringLess s.teamNames).length := by
        rw [← hnames]; exact hi
      have := assignRankings_get 0 (sortWith stringLess s.teamNames)
        (fun n => (s.teams n).map (fun t =>
          { t with problems :=
              (letters problems).foldl (fun m p => Map.set m p {}) t.problems })) hnd i hi'
      simp only [List.get_eq_getElem] at this ⊢
      simp only [hnames, hteams, this]
      simp
    have hcmp : compareTeams (refreshStats (startCompetition s duration problems).1) =
        stringLess := by
      apply compareTeams_of_unsolved
      intro a
      have hfresh : ∀ q ∈ letters problems,
          (((startCompetition s duration problems).1.team a).problem q).solved = false := by
        intro q hq
        rw [startCompetition_problem hs, if_pos hq]
      have h := refreshStats_team (startCompetition s duration problems).1 a
      rw [hpc] at h
      refine ⟨?_, ?_, ?_⟩
      · rw [h.1]
        unfold countSolved
        rw [List.countP_eq_zero.mpr (fun q hq => by simp [hfresh q hq])]
        rfl
      · rw [h.2.1]
        unfold storedPenalty sumPenalty
        rw [List.filter_eq_nil_iff.mpr (fun q hq => by simp [hfresh q hq])]
        exact wrapInt_zero
      · intro q hq
        rw [refreshStats_problemCount, hpc] at hq
        rw [h.2.2.2.2 q]
        exact hfresh q hq
    have hsame : (updateRankings (startCompetition s duration problems).1).teamNames =
        (startCompetition s duration problems).1.teamNames := by
      rw [updateRankings_teamNames, hcmp, hnames]
      exact sortWith_of_pairwise _ _ hsorted
    refine ⟨by rw [startCompetition_eq hs], by rw [startCompetition_eq hs],
      by rw [startCompetition_eq hs], hpc, hsome, ?_, by rw [hnames]; exact sortWith_perm _ _,
      ?_, hranked, hsame, ?_⟩
    · intro n t ht q hq
      have hin : (s.teams n).isSome = true := by rw [← hsome n, ht]; rfl
      obtain ⟨r, hr⟩ := assignRankings_team 0 (sortWith stringLess s.teamNames)
        (fun n => (s.teams n).map (fun t =>
          { t with problems :=
              (letters problems).foldl (fun m p => Map.set m p {}) t.problems })) n
      rw [← hteams, ht] at hr
      cases hn : s.teams n with
      | none => rw [hn] at hin; exact Bool.noConfusion hin
      | some t₀ =>
        simp only [hn, Option.map_some', Option.getD_some] at hr
        rw [hr]
        simp only
        rw [foldl_set_default, if_pos hq]
    · rw [hnames]
      exact hsorted.imp (fun h => by simpa [stringLess] using h)
    · intro n
      by_cases hn : n ∈ (startCompetition s duration problems).1.teamNames
      · obtain ⟨i, hi, rfl⟩ := List.mem_iff_getElem.mp hn
        have h1 := hranked i hi
        have hi' : i < (updateRankings (startCompetition s duration problems).1).teamNames.length := by
          rw [hsame]; exact hi
        have h2 := updateRankings_ranked (startCompetition s duration problems).1
          (by rw [hnames]; exact hnd) i hi'
        simp only [List.get_eq_getElem] at h1 h2
        simp only [hsame] at h2
        rw [h1, h2]
      · have hn' : n ∉ (updateRankings (startCompetition s duration problems).1).teamNames := by
          rw [hsame]; exact hn
        have := (refreshStats_team (startCompetition s duration problems).1 n).2.2.1
        rw [← this]
        simp only [ICPCSystem.team]
        rw [updateRankings_teams, assignRankings_not_mem _ _ _ _ hn']

/-- Starting the contest with the teams `B` and `A` registered in that order sorts
the roster to `A`, `B`. -/
theorem startCompetition_initialises_witness :
    Reachable (addTeam (addTeam ICPCSystem.init "B").1 "A").1 ∧
    (2 : Int) ≤ 62 ∧
    (addTeam (addTeam ICPCSystem.init "B").1 "A").1.started = false ∧
    (startCompetition (addTeam (addTeam ICPCSystem.init "B").1 "A").1 120 2).1.teamNames =
      ["A", "B"] ∧
    (updateRankings
      (startCompetition (addTeam (addTeam ICPCSystem.init "B").1 "A").1 120 2).1).teamNames =
      (startCompetition (addTeam (addTeam ICPCSystem.init "B").1 "A").1 120 2).1.teamNames :=
  ⟨(Reachable.init.addTeam "B").addTeam "A", by decide, by decide, by decide,
    ((startCompetition_initialises (addTeam (addTeam ICPCSystem.init "B").1 "A").1
      ((Reachable.init.addTeam "B").addTeam "A") 120 2 (by decide)).2.2.2.2
      (by decide)).2.2.2.2.2.2.2.2.2.1⟩

/-! ## Properties of every stored problem status -/

theorem StatusInv.transfer {P : ProblemStatus → Prop} {s s' : ICPCSystem}
    (h : StatusInv P s)
    (hback : ∀ n t', s'.teams n = some t' →
      ∃ t, s.teams n = some t ∧ t'.problems = t.problems) : StatusInv P s' := by
  intro n t' p ps hn hp
  obtain ⟨t, h1, h2⟩ := hback n t' hn
  rw [h2] at hp
  exact h n t p ps h1 hp

theorem StatusInv.update_status {P : ProblemStatus → Prop} {s s' : ICPCSystem}
    (h : StatusInv P s) {n : String} {t : Team} {p : Char} {ps' : ProblemStatus}
    (hn : s.teams n = some t)
    (hteams : s'.teams = Map.set s.teams n (t.setProblem p ps')) (hps' : P ps') :
    StatusInv P s' := by
  intro m t' q qs hm hq
  rw [hteams, Map.set_apply] at hm
  by_cases hmn : m = n
  · subst hmn
    simp only [if_true, Option.some.injEq] at hm
    subst hm
    simp only [Team.setProblem, Map.set_apply] at hq
    by_cases hqp : q = p
    · subst hqp
      simp only [if_true, Option.some.injEq] at hq
      subst hq
      exact hps'
    · simp only [if_neg hqp] at hq
      exact h m t q qs hn hq
  · simp only [if_neg hmn] at hm
    exact h m t' q qs hm hq

theorem statusInv_updateRankings {P : ProblemStatus → Prop} {s : ICPCSystem}
    (hwf : WellFormed s) (h : StatusInv P s) : StatusInv P (updateRankings s) := by
  apply h.transfer
  intro n t' hn
  cases hs : s.teams n with
  | none =>
    rw [(updateRankings_teams_of_wellFormed hwf n).1 hs] at hn
    exact Option.noConfusion hn
  | some t =>
    obtain ⟨r, -, -, h3⟩ := (updateRankings_teams_of_wellFormed hwf n).2 t hs
    rw [h3] at hn
    cases hn
    exact ⟨t, rfl, rfl⟩

theorem statusInv_addTeam {P : ProblemStatus → Prop} {s : ICPCSystem}
    (h : StatusInv P s) (name : String) : StatusInv P (addTeam s name).1 := by
  unfold addTeam
  split
  · exact h
  · split
    · exact h
    · intro m t p ps hm hp
      simp only [Map.set_apply] at hm
      by_cases hmn : m = name
      · simp only [hmn, if_true, Option.some.injEq] at hm
        subst hm
        simp at hp
      · simp only [if_neg hmn] at hm
        exact h m t p ps hm hp

theorem statusInv_startCompetition {P : ProblemStatus → Prop} {s : ICPCSystem}
    (hwf : WellFormed s) (h : StatusInv P s) (h0 : P {}) (duration problems : Int) :
    StatusInv P (startCompetition s duration problems).1 := by
  cases hs : s.started with
  | true =>
    have : startCompetition s duration problems = (s, [Message.startFailed]) := by
      simp [startCompetition, hs]
    rw [this]
    exact h
  | false =>
    have hpc : s.problemCount = 0 := hwf.notStarted hs
    intro n t' p ps hn hp
    rw [startCompetition_eq hs] at hn
    simp only at hn
    obtain ⟨r, hr⟩ := assignRankings_team 0 (sortWith stringLess s.teamNames)
      (fun n => (s.teams n).map (fun t =>
        { t with problems := (letters problems).foldl (fun m p => Map.set m p {}) t.problems })) n
    rw [hn] at hr
    simp only [Option.getD_some] at hr
    cases hx : s.teams n with
    | none =>
      simp only [hx, Option.map_none', Option.getD_none] at hr
      rw [hr] at hp
      simp [Team.empty] at hp
    | some t₀ =>
      simp only [hx, Option.map_some', Option.getD_some] at hr
      rw [hr] at hp
      simp only at hp
      rw [foldl_set_default] at hp
      split at hp
      · rw [← Option.some.inj hp]
        exact h0
      · have := (hwf.keys n t₀ hx p).mp (by simp [hp])
        simp [hpc, letters] at this

/-- The facts about a stored status that the structural invariant provides. -/
theorem stored_facts {s : ICPCSystem} (hwf : WellFormed s) {n : String} {t : Team} {p : Char}
    {ps : ProblemStatus} (hn : s.teams n = some t) (hp : t.problems p = some ps) :
    0 ≤ ps.frozenSubmissions ∧ (ps.solved = true → ps.frozenSubmissions = 0) ∧
    (s.frozen = false → ps.frozenSubmissions = 0) ∧
    ps.frozenSubmissions ≤ ps.submissions.length :=
  hwf.pending n t p ps hn hp

theorem statusInv_submit {P : ProblemStatus → Prop} {s : ICPCSystem}
    (hwf : WellFormed s) (h : StatusInv P s)
    (hrec : ∀ ps frozen sub, P ps → 0 ≤ ps.frozenSubmissions →
      (ps.solved = true → ps.frozenSubmissions = 0) →
      (frozen = false → ps.frozenSubmissions = 0) →
      ps.frozenSubmissions ≤ ps.submissions.length → P (ps.record frozen sub))
    (problem : Char) (teamName status : String) (time : Int)
    (hv : (Op.submit problem teamName status time).valid s) :
    StatusInv P (submit s problem teamName status time) := by
  obtain ⟨-, hteam, hletter⟩ := hv
  cases hn : s.teams teamName with
  | none => simp [hn] at hteam
  | some t =>
    have hkey := (hwf.keys teamName t hn problem).mpr hletter
    cases hp : t.problems problem with
    | none => simp [hp] at hkey
    | some ps =>
      have hf := stored_facts hwf hn hp
      refine h.update_status hn (submit_teams_of_some hn problem status time) ?_
      rw [problem_of_some hp]
      exact hrec ps s.frozen _ (h teamName t problem ps hn hp) hf.1 hf.2.1 hf.2.2.1 hf.2.2.2

theorem statusInv_reveal {P : ProblemStatus → Prop} {s : ICPCSystem}
    (hwf : WellFormed s) (h : StatusInv P s)
    (hunf : ∀ ps, P ps → 0 ≤ ps.frozenSubmissions →
      ps.frozenSubmissions ≤ ps.submissions.length → ps.solved = false → P (unfreeze ps))
    {n : String} (hn : n ∈ s.teamNames)
    (hf : hasFrozen (s.team n) s.problemCount = true) : StatusInv P (reveal s n) := by
  have hsome := (hwf.roster n).mp hn
  cases ht : s.teams n with
  | none => simp [ht] at hsome
  | some t =>
    rw [team_of_some ht] at hf
    obtain ⟨hp, hpend⟩ := smallestProblem_spec t s.problemCount hf
    have hkey := (hwf.keys n t ht _).mpr hp
    cases hps : t.problems (smallestProblem t s.problemCount) with
    | none => simp [hps] at hkey
    | some ps =>
      have hteams : (reveal s n).teams = Map.set s.teams n
          (t.setProblem (smallestProblem t s.problemCount) (unfreeze ps)) := by
        simp only [reveal, team_of_some ht, problem_of_some hps]
      rw [problem_of_some hps] at hpend
      have hfacts := stored_facts hwf ht hps
      exact h.update_status ht hteams
        (hunf ps (h n t _ ps ht hps) hfacts.1 hfacts.2.2.2 ((pending_iff ps).mp hpend).1)

theorem statusInv_scrollIteration {P : ProblemStatus → Prop} {s s' : ICPCSystem}
    {out : List Message} (hwf : WellFormed s) (h : StatusInv P s)
    (hunf : ∀ ps, P ps → 0 ≤ ps.frozenSubmissions →
      ps.frozenSubmissions ≤ ps.submissions.length → ps.solved = false → P (unfreeze ps))
    (hs : scrollIteration s = some (s', out)) : StatusInv P s' := by
  obtain ⟨hsel, rfl⟩ := scrollIteration_state hs
  obtain ⟨h1, h2, -, -⟩ := findLowest_spec s (rank_gt_of_wellFormed hwf) hsel
  exact statusInv_updateRankings (wellFormed_reveal hwf h1 h2) (statusInv_reveal hwf h hunf h1 h2)

theorem statusInv_scrollLoop {P : ProblemStatus → Prop}
    (hunf : ∀ ps, P ps → 0 ≤ ps.frozenSubmissions →
      ps.frozenSubmissions ≤ ps.submissions.length → ps.solved = false → P (unfreeze ps))
    (fuel : Nat) (s : ICPCSystem) (r : ICPCSystem × List Message × Nat)
    (hwf : WellFormed s) (h : StatusInv P s) (hr : scrollLoop fuel s = some r) :
    StatusInv P r.1 := by
  induction fuel generalizing s r with
  | zero => simp [scrollLoop] at hr
  | succ fuel ih =>
    simp only [scrollLoop] at hr
    cases hi : scrollIteration s with
    | none =>
      simp only [hi, Option.some.injEq] at hr
      subst hr
      exact h
    | some r1 =>
      obtain ⟨s1, out1⟩ := r1
      simp only [hi, Option.map_eq_some'] at hr
      obtain ⟨r2, hr2, rfl⟩ := hr
      exact ih s1 r2 (wellFormed_scrollIteration hwf hi)
        (statusInv_scrollIteration hwf h hunf hi) hr2

/-- A property of problem statuses that holds for the fresh status and is kept by
the body of `submit` and by the reveal of `scroll` holds for every stored status of
every reachable state. -/
theorem statusInv_of_reachable {P : ProblemStatus → Prop} (h0 : P {})
    (hrec : ∀ ps frozen sub, P ps → 0 ≤ ps.frozenSubmissions →
      (ps.solved = true → ps.frozenSubmissions = 0) →
      (frozen = false → ps.frozenSubmissions = 0) →
      ps.frozenSubmissions ≤ ps.submissions.length → P (ps.record frozen sub))
    (hunf : ∀ ps, P ps → 0 ≤ ps.frozenSubmissions →
      ps.frozenSubmissions ≤ ps.submissions.length → ps.solved = false → P (unfreeze ps))
    {s : ICPCSystem} (hr : Reachable s) : StatusInv P s := by
  induction hr with
  | init =>
    intro n t p ps hn
    simp [ICPCSystem.init] at hn
  | @step s s' op fuel out hreach hv hs ih =>
    have hwf := wellFormed_of_reachable hreach
    cases op with
    | addTeam name =>
      have e : (addTeam s name).1 = s' := congrArg Prod.fst (Option.some.inj hs)
      rw [← e]
      exact statusInv_addTeam ih name
    | startCompetition duration problems =>
      have e : (startCompetition s duration problems).1 = s' :=
        congrArg Prod.fst (Option.some.inj hs)
      rw [← e]
      exact statusInv_startCompetition hwf ih h0 duration problems
    | submit problem teamName status time =>
      have e : submit s problem teamName status time = s' :=
        congrArg Prod.fst (Option.some.inj hs)
      rw [← e]
      exact statusInv_submit hwf ih hrec problem teamName status time hv
    | flush =>
      have e : updateRankings s = s' := congrArg Prod.fst (Option.some.inj hs)
      rw [← e]
      exact statusInv_updateRankings hwf ih
    | freeze =>
      have e : (freeze s).1 = s' := congrArg Prod.fst (Option.some.inj hs)
      rw [← e]
      unfold freeze
      split
      · exact ih
      · exact ih.transfer (fun n t' hn => ⟨t', hn, rfl⟩)
    | scroll =>
      have e : scroll fuel s = some (s', out) := hs
      unfold scroll at e
      split at e
      · have e1 : s = s' := congrArg Prod.fst (Option.some.inj e)
        rw [← e1]
        exact ih
      · simp only [Option.map_eq_some'] at e
        obtain ⟨r, hr, e⟩ := e
        have e1 := congrArg Prod.fst e
        simp only at e1
        rw [← e1]
        have := statusInv_scrollLoop hunf fuel _ r (wellFormed_updateRankings hwf)
          (statusInv_updateRankings hwf ih) hr
        exact this.transfer (fun n t' hn => ⟨t', hn, rfl⟩)
    | queryRanking name =>
      have e := Option.some.inj hs
      unfold queryRanking at e
      split at e <;> (have e1 : s = s' := congrArg Prod.fst e; rw [← e1]; exact ih)
    | querySubmission teamName problemName statusName =>
      have e := Option.some.inj hs
      unfold querySubmission at e
      split at e <;> (have e1 : s = s' := congrArg Prod.fst e; rw [← e1]; exact ih)

theorem statusInv_of_loopState {P : ProblemStatus → Prop}
    (hunf : ∀ ps, P ps → 0 ≤ ps.frozenSubmissions →
      ps.frozenSubmissions ≤ ps.submissions.length → ps.solved = false → P (unfreeze ps))
    {s₀ s : ICPCSystem} (hwf : WellFormed s₀) (h₀ : StatusInv P s₀) (h : LoopState s₀ s) :
    StatusInv P s := by
  induction h with
  | entry => exact statusInv_updateRankings hwf h₀
  | pass hl hs ih =>
    exact statusInv_scrollIteration (wellFormed_of_loopState hwf hl) ih hunf hs

/-! ## C14: the ledger replay invariant -/

theorem teams_eq_some_team {s : ICPCSystem} {n : String} (h : (s.teams n).isSome = true) :
    s.teams n = some (s.team n) := by
  simp only [ICPCSystem.team]
  cases hx : s.teams n with
  | none => rw [hx] at h; exact Bool.noConfusion h
  | some t => rfl

theorem problems_eq_some_problem {t : Team} {p : Char} (h : (t.problems p).isSome = true) :
    t.problems p = some (t.problem p) := by
  simp only [Team.problem]
  cases hx : t.problems p with
  | none => rw [hx] at h; exact Bool.noConfusion h
  | some ps => rfl

theorem apply_of_solved (ps : ProblemStatus) (status : String) (time : Int)
    (h : ps.solved = true) : ps.apply status time = ps := by
  simp [ProblemStatus.apply, h]

theorem apply_core_congr (ps₁ ps₂ : ProblemStatus) (status : String) (time : Int)
    (h : ps₁.core = ps₂.core) : (ps₁.apply status time).core = (ps₂.apply status time).core := by
  simp only [ProblemStatus.core, Prod.mk.injEq] at h
  obtain ⟨h1, h2, h3⟩ := h
  unfold ProblemStatus.apply
  rw [h1]
  split
  · split
    · simp [ProblemStatus.core, h3]
    · simp [ProblemStatus.core, h1, h2, h3]
  · simp [ProblemStatus.core, h1, h2, h3]

theorem foldl_apply_core_congr (l : List Submission) (ps₁ ps₂ : ProblemStatus)
    (h : ps₁.core = ps₂.core) :
    (l.foldl (fun acc sub => acc.apply sub.status sub.time) ps₁).core =
      (l.foldl (fun acc sub => acc.apply sub.status sub.time) ps₂).core := by
  induction l generalizing ps₁ ps₂ with
  | nil => exact h
  | cons x l ih =>
    rw [List.foldl_cons, List.foldl_cons]
    exact ih _ _ (apply_core_congr _ _ _ _ h)

theorem foldl_apply_of_solved (l : List Submission) (ps : ProblemStatus)
    (h : ps.solved = true) :
    l.foldl (fun acc sub => acc.apply sub.status sub.time) ps = ps := by
  induction l with
  | nil => rfl
  | cons x l ih => rw [List.foldl_cons, apply_of_solved _ _ _ h, ih]

theorem replay_append (l₁ l₂ : List Submission) :
    replay (l₁ ++ l₂) = l₂.foldl (fun acc sub => acc.apply sub.status sub.time) (replay l₁) := by
  simp [replay, List.foldl_append]

/-- The replay from an unsolved status: solved iff some submission is `Accepted`,
with the time of the first such one, after one wrong attempt for every submission
before it. -/
theorem foldl_apply_of_unsolved (l : List Submission) (acc : ProblemStatus)
    (h : acc.solved = false) :
    (l.foldl (fun acc sub => acc.apply sub.status sub.time) acc).solved =
        l.any Submission.accepted ∧
    (l.foldl (fun acc sub => acc.apply sub.status sub.time) acc).solveTime =
        ((l.find? Submission.accepted).map Submission.time).getD acc.solveTime ∧
    (l.foldl (fun acc sub => acc.apply sub.status sub.time) acc).wrongAttempts =
        acc.wrongAttempts + ((l.takeWhile (fun x => !x.accepted)).length : Int) := by
  induction l generalizing acc with
  | nil => simp [h]
  | cons x l ih =>
    rw [List.foldl_cons]
    by_cases hx : x.status = "Accepted"
    · have hacc : x.accepted = true := by simp [Submission.accepted, hx]
      have hap : acc.apply x.status x.time = { acc with solved := true, solveTime := x.time } := by
        simp [ProblemStatus.apply, h, hx]
      rw [hap, foldl_apply_of_solved _ _ rfl]
      simp [hacc]
    · have hacc : x.accepted = false := by simp [Submission.accepted, hx]
      have hap : acc.apply x.status x.time =
          { acc with wrongAttempts := acc.wrongAttempts + 1 } := by
        simp [ProblemStatus.apply, h, hx]
      rw [hap]
      obtain ⟨h1, h2, h3⟩ := ih { acc with wrongAttempts := acc.wrongAttempts + 1 } h
      rw [h1, h2, h3]
      simp only [List.any_cons, hacc, Bool.false_or, List.find?_cons, List.takeWhile_cons,
        Bool.not_false, if_true, List.length_cons, true_and]
      push_cast
      ring

theorem replay_spec (l : List Submission) :
    (replay l).solved = l.any Submission.accepted ∧
    (replay l).solveTime = ((l.find? Submission.accepted).map Submission.time).getD 0 ∧
    (replay l).wrongAttempts = ((l.takeWhile (fun x => !x.accepted)).length : Int) := by
  have := foldl_apply_of_unsolved l {} rfl
  simpa [replay] using this

theorem replayed_fresh : Replayed {} := rfl

theorem applied_of_no_pending (ps : ProblemStatus) (hz : ps.frozenSubmissions = 0) :
    ps.applied = ps.submissions := by
  simp [ProblemStatus.applied, hz]

theorem replayed_record (ps : ProblemStatus) (frozen : Bool) (sub : Submission)
    (h : Replayed ps) (h0 : 0 ≤ ps.frozenSubmissions)
    (hs : ps.solved = true → ps.frozenSubmissions = 0)
    (hf : frozen = false → ps.frozenSubmissions = 0)
    (_hle : ps.frozenSubmissions ≤ ps.submissions.length) : Replayed (ps.record frozen sub) := by
  unfold Replayed at h ⊢
  cases frozen with
  | false =>
    have hz := hf rfl
    rw [applied_of_no_pending ps hz] at h
    have hz' : (ps.record false sub).frozenSubmissions = 0 := by
      rw [record_frozenSubmissions]
      simp [hz]
    rw [applied_of_no_pending _ hz', record_submissions, replay_append, record_not_frozen]
    simp only [List.foldl_cons, List.foldl_nil]
    exact apply_core_congr _ _ _ _ h
  | true =>
    cases hsol : ps.solved with
    | true =>
      have hz := hs hsol
      rw [applied_of_no_pending ps hz] at h
      rw [record_solved _ _ _ hsol]
      have hz' : ({ ps with submissions := ps.submissions ++ [sub] } :
          ProblemStatus).frozenSubmissions = 0 := hz
      rw [applied_of_no_pending _ hz', replay_append]
      simp only [List.foldl_cons, List.foldl_nil]
      have hrs : (replay ps.submissions).solved = true := by
        have := congrArg Prod.fst h
        simp only [ProblemStatus.core] at this
        rw [← this]
        exact hsol
      rw [apply_of_solved _ _ _ hrs]
      exact h
    | false =>
      rw [record_frozen_unsolved _ _ hsol]
      have happ : ({ ps with submissions := ps.submissions ++ [sub]
                             frozenSubmissions := ps.frozenSubmissions + 1 } :
          ProblemStatus).applied = ps.applied := by
        simp only [ProblemStatus.applied, List.length_append, List.length_singleton]
        have hk : (((ps.submissions.length + 1 : Nat) : Int) - (ps.frozenSubmissions + 1)).toNat =
            ((ps.submissions.length : Int) - ps.frozenSubmissions).toNat := by
          congr 1
          push_cast
          ring
        rw [hk, List.take_append_of_le_length]
        omega
      rw [happ]
      exact h

theorem unfreeze_core (ps : ProblemStatus) (h : Replayed ps) :
    (unfreeze ps).core = (replay ps.submissions).core := by
  unfold Replayed at h
  have hsplit : ps.submissions = ps.applied ++
      ps.submissions.drop ((ps.submissions.length : Int) - ps.frozenSubmissions).toNat := by
    simp [ProblemStatus.applied]
  have hcore : (unfreeze ps).core =
      ((ps.submissions.drop ((ps.submissions.length : Int) - ps.frozenSubmissions).toNat).foldl
        (fun acc sub => acc.apply sub.status sub.time) ps).core := rfl
  rw [hcore]
  conv_rhs => rw [hsplit, replay_append]
  exact foldl_apply_core_congr _ _ _ h

theorem replayed_unfreeze (ps : ProblemStatus) (h : Replayed ps) : Replayed (unfreeze ps) := by
  have hz : (unfreeze ps).frozenSubmissions = 0 := rfl
  unfold Replayed
  rw [applied_of_no_pending _ hz, unfreeze_submissions]
  exact unfreeze_core ps h

/-- Every stored status of a reachable state is the replay of its applied
submissions. -/
theorem replayed_of_reachable {s : ICPCSystem} (hr : Reachable s) : StatusInv Replayed s :=
  statusInv_of_reachable replayed_fresh replayed_record
    (fun ps h _ _ _ => replayed_unfreeze ps h) hr

/-- C14: in every reachable state the `solved`, `solveTime` and `wrongAttempts` of
every stored problem status are those of the replay, from a fresh status and under
the first-write-wins rule, of the first `|submissions| - frozenSubmissions`
submissions of its list; the reveal of `scroll` turns them into the replay of the
whole list; and while the contest is not frozen the whole list is applied: `solved`
holds iff some stored submission is `Accepted`, `solveTime` is the time of the first
`Accepted` submission, and `wrongAttempts` is the number of submissions before it
(all of them when none is `Accepted`). -/
theorem ledger_replay_invariant (s : ICPCSystem) (hr : Reachable s) (n : String) (t : Team)
    (p : Char) (ps : ProblemStatus) (hn : s.teams n = some t) (hp : t.problems p = some ps) :
    (ps.solved = (replay ps.applied).solved ∧ ps.solveTime = (replay ps.applied).solveTime ∧
      ps.wrongAttempts = (replay ps.applied).wrongAttempts) ∧
    ((unfreeze ps).solved = (replay ps.submissions).solved ∧
      (unfreeze ps).solveTime = (replay ps.submissions).solveTime ∧
      (unfreeze ps).wrongAttempts = (replay ps.submissions).wrongAttempts ∧
      (unfreeze ps).frozenSubmissions = 0 ∧ (unfreeze ps).submissions = ps.submissions) ∧
    (s.frozen = false →
      ps.applied = ps.submissions ∧
      ps.solved = ps.submissions.any Submission.accepted ∧
      ps.solveTime =
        ((ps.submissions.find? Submission.accepted).map Submission.time).getD 0 ∧
      ps.wrongAttempts = ((ps.submissions.takeWhile (fun x => !x.accepted)).length : Int)) := by
  have hrep : Replayed ps := replayed_of_reachable hr n t p ps hn hp
  have hcore : ps.core = (replay ps.applied).core := hrep
  have hun := unfreeze_core ps hrep
  simp only [ProblemStatus.core, Prod.mk.injEq] at hcore hun
  refine ⟨hcore, ⟨hun.1, hun.2.1, hun.2.2, rfl, unfreeze_submissions ps⟩, ?_⟩
  intro hf
  have hz := (stored_facts (wellFormed_of_reachable hr) hn hp).2.2.1 hf
  have happ := applied_of_no_pending ps hz
  rw [happ] at hcore
  have hspec := replay_spec ps.submissions
  exact ⟨happ, hcore.1.trans hspec.1, hcore.2.1.trans hspec.2.1, hcore.2.2.trans hspec.2.2⟩

/-- In the end-to-end contest problem `A` of team `A` holds a wrong answer followed
by an `Accepted` at 15: it is solved at 15 with one wrong attempt. -/
theorem ledger_replay_invariant_witness :
    Reachable contestBeforeFlush ∧
    contestBeforeFlush.teams "A" = some (contestBeforeFlush.team "A") ∧
    (contestBeforeFlush.team "A").problems 'A' =
      some ((contestBeforeFlush.team "A").problem 'A') ∧
    contestBeforeFlush.frozen = false ∧
    ((contestBeforeFlush.team "A").problem 'A').solved =
      ((contestBeforeFlush.team "A").problem 'A').submissions.any Submission.accepted ∧
    ((contestBeforeFlush.team "A").problem 'A').wrongAttempts = 1 ∧
    ((contestBeforeFlush.team "A").problem 'A').solveTime = 15 :=
  have h1 : contestBeforeFlush.teams "A" = some (contestBeforeFlush.team "A") :=
    teams_eq_some_team (by decide)
  have h2 : (contestBeforeFlush.team "A").problems 'A' =
      some ((contestBeforeFlush.team "A").problem 'A') :=
    problems_eq_some_problem (by decide)
  have key := (ledger_replay_invariant contestBeforeFlush reachable_contestBeforeFlush
    "A" _ 'A' _ h1 h2).2.2 (by decide)
  ⟨reachable_contestBeforeFlush, h1, h2, by decide, key.2.1, by decide, by decide⟩

/-! ## C16: what one pass of the loop selects and changes -/

theorem ranking_injective_of_ranked {s : ICPCSystem} (hrk : Ranked s) {a b : String}
    (ha : a ∈ s.teamNames) (hb : b ∈ s.teamNames)
    (hab : (s.team a).ranking = (s.team b).ranking) : a = b := by
  obtain ⟨i, hi, rfl⟩ := List.mem_iff_getElem.mp ha
  obtain ⟨j, hj, rfl⟩ := List.mem_iff_getElem.mp hb
  have h1 := hrk i hi
  have h2 := hrk j hj
  simp only [List.get_eq_getElem] at h1 h2
  simp only [h1, h2] at hab
  have : i = j := by omega
  subst this
  rfl

set_option maxRecDepth 100000 in
theorem letter_lt_letter :
    ∀ i < 26, ∀ j < 26, i < j → Char.ofNat (65 + i) < Char.ofNat (65 + j) := by
  decide

/-- The configured letters are listed in increasing order. -/
theorem letters_pairwise (pc : Int) (h : pc ≤ 26) : (letters pc).Pairwise (fun a b => a < b) := by
  unfold letters
  rw [List.pairwise_map]
  refine (List.pairwise_lt_range pc.toNat).imp_of_mem ?_
  intro i j hi hj hij
  rw [List.mem_range] at hi hj
  exact letter_lt_letter i (by omega) j (by omega) hij

theorem hasFrozen_iff (t : Team) (pc : Int) :
    hasFrozen t pc = true ↔
      ∃ q ∈ letters pc, (t.problem q).solved = false ∧ 0 < (t.problem q).frozenSubmissions := by
  unfold hasFrozen
  rw [List.any_eq_true]
  constructor
  · rintro ⟨q, hq, hp⟩
    exact ⟨q, hq, (pending_iff _).mp hp⟩
  · rintro ⟨q, hq, hp⟩
    exact ⟨q, hq, (pending_iff _).mpr hp⟩

/-- The revealed problem is the smallest pending letter of the team. -/
theorem smallestProblem_le (t : Team) (pc : Int) (hpc : pc ≤ 26) (q : Char)
    (hq : q ∈ letters pc) (hpend : (t.problem q).pending = true) :
    smallestProblem t pc ≤ q := by
  unfold smallestProblem
  cases hf : (letters pc).find? (fun p => (t.problem p).pending) with
  | none =>
    rw [List.find?_eq_none] at hf
    exact absurd hpend (hf q hq)
  | some p =>
    simp only [Option.getD_some]
    obtain ⟨-, as, bs, hsplit, has⟩ := List.find?_eq_some.mp hf
    have hpw := letters_pairwise pc hpc
    rw [hsplit] at hq hpw
    rcases List.mem_append.mp hq with h | h
    · have := has q h
      simp [hpend] at this
    · rcases List.mem_cons.mp h with h | h
      · rw [h]
      · have := (List.pairwise_cons.mp (List.pairwise_append.mp hpw).2.1).1 q h
        exact le_of_lt this

theorem updateRankings_team_problems {s : ICPCSystem} (hwf : WellFormed s) (n : String) :
    ((updateRankings s).team n).problems = (s.team n).problems := by
  cases hn : s.teams n with
  | none =>
    rw [team_of_none hn, team_of_none ((updateRankings_teams_of_wellFormed hwf n).1 hn)]
  | some t =>
    obtain ⟨r, -, -, h3⟩ := (updateRankings_teams_of_wellFormed hwf n).2 t hn
    rw [team_of_some hn, team_of_some h3]

/-- C16: in every pass of the loop of `scroll` called in a reachable state, the
revealed team is a roster team with a pending problem (unsolved, with frozen
submissions) whose ranking is the largest among such teams, and the only such team
with that ranking; the revealed problem is its smallest pending letter; after the
pass that status is the replay of its frozen tail and every other problem status of
every team is as before. -/
theorem scroll_reveals_lowest_team_smallest_problem (s₀ : ICPCSystem) (hr : Reachable s₀)
    (s s' : ICPCSystem) (out : List Message) (hl : LoopState s₀ s)
    (hs : scrollIteration s = some (s', out)) :
    s' = updateRankings (reveal s (findLowest s).2.1) ∧
    (findLowest s).2.1 ∈ s.teamNames ∧
    (∃ q ∈ letters s.problemCount, ((s.team (findLowest s).2.1).problem q).solved = false ∧
      0 < ((s.team (findLowest s).2.1).problem q).frozenSubmissions) ∧
    (∀ n ∈ s.teamNames,
      (∃ q ∈ letters s.problemCount, ((s.team n).problem q).solved = false ∧
        0 < ((s.team n).problem q).frozenSubmissions) →
      (s.team n).ranking ≤ (s.team (findLowest s).2.1).ranking ∧
      ((s.team n).ranking = (s.team (findLowest s).2.1).ranking → n = (findLowest s).2.1)) ∧
    smallestProblem (s.team (findLowest s).2.1) s.problemCount ∈ letters s.problemCount ∧
    ((s.team (findLowest s).2.1).problem
      (smallestProblem (s.team (findLowest s).2.1) s.problemCount)).solved = false ∧
    0 < ((s.team (findLowest s).2.1).problem
      (smallestProblem (s.team (findLowest s).2.1) s.problemCount)).frozenSubmissions ∧
    (∀ q ∈ letters s.problemCount, ((s.team (findLowest s).2.1).problem q).solved = false →
      0 < ((s.team (findLowest s).2.1).problem q).frozenSubmissions →
      smallestProblem (s.team (findLowest s).2.1) s.problemCount ≤ q) ∧
    (s'.team (findLowest s).2.1).problems
        (smallestProblem (s.team (findLowest s).2.1) s.problemCount) =
      some (unfreeze ((s.team (findLowest s).2.1).problem
        (smallestProblem (s.team (findLowest s).2.1) s.problemCount))) ∧
    (∀ n q, ¬ (n = (findLowest s).2.1 ∧
        q = smallestProblem (s.team (findLowest s).2.1) s.problemCount) →
      (s'.team n).problems q = (s.team n).problems q) := by
  have hwf₀ := wellFormed_of_reachable hr
  have hwf := wellFormed_of_loopState hwf₀ hl
  have hrk := ranked_of_loopState hwf₀ hl
  obtain ⟨hsel, hs'⟩ := scrollIteration_state hs
  obtain ⟨hmem, hfro, -, hmax⟩ := findLowest_spec s (rank_gt_of_wellFormed hwf) hsel
  obtain ⟨hp, hpend⟩ := smallestProblem_spec _ _ hfro
  have hprob : ∀ n, (s'.team n).problems = ((reveal s (findLowest s).2.1).team n).problems := by
    intro n
    rw [hs']
    exact updateRankings_team_problems (wellFormed_reveal hwf hmem hfro) n
  refine ⟨hs', hmem, (hasFrozen_iff _ _).mp hfro, ?_, hp, ((pending_iff _).mp hpend).1,
    ((pending_iff _).mp hpend).2, ?_, ?_, ?_⟩
  · intro n hn hq
    have hfn := (hasFrozen_iff _ _).mpr hq
    exact ⟨hmax n hn hfn, fun heq => ranking_injective_of_ranked hrk hn hmem heq⟩
  · intro q hq h1 h2
    exact smallestProblem_le _ _ hwf.count q hq ((pending_iff _).mpr ⟨h1, h2⟩)
  · rw [hprob, reveal_team, if_pos rfl]
    simp [Team.setProblem]
  · intro n q hne
    rw [hprob, reveal_team]
    split
    · rename_i hn
      subst hn
      have hq : q ≠ smallestProblem (s.team (findLowest s).2.1) s.problemCount :=
        fun hc => hne ⟨rfl, hc⟩
      simp only [Team.setProblem]
      exact Map.set_other _ _ hq
    · rfl

/-- The first pass of the loop on the frozen end-to-end contest. -/
theorem scrollIteration_frozenContest :
    scrollIteration (updateRankings frozenContest) =
      some (updateRankings (reveal (updateRankings frozenContest) "A"),
        [Message.rankChange "A" "B" 2 65]) := by
  unfold scrollIteration
  simp only [show (findLowest (updateRankings frozenContest)) = (true, "A", 2) by decide]
  have h1 : ((updateRankings (reveal (updateRankings frozenContest) "A")).team "A").ranking
      = 1 := by decide
  have h2 : ((updateRankings frozenContest).team "A").ranking = 2 := by decide
  have h3 : ((updateRankings (reveal (updateRankings frozenContest) "A")).team
      "A").solvedCount = 2 := by decide
  have h4 : ((updateRankings (reveal (updateRankings frozenContest) "A")).team
      "A").penaltyTime = 65 := by decide
  have h5 : (rankToTeam (reveal (updateRankings frozenContest) "A") 1).getD "" = "B" := by
    decide
  simp [h1, h2, h3, h4, h5]

/-- The only pass of the loop on the frozen end-to-end contest reveals problem `B`
of team `A`. -/
theorem scroll_reveals_lowest_team_smallest_problem_witness :
    Reachable frozenContest ∧ LoopState frozenContest (updateRankings frozenContest) ∧
    (∃ out, scrollIteration (updateRankings frozenContest) =
      some (updateRankings (reveal (updateRankings frozenContest) "A"), out)) ∧
    (findLowest (updateRankings frozenContest)).2.1 = "A" ∧
    smallestProblem ((updateRankings frozenContest).team "A")
      (updateRankings frozenContest).problemCount = 'B' ∧
    (findLowest (updateRankings frozenContest)).2.1 ∈ (updateRankings frozenContest).teamNames :=
  have hs : scrollIteration (updateRankings frozenContest) =
      some (updateRankings (reveal (updateRankings frozenContest) "A"),
        [Message.rankChange "A" "B" 2 65]) := scrollIteration_frozenContest
  ⟨reachable_frozenContest, LoopState.entry, ⟨_, hs⟩, by decide, by decide,
    (scroll_reveals_lowest_team_smallest_problem frozenContest reachable_frozenContest
      (updateRankings frozenContest) _ _ LoopState.entry hs).2.1⟩

/-! ## C17: the recompute is idempotent -/

theorem updateStats_eq_self (t : Team) (pc : Int)
    (hkeys : ∀ p, p ∈ letters pc → (t.problems p).isSome = true)
    (hsc : t.solvedCount = countSolved t pc) (hpen : t.penaltyTime = storedPenalty t pc) :
    t.updateStats pc = t := by
  have hk := updateStats_problems_of_keys t pc hkeys
  rw [updateStats_eq] at hk ⊢
  simp only at hk
  rw [hk, ← hsc, ← hpen]

theorem assignRankings_eq_self (i : Nat) (names : List String) (tm : String → Option Team)
    (hnd : names.Nodup)
    (h : ∀ j (hj : j < names.length),
      ∃ t, tm (names.get ⟨j, hj⟩) = some t ∧ t.ranking = (i : Int) + j + 1) :
    assignRankings i names tm = tm := by
  funext n
  by_cases hn : n ∈ names
  · obtain ⟨j, hj, rfl⟩ := List.mem_iff_getElem.mp hn
    have h1 := assignRankings_get i names tm hnd j hj
    obtain ⟨t, h2, h3⟩ := h j hj
    simp only [List.get_eq_getElem] at h1 h2
    rw [h1, h2]
    simp only [Option.getD_some, Option.some.injEq]
    rw [← h3]
  · exact assignRankings_not_mem _ _ _ _ hn

/-- The statistics of every stored team are current after the recompute. -/
theorem statsCurrent_updateRankings {s : ICPCSystem} (hwf : WellFormed s) :
    StatsCurrent (updateRankings s) := by
  intro n t' hn
  cases hs : s.teams n with
  | none =>
    rw [(updateRankings_teams_of_wellFormed hwf n).1 hs] at hn
    exact Option.noConfusion hn
  | some t =>
    obtain ⟨r, -, -, h3⟩ := (updateRankings_teams_of_wellFormed hwf n).2 t hs
    rw [h3] at hn
    cases hn
    simp only [updateStats_solvedCount, updateStats_penaltyTime, updateRankings_problemCount]
    exact ⟨countSolved_congr _ _ _ (fun p _ => rfl),
      storedPenalty_congr _ _ _ (fun p _ => rfl) (fun p _ _ => ⟨rfl, rfl⟩)⟩

/-- In a well-formed state whose stored statistics are current the refresh of the
statistics changes nothing. -/
theorem refreshStats_eq_self {s : ICPCSystem} (hwf : WellFormed s) (hc : StatsCurrent s) :
    refreshStats s = s := by
  have : (fun n => (s.teams n).map (fun t => t.updateStats s.problemCount)) = s.teams := by
    funext n
    cases hn : s.teams n with
    | none => rfl
    | some t =>
      simp only [Option.map_some', Option.some.injEq]
      have h := hc n t hn
      rw [updateStats_solvedCount, updateStats_penaltyTime] at h
      exact updateStats_eq_self t s.problemCount (fun p hp => (hwf.keys n t hn p).mpr hp) h.1 h.2
  unfold refreshStats
  rw [this]

/-- A well-formed, ranked state with current statistics and a roster ordered by the
comparator is a fixed point of the recompute. -/
theorem updateRankings_eq_self {s : ICPCSystem} (hwf : WellFormed s) (hc : StatsCurrent s)
    (hrk : Ranked s)
    (hsorted : s.teamNames.Pairwise (fun a b => compareTeams s a b = true)) :
    updateRankings s = s := by
  have hnames : sortWith (compareTeams s) s.teamNames = s.teamNames :=
    sortWith_of_pairwise _ _ hsorted
  have hteams : assignRankings 0 s.teamNames s.teams = s.teams := by
    apply assignRankings_eq_self 0 s.teamNames s.teams hwf.nodup
    intro j hj
    have hin := (hwf.roster (s.teamNames.get ⟨j, hj⟩)).mp (List.get_mem _ _ _)
    refine ⟨s.team (s.teamNames.get ⟨j, hj⟩), teams_eq_some_team hin, ?_⟩
    have := hrk j hj
    rw [this]
    push_cast
    ring
  unfold updateRankings
  simp only
  rw [refreshStats_eq_self hwf hc, hnames, hteams]

/-- C17: in a reachable state a second `updateRankings` changes nothing, so two
consecutive flushes leave the state of one; `updateRankings` keeps every absent team
absent, keeps the name and the problem statuses (with their submission lists) of
every stored team, permutes the roster, and keeps the flags, the problem count and
the submission counter. -/
theorem updateRankings_idempotent (s : ICPCSystem) (hr : Reachable s) :
    updateRankings (updateRankings s) = updateRankings s ∧
    (flush (flush s).1).1 = (flush s).1 ∧
    (∀ n, s.teams n = none → (updateRankings s).teams n = none) ∧
    (∀ n t, s.teams n = some t →
      ∃ t', (updateRankings s).teams n = some t' ∧ t'.name = t.name ∧
        t'.problems = t.problems) ∧
    (updateRankings s).teamNames.Perm s.teamNames ∧
    (updateRankings s).started = s.started ∧ (updateRankings s).frozen = s.frozen ∧
    (updateRankings s).durationTime = s.durationTime ∧
    (updateRankings s).problemCount = s.problemCount ∧
    (updateRankings s).freezeTime = s.freezeTime ∧
    (updateRankings s).nextSubmissionId = s.nextSubmissionId := by
  have hwf := wellFormed_of_reachable hr
  have hfix : updateRankings (updateRankings s) = updateRankings s :=
    updateRankings_eq_self (wellFormed_updateRankings hwf) (statsCurrent_updateRankings hwf)
      (updateRankings_ranked s hwf.nodup) (updateRankings_pairwise s hwf.nodup)
  refine ⟨hfix, hfix, fun n hn => (updateRankings_teams_of_wellFormed hwf n).1 hn, ?_,
    updateRankings_perm s, rfl, rfl, rfl, rfl, rfl, rfl⟩
  intro n t hn
  obtain ⟨r, -, -, h3⟩ := (updateRankings_teams_of_wellFormed hwf n).2 t hn
  exact ⟨_, h3, rfl, rfl⟩

/-- Two flushes of the end-to-end contest leave the state of one. -/
theorem updateRankings_idempotent_witness :
    Reachable contestBeforeFlush ∧
    updateRankings (updateRankings contestBeforeFlush) = updateRankings contestBeforeFlush ∧
    (updateRankings (updateRankings contestBeforeFlush)).teamNames = ["B", "A"] :=
  ⟨reachable_contestBeforeFlush,
    (updateRankings_idempotent contestBeforeFlush reachable_contestBeforeFlush).1,
    by decide⟩

/-! ## C18: the comparator in a state with current statistics -/

theorem statsCurrent_refreshStats (s : ICPCSystem) : StatsCurrent (refreshStats s) := by
  intro n t' hn
  cases hs : s.teams n with
  | none => simp [refreshStats, hs] at hn
  | some t =>
    simp only [refreshStats, hs, Option.map_some', Option.some.injEq] at hn
    subst hn
    simp only [updateStats_solvedCount, updateStats_penaltyTime]
    exact ⟨countSolved_congr _ _ _ (fun p _ => by rw [updateStats_problem]),
      storedPenalty_congr _ _ _ (fun p _ => by rw [updateStats_problem])
        (fun p _ _ => by rw [updateStats_problem]; exact ⟨rfl, rfl⟩)⟩

/-- C18: in a state in which the cached `solvedCount` and `penaltyTime` of every
team are the values `updateStats` computes (as in the state in which
`updateRankings` sorts), `compareTeams` is irreflexive, asymmetric, transitive and
total on distinct names; two teams with equal cached solved counts have descending
solve-time lists of the same length, so the loop over the shorter length compares
the whole lists, and it finds no difference only when the two lists are equal. -/
theorem compareTeams_order_of_current_stats (s : ICPCSystem) (h : StatsCurrent s) :
    (∀ a, compareTeams s a a = false) ∧
    (∀ a b, compareTeams s a b = true → compareTeams s b a = false) ∧
    (∀ a b c, compareTeams s a b = true → compareTeams s b c = true →
      compareTeams s a c = true) ∧
    (∀ a b, a ≠ b → compareTeams s a b = true ∨ compareTeams s b a = true) ∧
    (∀ a b, (s.team a).solvedCount = (s.team b).solvedCount →
      (sortDescending (solveTimes (s.team a) s.problemCount)).length =
        (sortDescending (solveTimes (s.team b) s.problemCount)).length ∧
      min (sortDescending (solveTimes (s.team a) s.problemCount)).length
        (sortDescending (solveTimes (s.team b) s.problemCount)).length =
        (sortDescending (solveTimes (s.team a) s.problemCount)).length ∧
      (firstDifference (sortDescending (solveTimes (s.team a) s.problemCount))
          (sortDescending (solveTimes (s.team b) s.problemCount)) = none ↔
        sortDescending (solveTimes (s.team a) s.problemCount) =
          sortDescending (solveTimes (s.team b) s.problemCount))) ∧
    (∀ s', StatsCurrent (refreshStats s')) := by
  have hc := CountsCurrent.of_statsCurrent h
  refine ⟨compareTeams_irrefl s, compareTeams_asymm s,
    fun a b c hab hbc => compareTeams_trans (hc a) (hc b) (hc c) hab hbc,
    compareTeams_total s, ?_, statsCurrent_refreshStats⟩
  intro a b hab
  have hlen : (sortDescending (solveTimes (s.team a) s.problemCount)).length =
      (sortDescending (solveTimes (s.team b) s.problemCount)).length := by
    rw [sortDescending_length, sortDescending_length]
    have ha := solveTimes_length (s.team a) s.problemCount
    have hb := solveTimes_length (s.team b) s.problemCount
    rw [← hc a] at ha
    rw [← hc b] at hb
    omega
  refine ⟨hlen, by rw [hlen, min_self], ?_⟩
  rw [firstDifference_of_length_eq _ _ hlen]
  by_cases heq : sortDescending (solveTimes (s.team a) s.problemCount) =
      sortDescending (solveTimes (s.team b) s.problemCount)
  · simp [heq]
  · simp [heq]

/-- The stale contest once its statistics are refreshed: the comparator is
transitive on `z`, `x`, `y` again. -/
theorem compareTeams_order_of_current_stats_witness :
    StatsCurrent (refreshStats staleContest) ∧
    compareTeams (refreshStats staleContest) "z" "x" = true ∧
    compareTeams (refreshStats staleContest) "x" "y" = true ∧
    compareTeams (refreshStats staleContest) "z" "y" = true :=
  ⟨statsCurrent_refreshStats staleContest, by decide, by decide,
    (compareTeams_order_of_current_stats (refreshStats staleContest)
      (statsCurrent_refreshStats staleContest)).2.2.1 "z" "x" "y" (by decide) (by decide)⟩

/-! ## The ranking keys before and after one reveal -/

theorem allCurrent_updateRankings (s : ICPCSystem) : AllCurrent (updateRankings s) := by
  intro a
  have h := updateRankings_team_fields s a
  rw [h.1, h.2.1]
  exact ⟨countSolved_congr _ _ _ (fun p _ => by rw [h.2.2.2 p]),
    storedPenalty_congr _ _ _ (fun p _ => by rw [h.2.2.2 p])
      (fun p _ _ => by rw [h.2.2.2 p]; exact ⟨rfl, rfl⟩)⟩

theorem allCurrent_of_loopState {s₀ s : ICPCSystem} (h : LoopState s₀ s) : AllCurrent s := by
  cases h with
  | entry => exact allCurrent_updateRankings s₀
  | pass hl hs =>
    obtain ⟨-, rfl⟩ := scrollIteration_state hs
    exact allCurrent_updateRankings _

theorem AllCurrent.counts {s : ICPCSystem} (h : AllCurrent s) : CountsCurrent s :=
  fun a => (h a).1

theorem rankKey_eq_of_fields (s s' : ICPCSystem) (a : String)
    (hsc : (s'.team a).solvedCount = (s.team a).solvedCount)
    (hpen : (s'.team a).penaltyTime = (s.team a).penaltyTime)
    (htimes : solveTimes (s'.team a) s'.problemCount = solveTimes (s.team a) s.problemCount) :
    rankKey s' a = rankKey s a := by
  unfold rankKey
  rw [hsc, hpen, htimes]

theorem rankKey_lt_of_more_solved (s s' : ICPCSystem) (a : String)
    (hsc : (s.team a).solvedCount < (s'.team a).solvedCount) : rankKey s' a < rankKey s a := by
  unfold rankKey
  rw [Prod.Lex.lt_iff]
  left
  exact OrderDual.toDual_lt_toDual.mpr hsc

theorem countP_lt_countP {α : Type} (l : List α) (f g : α → Bool)
    (hmono : ∀ x ∈ l, f x = true → g x = true)
    (hstrict : ∃ x ∈ l, f x = false ∧ g x = true) : l.countP f < l.countP g := by
  induction l with
  | nil =>
    obtain ⟨x, hx, -⟩ := hstrict
    simp at hx
  | cons a l ih =>
    have hle : l.countP f ≤ l.countP g :=
      List.countP_mono_left (fun x hx => hmono x (List.mem_cons_of_mem _ hx))
    obtain ⟨x, hx, hfx, hgx⟩ := hstrict
    rcases List.mem_cons.mp hx with rfl | hx
    · rw [List.countP_cons, List.countP_cons, hfx, hgx]
      simp only [Bool.false_eq_true, if_false, if_true]
      omega
    · have hlt := ih (fun y hy => hmono y (List.mem_cons_of_mem _ hy)) ⟨x, hx, hfx, hgx⟩
      rw [List.countP_cons, List.countP_cons]
      by_cases hfa : f a = true
      · rw [hfa, hmono a (List.mem_cons_self _ _) hfa]
        simp only [if_true]
        omega
      · simp only [hfa, Bool.false_eq_true, if_false]
        split <;> omega

/-- The statistics and solve times after the recompute of a state are those computed
from its problem statuses. -/
theorem updateRankings_key_fields (s : ICPCSystem) (a : String) :
    ((updateRankings s).team a).solvedCount = countSolved (s.team a) s.problemCount ∧
    ((updateRankings s).team a).penaltyTime = storedPenalty (s.team a) s.problemCount ∧
    solveTimes ((updateRankings s).team a) (updateRankings s).problemCount =
      solveTimes (s.team a) s.problemCount := by
  have h := updateRankings_team_fields s a
  exact ⟨h.1, h.2.1, solveTimes_congr _ _ _ (fun p _ => by rw [h.2.2.2 p])
    (fun p _ _ => by rw [h.2.2.2 p])⟩

/-- One reveal leaves the key of every other team as it was. -/
theorem rankKey_reveal_other {s : ICPCSystem} (hc : AllCurrent s) (m a : String)
    (ha : a ≠ m) : rankKey (updateRankings (reveal s m)) a = rankKey s a := by
  have h := updateRankings_key_fields (reveal s m) a
  have ht : (reveal s m).team a = s.team a := by rw [reveal_team, if_neg ha]
  rw [ht] at h
  have hpc : (reveal s m).problemCount = s.problemCount := rfl
  rw [hpc] at h
  exact rankKey_eq_of_fields s _ a (by rw [h.1, (hc a).1]) (by rw [h.2.1, (hc a).2]) h.2.2

/-- One reveal does not make the key of the revealed team worse. -/
theorem rankKey_reveal_self {s : ICPCSystem} (hc : AllCurrent s) (m : String)
    (hf : hasFrozen (s.team m) s.problemCount = true) :
    rankKey (updateRankings (reveal s m)) m ≤ rankKey s m := by
  obtain ⟨hp, hpend⟩ := smallestProblem_spec (s.team m) s.problemCount hf
  have hunsolved := ((pending_iff _).mp hpend).1
  have h := updateRankings_key_fields (reveal s m) m
  have ht : (reveal s m).team m =
      (s.team m).setProblem (smallestProblem (s.team m) s.problemCount)
        (unfreeze ((s.team m).problem (smallestProblem (s.team m) s.problemCount))) := by
    rw [reveal_team, if_pos rfl]
  have hpc : (reveal s m).problemCount = s.problemCount := rfl
  rw [ht, hpc] at h
  cases hu : (unfreeze ((s.team m).problem
      (smallestProblem (s.team m) s.problemCount))).solved with
  | false =>
    -- the problem stays unsolved: no solved status changes
    have hsolved : ∀ q, (((s.team m).setProblem (smallestProblem (s.team m) s.problemCount)
        (unfreeze ((s.team m).problem (smallestProblem (s.team m) s.problemCount)))).problem
          q).solved = ((s.team m).problem q).solved := by
      intro q
      rw [setProblem_problem]
      split
      · rename_i hq
        rw [hu, hq, hunsolved]
      · rfl
    have hsame : ∀ q, ((s.team m).problem q).solved = true →
        ((s.team m).setProblem (smallestProblem (s.team m) s.problemCount)
        (unfreeze ((s.team m).problem (smallestProblem (s.team m) s.problemCount)))).problem q =
          (s.team m).problem q := by
      intro q hq
      rw [setProblem_problem, if_neg]
      intro hc'
      rw [hc', hunsolved] at hq
      exact Bool.noConfusion hq
    apply le_of_eq
    refine rankKey_eq_of_fields s _ m ?_ ?_ ?_
    · rw [h.1, (hc m).1]
      exact countSolved_congr _ _ _ (fun q _ => hsolved q)
    · rw [h.2.1, (hc m).2]
      exact storedPenalty_congr _ _ _ (fun q _ => hsolved q)
        (fun q _ hq => by rw [hsolved] at hq; rw [hsame q hq]; exact ⟨rfl, rfl⟩)
    · rw [h.2.2]
      exact solveTimes_congr _ _ _ (fun q _ => hsolved q)
        (fun q _ hq => by rw [hsolved] at hq; rw [hsame q hq])
  | true =>
    -- the problem becomes solved: one more solved problem
    apply le_of_lt
    apply rankKey_lt_of_more_solved
    rw [h.1, (hc m).1]
    unfold countSolved
    have := countP_lt_countP (letters s.problemCount)
      (fun p => ((s.team m).problem p).solved)
      (fun p => (((s.team m).setProblem (smallestProblem (s.team m) s.problemCount)
        (unfreeze ((s.team m).problem (smallestProblem (s.team m) s.problemCount)))).problem
          p).solved)
      (by
        intro q _ hq
        beta_reduce at hq ⊢
        rw [setProblem_problem]
        split
        · exact hu
        · exact hq)
      ⟨_, hp, hunsolved, by beta_reduce; rw [setProblem_problem, if_pos rfl]; exact hu⟩
    exact_mod_cast this

/-! ## C20: one reveal is one upward move -/

/-- In a list ordered by an irreflexive, asymmetric relation the number of elements
that precede the element at index `i` is `i`. -/
theorem countP_before {α : Type} (lt : α → α → Bool) (l : List α)
    (hirr : ∀ a, lt a a = false) (hasymm : ∀ a b, lt a b = true → lt b a = false)
    (hpw : l.Pairwise (fun a b => lt a b = true)) (i : Nat) (hi : i < l.length) :
    l.countP (fun x => lt x (l.get ⟨i, hi⟩)) = i := by
  induction l generalizing i with
  | nil => simp at hi
  | cons a l ih =>
    have hp := List.pairwise_cons.mp hpw
    cases i with
    | zero =>
      simp only [List.get_eq_getElem, List.getElem_cons_zero, List.countP_cons, hirr,
        Bool.false_eq_true, if_false, add_zero]
      rw [List.countP_eq_zero]
      intro x hx
      simp [hasymm a x (hp.1 x hx)]
    | succ j =>
      have hj : j < l.length := by simpa using hi
      have := ih hp.2 j hj
      simp only [List.get_eq_getElem] at this
      simp only [List.get_eq_getElem, List.getElem_cons_succ, List.countP_cons,
        hp.1 _ (List.getElem_mem hj), if_true, this]

/-- Two predicates that agree away from one element of a duplicate-free list count
the same up to that element. -/
theorem countP_differ_at {α : Type} [DecidableEq α] (l : List α) (m : α) (f g : α → Bool)
    (hnd : l.Nodup) (hm : m ∈ l) (hagree : ∀ x ∈ l, x ≠ m → f x = g x) :
    (l.countP g : Int) = l.countP f + (if g m = true then 1 else 0) -
      (if f m = true then 1 else 0) := by
  induction l with
  | nil => simp at hm
  | cons a l ih =>
    have hn := List.nodup_cons.mp hnd
    rw [List.countP_cons, List.countP_cons]
    by_cases ham : a = m
    · subst ham
      have heq : l.countP f = l.countP g :=
        List.countP_congr (fun x hx => by
          have hne : x ≠ a := fun hc => hn.1 (hc ▸ hx)
          rw [hagree x (List.mem_cons_of_mem _ hx) hne])
      rw [heq]
      push_cast
      ring
    · have hml : m ∈ l := by
        rcases List.mem_cons.mp hm with h | h
        · exact absurd h.symm ham
        · exact h
      have := ih hn.2 hml (fun x hx hne => hagree x (List.mem_cons_of_mem _ hx) hne)
      rw [hagree a (List.mem_cons_self _ _) ham]
      push_cast
      rw [this]
      ring

/-- In a ranked state whose roster is ordered by the comparator the ranking of a
roster team is one more than the number of roster teams that precede it. -/
theorem ranking_eq_countP {s : ICPCSystem} (hrk : Ranked s)
    (hsorted : s.teamNames.Pairwise (fun a b => compareTeams s a b = true))
    (n : String) (hn : n ∈ s.teamNames) :
    (s.team n).ranking = (s.teamNames.countP (fun x => compareTeams s x n) : Int) + 1 := by
  obtain ⟨i, hi, rfl⟩ := List.mem_iff_getElem.mp hn
  have h1 := hrk i hi
  have h2 := countP_before (compareTeams s) s.teamNames (compareTeams_irrefl s)
    (compareTeams_asymm s) hsorted i hi
  simp only [List.get_eq_getElem] at h1 h2
  rw [h1, h2]

theorem sorted_of_loopState {s₀ s : ICPCSystem} (hwf : WellFormed s₀) (h : LoopState s₀ s) :
    s.teamNames.Pairwise (fun a b => compareTeams s a b = true) := by
  cases h with
  | entry => exact updateRankings_pairwise s₀ hwf.nodup
  | pass hl hs =>
    obtain ⟨-, rfl⟩ := scrollIteration_state hs
    exact updateRankings_pairwise _ (wellFormed_of_loopState hwf hl).nodup

/-- In a ranked state ordered by the comparator, with current solved counts, a
roster team precedes another exactly when its ranking is smaller. -/
theorem compareTeams_iff_ranking {s : ICPCSystem} (hrk : Ranked s)
    (hsorted : s.teamNames.Pairwise (fun a b => compareTeams s a b = true))
    {a b : String} (ha : a ∈ s.teamNames) (hb : b ∈ s.teamNames) :
    compareTeams s a b = true ↔ (s.team a).ranking < (s.team b).ranking := by
  obtain ⟨i, hi, rfl⟩ := List.mem_iff_getElem.mp ha
  obtain ⟨j, hj, rfl⟩ := List.mem_iff_getElem.mp hb
  have h1 := hrk i hi
  have h2 := hrk j hj
  simp only [List.get_eq_getElem] at h1 h2
  rw [h1, h2]
  have hpw := List.pairwise_iff_getElem.mp hsorted
  constructor
  · intro hc
    rcases Nat.lt_trichotomy i j with h | h | h
    · omega
    · subst h
      rw [compareTeams_irrefl] at hc
      exact Bool.noConfusion hc
    · have := compareTeams_asymm s _ _ (hpw j i hj hi h)
      rw [hc] at this
      exact Bool.noConfusion this
  · intro hlt
    exact hpw i j hi hj (by omega)

/-- C20: in every pass of the loop of `scroll` called in a reachable state the
ranking of the revealed team after the recompute is at most its ranking before the
reveal; every other roster team whose old ranking lies from the new ranking of the
revealed team up to, but excluding, its old ranking moves down by exactly one, and
every other roster team keeps its ranking; two other roster teams keep their order;
and when the revealed team moves up, the team found in the rank-to-team map at the
new ranking ends one below it. -/
theorem reveal_is_one_upward_move (s₀ : ICPCSystem) (hr : Reachable s₀) (s s' : ICPCSystem)
    (out : List Message) (hl : LoopState s₀ s) (hs : scrollIteration s = some (s', out)) :
    (s'.team (findLowest s).2.1).ranking ≤ (s.team (findLowest s).2.1).ranking ∧
    (∀ n ∈ s.teamNames, n ≠ (findLowest s).2.1 →
      ((s'.team (findLowest s).2.1).ranking ≤ (s.team n).ranking ∧
          (s.team n).ranking < (s.team (findLowest s).2.1).ranking →
        (s'.team n).ranking = (s.team n).ranking + 1) ∧
      (¬ ((s'.team (findLowest s).2.1).ranking ≤ (s.team n).ranking ∧
          (s.team n).ranking < (s.team (findLowest s).2.1).ranking) →
        (s'.team n).ranking = (s.team n).ranking)) ∧
    (∀ a ∈ s.teamNames, ∀ b ∈ s.teamNames, a ≠ (findLowest s).2.1 → b ≠ (findLowest s).2.1 →
      ((s'.team a).ranking < (s'.team b).ranking ↔ (s.team a).ranking < (s.team b).ranking)) ∧
    (∀ replaced,
      (s'.team (findLowest s).2.1).ranking < (s.team (findLowest s).2.1).ranking →
      rankToTeam (reveal s (findLowest s).2.1) (s'.team (findLowest s).2.1).ranking =
        some replaced →
      (s'.team replaced).ranking = (s'.team (findLowest s).2.1).ranking + 1) := by
  have hwf₀ := wellFormed_of_reachable hr
  have hwf := wellFormed_of_loopState hwf₀ hl
  have hl' : LoopState s₀ s' := LoopState.pass hl hs
  have hwf' := wellFormed_of_loopState hwf₀ hl'
  have hrk := ranked_of_loopState hwf₀ hl
  have hrk' := ranked_of_loopState hwf₀ hl'
  have hso := sorted_of_loopState hwf₀ hl
  have hso' := sorted_of_loopState hwf₀ hl'
  have hcur := allCurrent_of_loopState hl
  have hcc := hcur.counts
  have hcc' : CountsCurrent s' := (allCurrent_of_loopState hl').counts
  obtain ⟨hsel, hs'⟩ := scrollIteration_state hs
  obtain ⟨hmem, hfro, -, -⟩ := findLowest_spec s (rank_gt_of_wellFormed hwf) hsel
  have hperm : s'.teamNames.Perm s.teamNames := by
    rw [hs']
    exact updateRankings_perm _
  have hmem' : ∀ n, n ∈ s'.teamNames ↔ n ∈ s.teamNames := fun n => hperm.mem_iff
  -- the keys: unchanged for the other teams, not worse for the revealed one
  have hkey : ∀ a, a ≠ (findLowest s).2.1 → rankKey s' a = rankKey s a := by
    intro a ha
    rw [hs']
    exact rankKey_reveal_other hcur _ a ha
  have hkeym : rankKey s' (findLowest s).2.1 ≤ rankKey s (findLowest s).2.1 := by
    rw [hs']
    exact rankKey_reveal_self hcur _ hfro
  have hF1 : ∀ a b, a ≠ (findLowest s).2.1 → b ≠ (findLowest s).2.1 →
      compareTeams s' a b = compareTeams s a b := by
    intro a b ha hb
    rw [Bool.eq_iff_iff, compareTeams_iff_key (hcc' a) (hcc' b),
      compareTeams_iff_key (hcc a) (hcc b), hkey a ha, hkey b hb]
  have hF2 : ∀ b, b ≠ (findLowest s).2.1 → compareTeams s (findLowest s).2.1 b = true →
      compareTeams s' (findLowest s).2.1 b = true := by
    intro b hb hc
    rw [compareTeams_iff_key (hcc _) (hcc b)] at hc
    rw [compareTeams_iff_key (hcc' _) (hcc' b), hkey b hb]
    exact lt_of_le_of_lt hkeym hc
  have hF3 : ∀ b, b ≠ (findLowest s).2.1 → compareTeams s' b (findLowest s).2.1 = true →
      compareTeams s b (findLowest s).2.1 = true := by
    intro b hb hc
    rw [compareTeams_iff_key (hcc' b) (hcc' _), hkey b hb] at hc
    rw [compareTeams_iff_key (hcc b) (hcc _)]
    exact lt_of_lt_of_le hc hkeym
  -- rankings as counts over the old roster
  have hrank : ∀ n ∈ s.teamNames,
      (s.team n).ranking = (s.teamNames.countP (fun x => compareTeams s x n) : Int) + 1 :=
    fun n hn => ranking_eq_countP hrk hso n hn
  have hrank' : ∀ n ∈ s.teamNames,
      (s'.team n).ranking = (s.teamNames.countP (fun x => compareTeams s' x n) : Int) + 1 := by
    intro n hn
    rw [ranking_eq_countP hrk' hso' n ((hmem' n).mpr hn), hperm.countP_eq]
  have hup : (s'.team (findLowest s).2.1).ranking ≤ (s.team (findLowest s).2.1).ranking := by
    rw [hrank _ hmem, hrank' _ hmem]
    have : s.teamNames.countP (fun x => compareTeams s' x (findLowest s).2.1) ≤
        s.teamNames.countP (fun x => compareTeams s x (findLowest s).2.1) := by
      apply List.countP_mono_left
      intro x _ hx
      by_cases hxm : x = (findLowest s).2.1
      · rw [hxm, compareTeams_irrefl] at hx
        exact Bool.noConfusion hx
      · exact hF3 x hxm hx
    omega
  -- the ranking of another team changes by the passes of the revealed team
  have hdiff : ∀ n ∈ s.teamNames, n ≠ (findLowest s).2.1 →
      (s'.team n).ranking = (s.team n).ranking +
        (if compareTeams s' (findLowest s).2.1 n = true then 1 else 0) -
        (if compareTeams s (findLowest s).2.1 n = true then 1 else 0) := by
    intro n hn hne
    rw [hrank n hn, hrank' n hn]
    have := countP_differ_at s.teamNames (findLowest s).2.1
      (fun x => compareTeams s x n) (fun x => compareTeams s' x n) hwf.nodup hmem
      (fun x _ hx => (hF1 x n hx hne).symm)
    simp only at this
    rw [this]
    ring
  have hother : ∀ n ∈ s.teamNames, n ≠ (findLowest s).2.1 →
      ((s'.team (findLowest s).2.1).ranking ≤ (s.team n).ranking ∧
          (s.team n).ranking < (s.team (findLowest s).2.1).ranking →
        (s'.team n).ranking = (s.team n).ranking + 1) ∧
      (¬ ((s'.team (findLowest s).2.1).ranking ≤ (s.team n).ranking ∧
          (s.team n).ranking < (s.team (findLowest s).2.1).ranking) →
        (s'.team n).ranking = (s.team n).ranking) := by
    intro n hn hne
    have hd := hdiff n hn hne
    have hold := compareTeams_iff_ranking hrk hso hmem hn
    have hnew := compareTeams_iff_ranking hrk' hso' ((hmem' _).mpr hmem) ((hmem' n).mpr hn)
    have hold' := compareTeams_iff_ranking hrk hso hn hmem
    by_cases hc : compareTeams s (findLowest s).2.1 n = true
    · have hc' := hF2 n hne hc
      rw [if_pos hc, if_pos hc'] at hd
      have h1 := hold.mp hc
      constructor
      · intro hint
        omega
      · intro _
        omega
    · have hnm : compareTeams s n (findLowest s).2.1 = true := by
        rcases compareTeams_total s n _ hne with h | h
        · exact h
        · exact absurd h hc
      have h1 := hold'.mp hnm
      by_cases hc' : compareTeams s' (findLowest s).2.1 n = true
      · rw [if_neg hc, if_pos hc'] at hd
        have h2 := hnew.mp hc'
        constructor
        · intro _
          omega
        · intro hint
          exfalso
          apply hint
          constructor <;> omega
      · rw [if_neg hc, if_neg hc'] at hd
        have hnm' : compareTeams s' n (findLowest s).2.1 = true := by
          rcases compareTeams_total s' n _ hne with h | h
          · exact h
          · exact absurd h hc'
        have h2 := (compareTeams_iff_ranking hrk' hso' ((hmem' n).mpr hn)
          ((hmem' _).mpr hmem)).mp hnm'
        constructor
        · intro hint
          omega
        · intro _
          omega
  refine ⟨hup, hother, ?_, ?_⟩
  · intro a ha b hb hane hbne
    rw [← compareTeams_iff_ranking hrk' hso' ((hmem' a).mpr ha) ((hmem' b).mpr hb),
      ← compareTeams_iff_ranking hrk hso ha hb, hF1 a b hane hbne]
  · intro replaced hlt hr2t
    -- the new ranking is a position of the roster; its old holder is the replaced team
    have hpos : 1 ≤ (s'.team (findLowest s).2.1).ranking := by
      rw [hrank' _ hmem]
      omega
    have hi : ((s'.team (findLowest s).2.1).ranking - 1).toNat < s.teamNames.length := by
      have hle : (s.team (findLowest s).2.1).ranking ≤ s.teamNames.length := by
        obtain ⟨i, hi, hget⟩ := List.mem_iff_getElem.mp hmem
        have := hrk i hi
        simp only [List.get_eq_getElem] at this
        rw [← hget, this]
        omega
      omega
    have hold : (s.team (s.teamNames.get ⟨_, hi⟩)).ranking =
        (s'.team (findLowest s).2.1).ranking := by
      rw [hrk _ hi]
      omega
    have hfound : rankToTeam (reveal s (findLowest s).2.1)
        (s'.team (findLowest s).2.1).ranking = some (s.teamNames.get ⟨_, hi⟩) := by
      have h := rankToTeam_of_ranked hwf.nodup hrk _ (List.get_mem s.teamNames _ hi)
      rw [hold] at h
      rw [rankToTeam_congr s (reveal s (findLowest s).2.1) rfl (reveal_ranking s _)]
      exact h
    rw [hfound] at hr2t
    have hrep : s.teamNames.get ⟨_, hi⟩ = replaced := Option.some.inj hr2t
    rw [← hrep]
    have hne : s.teamNames.get ⟨_, hi⟩ ≠ (findLowest s).2.1 := by
      intro hc
      rw [hc] at hold
      omega
    have := (hother _ (List.get_mem _ _ _) hne).1 ⟨by rw [hold], by rw [hold]; exact hlt⟩
    rw [this, hold]

/-- In the only pass of the loop on the frozen end-to-end contest team `A` moves
from ranking 2 to ranking 1 and team `B` moves from 1 to 2. -/
theorem reveal_is_one_upward_move_witness :
    Reachable frozenContest ∧ LoopState frozenContest (updateRankings frozenContest) ∧
    (findLowest (updateRankings frozenContest)).2.1 = "A" ∧
    ((updateRankings (reveal (updateRankings frozenContest) "A")).team "A").ranking = 1 ∧
    ((updateRankings frozenContest).team "A").ranking = 2 ∧
    ((updateRankings (reveal (updateRankings frozenContest) "A")).team
        (findLowest (updateRankings frozenContest)).2.1).ranking ≤
      ((updateRankings frozenContest).team
        (findLowest (updateRankings frozenContest)).2.1).ranking :=
  ⟨reachable_frozenContest, LoopState.entry, by decide, by decide, by decide,
    (reveal_is_one_upward_move frozenContest reachable_frozenContest
      (updateRankings frozenContest) _ _ LoopState.entry scrollIteration_frozenContest).1⟩

/-! ## States that hold the same ledger -/

theorem Agree.self (a : ICPCSystem) : Agree a a :=
  ⟨List.Perm.refl _, rfl, rfl, rfl, rfl, rfl, fun _ => rfl, fun _ => rfl, fun _ _ => rfl,
    fun _ _ => ⟨rfl, rfl⟩⟩

theorem Agree.symm {a b : ICPCSystem} (h : Agree a b) : Agree b a :=
  ⟨h.roster.symm, h.problemCount.symm, h.started.symm, h.durationTime.symm, h.freezeTime.symm,
    h.nextSubmissionId.symm, fun n => (h.stored n).symm, fun n => (h.name n).symm,
    fun n p => (h.keys n p).symm, fun n p => ⟨(h.ledger n p).1.symm, (h.ledger n p).2.symm⟩⟩

theorem Agree.chain {a b c : ICPCSystem} (h : Agree a b) (h' : Agree b c) : Agree a c :=
  ⟨h.roster.trans h'.roster, h.problemCount.trans h'.problemCount, h.started.trans h'.started,
    h.durationTime.trans h'.durationTime, h.freezeTime.trans h'.freezeTime,
    h.nextSubmissionId.trans h'.nextSubmissionId, fun n => (h.stored n).trans (h'.stored n),
    fun n => (h.name n).trans (h'.name n), fun n p => (h.keys n p).trans (h'.keys n p),
    fun n p => ⟨(h.ledger n p).1.trans (h'.ledger n p).1,
      (h.ledger n p).2.trans (h'.ledger n p).2⟩⟩

theorem agree_updateRankings {a : ICPCSystem} (hwf : WellFormed a) :
    Agree (updateRankings a) a := by
  refine ⟨updateRankings_perm a, rfl, rfl, rfl, rfl, rfl, ?_, ?_, ?_, ?_⟩
  · intro n
    cases hn : a.teams n with
    | none => rw [(updateRankings_teams_of_wellFormed hwf n).1 hn]
    | some t =>
      obtain ⟨r, -, -, h3⟩ := (updateRankings_teams_of_wellFormed hwf n).2 t hn
      rw [h3]
      rfl
  · intro n
    exact (updateRankings_team_fields a n).2.2.1
  · intro n p
    rw [updateRankings_team_problems hwf n]
  · intro n p
    rw [(updateRankings_team_fields a n).2.2.2 p]
    exact ⟨rfl, rfl⟩

theorem apply_frozenWrongAttempts (ps : ProblemStatus) (status : String) (time : Int) :
    (ps.apply status time).frozenWrongAttempts = ps.frozenWrongAttempts := by
  unfold ProblemStatus.apply
  split
  · split <;> rfl
  · rfl

theorem foldl_apply_frozenWrongAttempts (l : List Submission) (ps : ProblemStatus) :
    (l.foldl (fun acc sub => acc.apply sub.status sub.time) ps).frozenWrongAttempts =
      ps.frozenWrongAttempts := by
  induction l generalizing ps with
  | nil => rfl
  | cons x l ih => rw [List.foldl_cons, ih, apply_frozenWrongAttempts]

theorem unfreeze_frozenWrongAttempts (ps : ProblemStatus) :
    (unfreeze ps).frozenWrongAttempts = ps.frozenWrongAttempts := by
  simp [unfreeze, foldl_apply_frozenWrongAttempts]

theorem record_frozenWrongAttempts (ps : ProblemStatus) (frozen : Bool) (sub : Submission) :
    (ps.record frozen sub).frozenWrongAttempts = ps.frozenWrongAttempts := by
  cases frozen with
  | false => rw [record_not_frozen, apply_frozenWrongAttempts]
  | true =>
    cases hs : ps.solved with
    | true => rw [record_solved _ _ _ hs]
    | false => rw [record_frozen_unsolved _ _ hs]

/-- Replacing the status of a stored letter of a stored team by one with the same
submissions leaves the ledger as it was. -/
theorem agree_setProblem {a a' : ICPCSystem} {n : String} {p : Char} {ps' : ProblemStatus}
    (hn : (a.teams n).isSome = true) (hp : ((a.team n).problems p).isSome = true)
    (hteams : a'.teams = Map.set a.teams n ((a.team n).setProblem p ps'))
    (hnames : a'.teamNames = a.teamNames) (hpc : a'.problemCount = a.problemCount)
    (hst : a'.started = a.started) (hdur : a'.durationTime = a.durationTime)
    (hft : a'.freezeTime = a.freezeTime) (hid : a'.nextSubmissionId = a.nextSubmissionId)
    (hsub : ps'.submissions = ((a.team n).problem p).submissions)
    (hfw : ps'.frozenWrongAttempts = ((a.team n).problem p).frozenWrongAttempts) :
    Agree a' a := by
  have hteam : ∀ m, a'.team m = if m = n then (a.team n).setProblem p ps' else a.team m := by
    intro m
    simp only [ICPCSystem.team, hteams, Map.set_apply]
    split <;> rfl
  refine ⟨hnames ▸ List.Perm.refl _, hpc, hst, hdur, hft, hid, ?_, ?_, ?_, ?_⟩
  · intro m
    rw [hteams, Map.set_apply]
    split
    · rename_i hm
      rw [hm, hn]
      rfl
    · rfl
  · intro m
    rw [hteam]
    split
    · rename_i hm
      rw [hm]
      rfl
    · rfl
  · intro m q
    rw [hteam]
    split
    · rename_i hm
      rw [hm]
      simp only [Team.setProblem, Map.set_apply]
      split
      · rename_i hq
        rw [hq, hp]
        rfl
      · rfl
    · rfl
  · intro m q
    rw [hteam]
    split
    · rename_i hm
      rw [hm, setProblem_problem]
      split
      · rename_i hq
        rw [hq]
        exact ⟨hsub, hfw⟩
      · exact ⟨rfl, rfl⟩
    · exact ⟨rfl, rfl⟩

theorem agree_reveal {a : ICPCSystem} (hwf : WellFormed a) {n : String}
    (hn : n ∈ a.teamNames) (hf : hasFrozen (a.team n) a.problemCount = true) :
    Agree (reveal a n) a := by
  have hsome := (hwf.roster n).mp hn
  obtain ⟨hp, -⟩ := smallestProblem_spec (a.team n) a.problemCount hf
  have hkey : ((a.team n).problems (smallestProblem (a.team n) a.problemCount)).isSome = true :=
    (hwf.keys n _ (teams_eq_some_team hsome) _).mpr hp
  exact agree_setProblem hsome hkey rfl rfl rfl rfl rfl rfl rfl (unfreeze_submissions _)
    (unfreeze_frozenWrongAttempts _)

theorem agree_scrollIteration {a a' : ICPCSystem} {out : List Message} (hwf : WellFormed a)
    (hs : scrollIteration a = some (a', out)) : Agree a' a := by
  obtain ⟨hsel, rfl⟩ := scrollIteration_state hs
  obtain ⟨h1, h2, -, -⟩ := findLowest_spec a (rank_gt_of_wellFormed hwf) hsel
  exact (agree_updateRankings (wellFormed_reveal hwf h1 h2)).chain (agree_reveal hwf h1 h2)

theorem agree_of_loopState {a₀ a : ICPCSystem} (hwf : WellFormed a₀) (h : LoopState a₀ a) :
    Agree a a₀ := by
  induction h with
  | entry => exact agree_updateRankings hwf
  | pass hl hs ih => exact (agree_scrollIteration (wellFormed_of_loopState hwf hl) hs).chain ih

/-- The state in which the loop of `scroll` stops is one of its loop-head states. -/
theorem loopState_of_scrollLoop {a₀ : ICPCSystem} (fuel : Nat) (a : ICPCSystem)
    (r : ICPCSystem × List Message × Nat) (h : LoopState a₀ a)
    (hr : scrollLoop fuel a = some r) : LoopState a₀ r.1 := by
  induction fuel generalizing a r with
  | zero => simp [scrollLoop] at hr
  | succ fuel ih =>
    simp only [scrollLoop] at hr
    cases hi : scrollIteration a with
    | none =>
      simp only [hi, Option.some.injEq] at hr
      subst hr
      exact h
    | some r1 =>
      obtain ⟨a1, out1⟩ := r1
      simp only [hi, Option.map_eq_some'] at hr
      obtain ⟨r2, hr2, rfl⟩ := hr
      exact ih a1 r2 (LoopState.pass h hi) hr2

/-- The same submission recorded in two states that hold the same ledger. -/
theorem agree_submit {a b : ICPCSystem} (h : Agree a b) (problem : Char)
    (teamName status : String) (time : Int) (hn : (a.teams teamName).isSome = true) :
    Agree (submit a problem teamName status time) (submit b problem teamName status time) := by
  have hnb : (b.teams teamName).isSome = true := by rw [← h.stored]; exact hn
  have hta := submit_team (teams_eq_some_team hn) problem status time
  have htb := submit_team (teams_eq_some_team hnb) problem status time
  have hfa := submit_frame (teams_eq_some_team hn) problem status time
  have hfb := submit_frame (teams_eq_some_team hnb) problem status time
  refine ⟨?_, h.problemCount, h.started, h.durationTime, h.freezeTime, ?_, ?_, ?_, ?_, ?_⟩
  · rw [hfa.2.2.2.1, hfb.2.2.2.1]
    exact h.roster
  · rw [hfa.2.2.1, hfb.2.2.1, h.nextSubmissionId]
  · intro m
    by_cases hm : m = teamName
    · rw [hm, hfa.1, hfb.1]
      rfl
    · rw [hfa.2.1 m hm, hfb.2.1 m hm]
      exact h.stored m
  · intro m
    rw [hta, htb]
    split
    · exact h.name teamName
    · exact h.name m
  · intro m q
    rw [hta, htb]
    split
    · simp only [Team.setProblem, Map.set_apply]
      split
      · rfl
      · exact h.keys teamName q
    · exact h.keys m q
  · intro m q
    rw [hta, htb]
    split
    · rw [setProblem_problem, setProblem_problem]
      split
      · rw [record_submissions, record_submissions, record_frozenWrongAttempts,
          record_frozenWrongAttempts, h.nextSubmissionId]
        rename_i hq
        have := h.ledger teamName problem
        rw [this.1, this.2]
        exact ⟨rfl, rfl⟩
      · exact h.ledger teamName q
    · exact h.ledger m q

/-! ## C19: freeze, submit, scroll against submit, flush -/

/-- Two lists ordered by the comparator of a state that are permutations of each
other are equal. -/
theorem eq_of_perm_of_pairwise (s : ICPCSystem) {l₁ l₂ : List String} (hp : l₁.Perm l₂)
    (h₁ : l₁.Pairwise (fun a b => compareTeams s a b = true))
    (h₂ : l₂.Pairwise (fun a b => compareTeams s a b = true)) : l₁ = l₂ := by
  haveI : IsAntisymm String (fun a b => compareTeams s a b = true) :=
    ⟨fun a b hab hba => by
      have := compareTeams_asymm s a b hab
      rw [hba] at this
      exact Bool.noConfusion this⟩
  exact List.eq_of_perm_of_sorted hp h₁ h₂

theorem submitAll_cons (s : ICPCSystem) (x : Char × String × String × Int)
    (L : List (Char × String × String × Int)) :
    submitAll s (x :: L) = submitAll (submit s x.1 x.2.1 x.2.2.1 x.2.2.2) L := rfl

theorem submit_isSome {s : ICPCSystem} {teamName : String}
    (hn : (s.teams teamName).isSome = true) (problem : Char) (status : String) (time : Int)
    (m : String) :
    ((submit s problem teamName status time).teams m).isSome = (s.teams m).isSome := by
  have hf := submit_frame (teams_eq_some_team hn) problem status time
  by_cases hm : m = teamName
  · rw [hm, hf.1, hn]
    rfl
  · rw [hf.2.1 m hm]

/-- A list of valid submissions leads from a reachable started state to a reachable
state with the same frozen flag. -/
theorem reachable_submitAll (s : ICPCSystem) (hr : Reachable s) (hst : s.started = true)
    (L : List (Char × String × String × Int))
    (hL : ∀ x ∈ L, (s.teams x.2.1).isSome = true ∧ x.1 ∈ letters s.problemCount) :
    Reachable (submitAll s L) ∧ (submitAll s L).frozen = s.frozen := by
  induction L generalizing s with
  | nil => exact ⟨hr, rfl⟩
  | cons x L ih =>
    have hx := hL x (List.mem_cons_self _ _)
    rw [submitAll_cons]
    have hr' : Reachable (submit s x.1 x.2.1 x.2.2.1 x.2.2.2) :=
      hr.submit x.1 x.2.1 x.2.2.1 x.2.2.2 ⟨hst, hx.1, hx.2⟩
    have := ih (submit s x.1 x.2.1 x.2.2.1 x.2.2.2) hr' hst (by
      intro y hy
      have hy' := hL y (List.mem_cons_of_mem _ hy)
      exact ⟨by rw [submit_isSome hx.1]; exact hy'.1, hy'.2⟩)
    exact ⟨this.1, this.2⟩

theorem agree_submitAll (a b : ICPCSystem) (h : Agree a b)
    (L : List (Char × String × String × Int))
    (hL : ∀ x ∈ L, (a.teams x.2.1).isSome = true) :
    Agree (submitAll a L) (submitAll b L) := by
  induction L generalizing a b with
  | nil => exact h
  | cons x L ih =>
    have hx := hL x (List.mem_cons_self _ _)
    rw [submitAll_cons, submitAll_cons]
    refine ih _ _ (agree_submit h x.1 x.2.1 x.2.2.1 x.2.2.2 hx) ?_
    intro y hy
    rw [submit_isSome hx]
    exact hL y (List.mem_cons_of_mem _ hy)

/-- A stored status of a reachable state that is not frozen is determined by its
submission list and its `frozenWrongAttempts`. -/
theorem status_eq_of_ledger {A B : ICPCSystem} (hA : Reachable A) (hB : Reachable B)
    (hfA : A.frozen = false) (hfB : B.frozen = false) {n m : String} {tA tB : Team}
    {p q : Char} {psA psB : ProblemStatus}
    (hnA : A.teams n = some tA) (hpA : tA.problems p = some psA)
    (hnB : B.teams m = some tB) (hpB : tB.problems q = some psB)
    (hsub : psA.submissions = psB.submissions)
    (hfw : psA.frozenWrongAttempts = psB.frozenWrongAttempts) : psA = psB := by
  have hzA := (stored_facts (wellFormed_of_reachable hA) hnA hpA).2.2.1 hfA
  have hzB := (stored_facts (wellFormed_of_reachable hB) hnB hpB).2.2.1 hfB
  have hrA : psA.core = (replay psA.applied).core := replayed_of_reachable hA n tA p psA hnA hpA
  have hrB : psB.core = (replay psB.applied).core := replayed_of_reachable hB m tB q psB hnB hpB
  rw [applied_of_no_pending _ hzA, hsub] at hrA
  rw [applied_of_no_pending _ hzB] at hrB
  have hcore : psA.core = psB.core := hrA.trans hrB.symm
  simp only [ProblemStatus.core, Prod.mk.injEq] at hcore
  cases psA
  cases psB
  simp only at hcore hsub hfw hzA hzB
  simp only [ProblemStatus.mk.injEq]
  exact ⟨hcore.1, hcore.2.1, hcore.2.2, hzA.trans hzB.symm, hfw, hsub⟩

/-- Two reachable states that are not frozen, hold the same ledger and are both
ranked, ordered by the comparator and with current statistics, are equal. -/
theorem eq_of_agree {A B : ICPCSystem} (hA : Reachable A) (hB : Reachable B)
    (hfA : A.frozen = false) (hfB : B.frozen = false) (hag : Agree A B)
    (hcA : AllCurrent A) (hcB : AllCurrent B) (hrA : Ranked A) (hrB : Ranked B)
    (hsA : A.teamNames.Pairwise (fun a b => compareTeams A a b = true))
    (hsB : B.teamNames.Pairwise (fun a b => compareTeams B a b = true)) : A = B := by
  have hwA := wellFormed_of_reachable hA
  have hwB := wellFormed_of_reachable hB
  have hstoredA : ∀ n p ps, (A.team n).problems p = some ps → A.teams n = some (A.team n) := by
    intro n p ps hp
    cases hn : A.teams n with
    | none => rw [team_of_none hn] at hp; simp [Team.empty] at hp
    | some t => rw [team_of_some hn]
  have hstoredB : ∀ n p ps, (B.team n).problems p = some ps → B.teams n = some (B.team n) := by
    intro n p ps hp
    cases hn : B.teams n with
    | none => rw [team_of_none hn] at hp; simp [Team.empty] at hp
    | some t => rw [team_of_some hn]
  have hprob : ∀ n p, (A.team n).problems p = (B.team n).problems p := by
    intro n p
    have hk := hag.keys n p
    cases hpa : (A.team n).problems p with
    | none =>
      cases hpb : (B.team n).problems p with
      | none => rfl
      | some psB => rw [hpa, hpb] at hk; exact Bool.noConfusion hk
    | some psA =>
      cases hpb : (B.team n).problems p with
      | none => rw [hpa, hpb] at hk; exact Bool.noConfusion hk
      | some psB =>
        have hl := hag.ledger n p
        rw [problem_of_some hpa, problem_of_some hpb] at hl
        rw [status_eq_of_ledger hA hB hfA hfB (hstoredA n p psA hpa) hpa
          (hstoredB n p psB hpb) hpb hl.1 hl.2]
  have hview : ∀ n p, (A.team n).problem p = (B.team n).problem p := by
    intro n p
    simp only [Team.problem, hprob n p]
  have hsc : ∀ n, (A.team n).solvedCount = (B.team n).solvedCount := by
    intro n
    rw [(hcA n).1, (hcB n).1, hag.problemCount]
    exact countSolved_congr _ _ _ (fun p _ => by rw [hview])
  have hpen : ∀ n, (A.team n).penaltyTime = (B.team n).penaltyTime := by
    intro n
    rw [(hcA n).2, (hcB n).2, hag.problemCount]
    exact storedPenalty_congr _ _ _ (fun p _ => by rw [hview])
      (fun p _ _ => by rw [hview]; exact ⟨rfl, rfl⟩)
  have hcmp : compareTeams A = compareTeams B :=
    compareTeams_congr A B hag.problemCount
      (fun a => ⟨hsc a, hpen a, fun p _ => by rw [hview]; exact ⟨rfl, fun _ => rfl⟩⟩)
  have hroster : A.teamNames = B.teamNames := by
    rw [hcmp] at hsA
    exact eq_of_perm_of_pairwise B hag.roster hsA hsB
  have hrank : ∀ n ∈ A.teamNames, (A.team n).ranking = (B.team n).ranking := by
    intro n hn
    obtain ⟨i, hi, rfl⟩ := List.mem_iff_getElem.mp hn
    have h1 := hrA i hi
    have h2 := hrB i (by rw [← hroster]; exact hi)
    simp only [List.get_eq_getElem] at h1 h2
    rw [h1]
    simp only [hroster]
    rw [h2]
  have hteams : A.teams = B.teams := by
    funext n
    have hst := hag.stored n
    cases hna : A.teams n with
    | none =>
      cases hnb : B.teams n with
      | none => rfl
      | some tB => rw [hna, hnb] at hst; exact Bool.noConfusion hst
    | some tA =>
      cases hnb : B.teams n with
      | none => rw [hna, hnb] at hst; exact Bool.noConfusion hst
      | some tB =>
        have hin : n ∈ A.teamNames := (hwA.roster n).mpr (by rw [hna]; rfl)
        have h1 := hag.name n
        have h2 := hsc n
        have h3 := hpen n
        have h4 := hrank n hin
        have h5 : (A.team n).problems = (B.team n).problems := funext (hprob n)
        rw [team_of_some hna, team_of_some hnb] at h1 h2 h3 h4 h5
        cases tA
        cases tB
        simp only at h1 h2 h3 h4 h5
        simp only [Option.some.injEq, Team.mk.injEq]
        exact ⟨h1, h5, h2, h3, h4⟩
  have h1 := hag.started
  have h2 := hag.durationTime
  have h3 := hag.problemCount
  have h4 := hag.freezeTime
  have h5 := hag.nextSubmissionId
  cases A
  cases B
  simp only at hteams hroster hfA hfB h1 h2 h3 h4 h5
  simp only [ICPCSystem.mk.injEq]
  exact ⟨hteams, hroster, h1, hfA.trans hfB.symm, h2, h3, h4, h5⟩

/-- C19: from a reachable, started, not frozen state, `freeze`, a list of valid
submissions, then `scroll` ends in the same state as the same submissions followed
by `flush`; with more fuel than pending submissions the `scroll` does return; and
the state it returns is a fixed point of `updateRankings`. -/
theorem freeze_scroll_is_transparent (s : ICPCSystem) (hr : Reachable s)
    (hst : s.started = true) (hnf : s.frozen = false)
    (L : List (Char × String × String × Int))
    (hL : ∀ x ∈ L, (s.teams x.2.1).isSome = true ∧ x.1 ∈ letters s.problemCount) :
    (∀ fuel s' out, scroll fuel (submitAll (freeze s).1 L) = some (s', out) →
      s' = (flush (submitAll s L)).1 ∧ updateRankings s' = s') ∧
    (∀ fuel, totalPending (submitAll (freeze s).1 L) < fuel →
      ∃ s' out, scroll fuel (submitAll (freeze s).1 L) = some (s', out)) := by
  have hfz : (freeze s).1.frozen = true := by simp [freeze, hnf]
  have hfzteams : (freeze s).1.teams = s.teams := by simp [freeze, hnf]
  have hfzpc : (freeze s).1.problemCount = s.problemCount := by simp [freeze, hnf]
  have hfzst : (freeze s).1.started = true := by simp [freeze, hnf, hst]
  have hagz : Agree (freeze s).1 s := by
    have : (freeze s).1 = { s with frozen := true } := by simp [freeze, hnf]
    rw [this]
    exact ⟨List.Perm.refl _, rfl, rfl, rfl, rfl, rfl, fun _ => rfl, fun _ => rfl,
      fun _ _ => rfl, fun _ _ => ⟨rfl, rfl⟩⟩
  have hLz : ∀ x ∈ L, ((freeze s).1.teams x.2.1).isSome = true ∧
      x.1 ∈ letters (freeze s).1.problemCount := by
    intro x hx
    rw [hfzteams, hfzpc]
    exact hL x hx
  obtain ⟨hrA, hfA⟩ := reachable_submitAll (freeze s).1 hr.freeze hfzst L hLz
  obtain ⟨hrB, hfB⟩ := reachable_submitAll s hr hst L hL
  rw [hfz] at hfA
  rw [hnf] at hfB
  have hagL : Agree (submitAll (freeze s).1 L) (submitAll s L) :=
    agree_submitAll _ _ hagz L (fun x hx => (hLz x hx).1)
  have hwA := wellFormed_of_reachable hrA
  have hwB := wellFormed_of_reachable hrB
  constructor
  · intro fuel s' out hs
    have hreach : Reachable s' :=
      @Reachable.step _ s' Op.scroll fuel out hrA trivial hs
    have hs0 := hs
    simp only [scroll, hfA, Bool.not_true, Bool.false_eq_true, if_false,
      Option.map_eq_some'] at hs
    obtain ⟨r, hloop, hs⟩ := hs
    have hs' : s' = { r.1 with frozen := false } := (congrArg Prod.fst hs).symm
    have hl : LoopState (submitAll (freeze s).1 L) r.1 :=
      loopState_of_scrollLoop fuel _ r LoopState.entry hloop
    have hagr : Agree s' (submitAll (freeze s).1 L) := by
      have := agree_of_loopState hwA hl
      rw [hs']
      exact ⟨this.roster, this.problemCount, this.started, this.durationTime, this.freezeTime,
        this.nextSubmissionId, this.stored, this.name, this.keys, this.ledger⟩
    have hcur : AllCurrent s' := by
      have := allCurrent_of_loopState hl
      rw [hs']
      exact this
    have hrk : Ranked s' := by
      have := ranked_of_loopState hwA hl
      rw [hs']
      exact this
    have hso : s'.teamNames.Pairwise (fun a b => compareTeams s' a b = true) := by
      have := sorted_of_loopState hwA hl
      rw [hs']
      exact this
    have hfr : s'.frozen = false := by rw [hs']
    have heq : s' = updateRankings (submitAll s L) :=
      eq_of_agree hreach hrB.flush hfr hfB
        ((hagr.chain hagL).chain (agree_updateRankings hwB).symm) hcur
        (allCurrent_updateRankings _) hrk (updateRankings_ranked _ hwB.nodup) hso
        (updateRankings_pairwise _ hwB.nodup)
    refine ⟨heq, ?_⟩
    rw [heq]
    exact updateRankings_eq_self (wellFormed_updateRankings hwB)
      (statsCurrent_updateRankings hwB) (updateRankings_ranked _ hwB.nodup)
      (updateRankings_pairwise _ hwB.nodup)
  · intro fuel hfuel
    obtain ⟨s', out', k, h1, -, -, -, -⟩ :=
      scrollLoop_terminates fuel (updateRankings (submitAll (freeze s).1 L))
        (wellFormed_updateRankings hwA) (by rw [totalPending_updateRankings]; exact hfuel)
    refine ⟨{ s' with frozen := false },
      [Message.scrollOk] ++ printScoreboard (updateRankings (submitAll (freeze s).1 L)) ++
        out' ++ printScoreboard s', ?_⟩
    simp [scroll, hfA, h1]

/-- From the end-to-end contest: `freeze`, an `Accepted` of `A` on problem `B` at 30,
then `scroll` gives the state of the same submission followed by `flush`. -/
theorem freeze_scroll_is_transparent_witness :
    Reachable contestBeforeFlush ∧ contestBeforeFlush.started = true ∧
    contestBeforeFlush.frozen = false ∧
    submitAll (freeze contestBeforeFlush).1 [('B', "A", "Accepted", 30)] = frozenContest ∧
    totalPending frozenContest < 2 ∧
    ∃ s' out, scroll 2 frozenContest = some (s', out) ∧
      s' = (flush (submitAll contestBeforeFlush [('B', "A", "Accepted", 30)])).1 := by
  have key := freeze_scroll_is_transparent contestBeforeFlush reachable_contestBeforeFlush
    (by decide) (by decide) [('B', "A", "Accepted", 30)] (by
      intro x hx
      rw [List.mem_singleton] at hx
      subst hx
      exact ⟨by decide, by decide⟩)
  have hsub : submitAll (freeze contestBeforeFlush).1 [('B', "A", "Accepted", 30)] =
      frozenContest := rfl
  rw [hsub] at key
  obtain ⟨s', out, hs⟩ := key.2 2 (by decide)
  exact ⟨reachable_contestBeforeFlush, by decide, by decide, hsub, by decide, s', out, hs,
    (key.1 2 s' out hs).1⟩

end ICPC
